import Mathlib

/-!
fastcut (`csvcut.cc`): column selection from delimited text

A shallow embedding of `csvcut.cc` and the properties of its line splitter, index resolver and
projector.

Conventions of the embedding.

* A byte is a `Char`; a C string is the `List Char` of its bytes before the terminating NUL.
  Memory that is written in place (the specification given to `strtok`, the line given to
  `as_parts`) is a `List Char` that may hold NUL bytes, addressed by offsets; one more NUL is
  understood to follow its last byte.
* A `char const*` that is only read is represented by the C string it points to.
* `int` values are `Int`.  `std::atoi` is defined only when the value fits in 32 bits; field and
  index counts are taken to fit in `int`.  A numeral beyond `int` makes the run undefined;
  `atoi_wrapped` is the value an implementation that keeps the low 32 bits computes there.
* `std::cout` is a `List Char` threaded through the functions that write to it; `exit` and
  behaviour the language leaves undefined are outcomes of `Result`.
* Loops whose trip count is not the length of a list carry a fuel argument and end in
  `Result.diverge` when it runs out; the callers pass a fuel that is never exhausted.
-/

namespace Fastcut

/-! ## Outcomes -/

/-- The ways the program stops with a diagnostic. -/
inductive Failure where
  /-- Lines 108-109: no token in the specification; the usage text follows the message. -/
  | no_specification
  /-- Lines 79-80 and 88-89. -/
  | invalid_column (index : Int)
  /-- Lines 96-97. -/
  | cannot_find (name : List Char)
  /-- Lines 227-228. -/
  | cannot_open (file_name : List Char)
  /-- Line 209: `-h` or an option `getopt` rejects; `main` returns `usage()`. -/
  | help
  deriving DecidableEq, Repr

/-- The exit status of each failure. -/
def Failure.status : Failure → Nat
  | .no_specification => 2
  | .invalid_column _ => 2
  | .cannot_find _ => 1
  | .cannot_open _ => 1
  | .help => 2

/-- Lines 35-51: what `usage()` writes to `std::cerr`. -/
def usage (prog : List Char) : List Char :=
  "Fastcut v1.0\n\n".toList ++
  "Copyright © 2016 Chris Idzerda\n".toList ++
  "License GPLv3+: GNU GPL version 3 or later <http://gnu.org/licenses/gpl.html>.\n".toList ++
  "This is free software: you are free to change and redistribute it.\n".toList ++
  "There is NO WARRANTY, to the extent permitted by law.\n\n".toList ++
  "Print selected columns to standard output.\n".toList ++
  "\n".toList ++
  "usage: ".toList ++ prog ++ " [-h] [-s] -(c|K) columns [input.csv] [...]\n\n".toList ++
  "\t-s\tskip the header (i.e., the first line)\n".toList ++
  "\t-c\tcomma-separated list of 1-based column ranges to print\n".toList ++
  "\t-K\tcomma-separated list of 0-based column ranges to print\n\n".toList ++
  "Options affect only those files that appear after them.  Specifying options at\n".toList ++
  "the end assumes standard input is the last file.\n".toList

/-- What the program itself writes to `std::cerr` for each failure. -/
def Failure.diagnostic (prog : List Char) : Failure → List Char
  | .no_specification => prog ++ ": no column specification provided\n\n".toList ++ usage prog
  | .invalid_column index =>
    prog ++ ": invalid column specification ".toList ++ (toString index).toList ++ "\n".toList
  | .cannot_find name => prog ++ ": cannot find '".toList ++ name ++ "' in header\n".toList
  | .cannot_open file_name =>
    prog ++ ": cannot open '".toList ++ file_name ++ "' for reading\n".toList
  | .help => usage prog

/-- The outcome of running a piece of the program. -/
inductive Result (α : Type) where
  /-- Control reached the end of the piece. -/
  | ok (a : α)
  /-- The program stopped with a diagnostic and `Failure.status`. -/
  | exit (f : Failure)
  /-- The language gives the execution no meaning. -/
  | undefined
  /-- The fuel of a loop ran out. -/
  | diverge
  deriving DecidableEq, Repr

/-- Sequencing: the second piece runs only if the first reached its end. -/
def Result.bind {α β : Type} (r : Result α) (k : α → Result β) : Result β :=
  match r with
  | .ok a => k a
  | .exit f => .exit f
  | .undefined => .undefined
  | .diverge => .diverge

/-! ## C strings -/

/-- The terminator of a C string. -/
def NUL : Char := Char.ofNat 0

/-- The C string at offset `p` of `buf`. -/
def cstr (buf : List Char) (p : Nat) : List Char :=
  (buf.drop p).takeWhile (fun ch => ch != NUL)

/-- The call `std::strrchr(s, ch)` on the C string `s`: the offset of the last `ch`. -/
def strrchr : List Char → Char → Option Nat
  | [], _ => none
  | c :: rest, ch =>
    match strrchr rest ch with
    | some i => some (i + 1)
    | none => if c == ch then some 0 else none

/-- The digits `std::atoi` consumes, accumulated in base ten. -/
def atoi_digits : List Char → Nat → Nat
  | [], acc => acc
  | ch :: rest, acc =>
    if ch.isDigit then atoi_digits rest (10 * acc + (ch.toNat - '0'.toNat)) else acc

/-- The `isspace` of the C locale. -/
def isspace (ch : Char) : Bool :=
  ch == ' ' || (9 ≤ ch.toNat && ch.toNat ≤ 13)

/-- The call `std::atoi(s)` on the C string `s`: white space, an optional sign, then digits.
`none` when the value does not fit in `int`, where the behaviour is undefined. -/
def atoi (s : List Char) : Option Int :=
  let s := s.dropWhile isspace
  let v : Int :=
    match s with
    | [] => 0
    | c :: rest =>
      if c == '-' then -(atoi_digits rest 0 : Int)
      else if c == '+' then (atoi_digits rest 0 : Int)
      else (atoi_digits s 0 : Int)
  if -2147483648 ≤ v ∧ v ≤ 2147483647 then some v else none

/-- The value of `std::atoi(s)` on an implementation that computes it as
`(int) strtol(s, nullptr, 10)` with a 64-bit `long`: `strtol` stops at the ends of `long`, and
the conversion to `int` keeps the low 32 bits.  It is the value of `atoi` where that one is
defined. -/
def atoi_wrapped (s : List Char) : Int :=
  let s := s.dropWhile isspace
  let v : Int :=
    match s with
    | [] => 0
    | c :: rest =>
      if c == '-' then -(atoi_digits rest 0 : Int)
      else if c == '+' then (atoi_digits rest 0 : Int)
      else (atoi_digits s 0 : Int)
  let v := max (-9223372036854775808) (min v 9223372036854775807)
  (v + 2147483648) % 4294967296 - 2147483648

/-! ## Lines 53-70: `as_parts` -/

/-- The `for(auto& ch: line)` loop from the character at offset `i` on: the characters as the
loop leaves them, and the pointers pushed onto `rv`. -/
def as_parts_loop : List Char → Nat → Bool → List Char × List Nat
  | [], _, _ => ([], [])
  | ch :: rest, i, is_in_quote =>
    if is_in_quote then
      if ch == '"' then
        let r := as_parts_loop rest (i + 1) false
        (ch :: r.1, r.2)
      else
        let r := as_parts_loop rest (i + 1) true
        (ch :: r.1, r.2)
    else if ch == ',' then
      let r := as_parts_loop rest (i + 1) false
      (NUL :: r.1, (i + 1) :: r.2)
    else if ch == '"' then
      let r := as_parts_loop rest (i + 1) true
      (ch :: r.1, r.2)
    else
      let r := as_parts_loop rest (i + 1) false
      (ch :: r.1, r.2)

/-- The function `as_parts`: the vector of pointers into the line, each given as the C string
it points to once the loop has written its terminators. -/
def as_parts (line : List Char) : List (List Char) :=
  let r := as_parts_loop line 0 false
  (0 :: r.2).map (cstr r.1)

/-! ## Lines 72-102: `get_index` -/

/-- The call `std::find(parts.begin(), parts.end(), s) - parts.begin()`: the offset of the first
element whose C string equals `s`, the length of `parts` when there is none. -/
def find : List (List Char) → List Char → Nat
  | [], _ => 0
  | part :: rest, s => if part = s then 0 else find rest s + 1

/-- The function `get_index(begin, end, parts, is_one_based)`: `begin` is the C string at the
pointer `begin` and `n` is `end - begin`. -/
def get_index (begin : List Char) (n : Nat) (parts : List (List Char)) (is_one_based : Bool) :
    Result Int :=
  if (begin.take n).all Char.isDigit then
    match atoi begin with
    | none => .undefined
    | some index =>
      let checked : Result Int :=
        if is_one_based then
          if index < 1 then .exit (.invalid_column index) else .ok (index - 1)
        else .ok index
      checked.bind fun index =>
        if index ≥ (parts.length : Int) then
          .exit (.invalid_column (if is_one_based then index + 1 else index))
        else .ok index
  else
    let s := begin.take n
    let it := find parts s
    if it = parts.length then .exit (.cannot_find s) else .ok (it : Int)

/-- Lines 77-90 of `get_index`: the tests made on the value `index` that `std::atoi` gave, and
the index returned. -/
def check_index (index : Int) (parts : List (List Char)) (is_one_based : Bool) : Result Int :=
  let checked : Result Int :=
    if is_one_based then
      if index < 1 then .exit (.invalid_column index) else .ok (index - 1)
    else .ok index
  checked.bind fun index =>
    if index ≥ (parts.length : Int) then
      .exit (.invalid_column (if is_one_based then index + 1 else index))
    else .ok index

/-! ## Lines 104-189: `parse_and_cut` -/

/-- The call `std::strtok(s, ",")` with the scan starting at offset `s` of `buf` (the argument,
or the pointer saved by the previous call): the memory afterwards, the saved pointer, and the
token if there is one. -/
def strtok (buf : List Char) (s : Nat) : List Char × Nat × Option Nat :=
  let s := s + ((cstr buf s).takeWhile (fun ch => ch == ',')).length
  if cstr buf s = [] then (buf, s, none)
  else
    let e := s + ((cstr buf s).takeWhile (fun ch => ch != ',')).length
    if buf[e]? = some ',' then (buf.set e NUL, e + 1, some s)
    else (buf, e, some s)

/-- Lines 151-153: `for(int i= first_index; i <= last_index; ++i) indices.push_back(i)`. -/
def push_ascending : Nat → Int → Int → List Int → Result (List Int)
  | 0, _, _, _ => .diverge
  | fuel + 1, i, last_index, indices =>
    if i ≤ last_index then push_ascending fuel (i + 1) last_index (indices ++ [i])
    else .ok indices

/-- Lines 147-149: `for(int i= first_index; i >= last_index; --i) indices.push_back(i)`. -/
def push_descending : Nat → Int → Int → List Int → Result (List Int)
  | 0, _, _, _ => .diverge
  | fuel + 1, i, last_index, indices =>
    if i ≥ last_index then push_descending fuel (i - 1) last_index (indices ++ [i])
    else .ok indices

/-- Lines 146-154: the range from `first_index` to `last_index` appended to `indices`. -/
def push_range (first_index last_index : Int) (indices : List Int) : Result (List Int) :=
  if last_index < first_index then
    push_descending ((first_index - last_index).toNat + 2) first_index last_index indices
  else
    push_ascending ((last_index - first_index).toNat + 2) first_index last_index indices

/-- Lines 122-160, the body of the `do` loop: `range_token` is the C string of the token. -/
def parse_range (range_token : List Char) (first_parts : List (List Char)) (is_one_based : Bool)
    (indices : List Int) : Result (List Int) :=
  match strrchr range_token '-' with
  | some end_of_range =>
    let first : Result Int :=
      if end_of_range = 0 then .ok 0
      else get_index range_token end_of_range first_parts is_one_based
    first.bind fun first_index =>
      let range_token := range_token.drop (end_of_range + 1)
      let last : Result Int :=
        if range_token ≠ [] then
          get_index range_token range_token.length first_parts is_one_based
        else .ok ((first_parts.length : Int) - 1)
      last.bind fun last_index => push_range first_index last_index indices
  | none =>
    (get_index range_token range_token.length first_parts is_one_based).bind fun index =>
      .ok (indices ++ [index])

/-- Lines 121-161, the `do ... while` loop: `range_token` is the offset of the current token in
`specification` and `save` the pointer `strtok` keeps.  Returns the indices and the
specification as the tokenizer leaves it. -/
def parse_ranges : Nat → List Char → Nat → Nat → List (List Char) → Bool → List Int →
    Result (List Int × List Char)
  | 0, _, _, _, _, _, _ => .diverge
  | fuel + 1, specification, save, range_token, first_parts, is_one_based, indices =>
    (parse_range (cstr specification range_token) first_parts is_one_based indices).bind
      fun indices =>
        match strtok specification save with
        | (specification, _, none) => .ok (indices, specification)
        | (specification, save, some range_token) =>
          parse_ranges fuel specification save range_token first_parts is_one_based indices

/-- The call `std::getline(sin, s)`: the line and the rest of the stream, `none` when the
stream has nothing left. -/
def getline : List Char → Option (List Char × List Char)
  | [] => none
  | ch :: rest =>
    if ch == '\n' then some ([], rest)
    else
      match getline rest with
      | none => some ([ch], [])
      | some (s, sin) => some (ch :: s, sin)

/-- Lines 165-172: the header loop; `operator[]` has a meaning only inside the vector. -/
def print_header (first_parts : List (List Char)) : List Int → List Char → Result (List Char)
  | [], cout => .ok cout
  | index :: rest, cout =>
    if 0 ≤ index ∧ index < (first_parts.length : Int) then
      let cout := cout ++ first_parts.getD index.toNat []
      if rest ≠ [] then print_header first_parts rest (cout ++ [','])
      else .ok (cout ++ ['\n'])
    else .undefined

/-- Lines 178-187: the loop that prints one data line. -/
def print_line (parts : List (List Char)) : List Int → List Char → Result (List Char)
  | [], cout => .ok cout
  | index :: rest, cout =>
    let printed : Result (List Char) :=
      if index < (parts.length : Int) then
        if 0 ≤ index then .ok (cout ++ parts.getD index.toNat []) else .undefined
      else .ok cout
    printed.bind fun cout =>
      if rest ≠ [] then print_line parts rest (cout ++ [','])
      else .ok (cout ++ ['\n'])

/-- Lines 176-188: `while(std::getline(sin, s))`. -/
def cut_lines : Nat → List Char → List Int → List Char → Result (List Char)
  | 0, _, _, _ => .diverge
  | fuel + 1, sin, indices, cout =>
    match getline sin with
    | none => .ok cout
    | some (s, sin) =>
      (print_line (as_parts s) indices cout).bind fun cout => cut_lines fuel sin indices cout

/-- What a call of `parse_and_cut` leaves behind. -/
structure Cut where
  /-- Standard output after the call. -/
  cout : List Char
  /-- How the call ended; when it returned, the memory of the specification afterwards. -/
  result : Result (Option (List Char))
  deriving DecidableEq, Repr

/-- The function `parse_and_cut(specification, sin, is_one_based, wants_header)`, started with
`cout` already written.  A null `specification` makes the first call of `strtok` continue a
scan that was never started, to which the language gives no meaning. -/
def parse_and_cut (specification : Option (List Char)) (sin : List Char)
    (is_one_based wants_header : Bool) (cout : List Char) : Cut :=
  match specification with
  | none => ⟨cout, .undefined⟩
  | some specification =>
    match strtok specification 0 with
    | (_, _, none) => ⟨cout, .exit .no_specification⟩
    | (specification, save, some range_token) =>
      match getline sin with
      | none => ⟨cout, .ok (some specification)⟩
      | some (s, sin) =>
        let first_parts := as_parts s
        match parse_ranges (specification.length + 1) specification save range_token
            first_parts is_one_based [] with
        | .ok (indices, specification) =>
          let header : Result (List Char) :=
            if wants_header then print_header first_parts indices cout else .ok cout
          match header with
          | .ok cout =>
            match cut_lines (sin.length + 1) sin indices cout with
            | .ok cout => ⟨cout, .ok (some specification)⟩
            | .exit f => ⟨cout, .exit f⟩
            | .undefined => ⟨cout, .undefined⟩
            | .diverge => ⟨cout, .diverge⟩
          | .exit f => ⟨cout, .exit f⟩
          | .undefined => ⟨cout, .undefined⟩
          | .diverge => ⟨cout, .diverge⟩
        | .exit f => ⟨cout, .exit f⟩
        | .undefined => ⟨cout, .undefined⟩
        | .diverge => ⟨cout, .diverge⟩

/-! ## Lines 191-242: `main` -/

/-- What one call of `getopt` reports. -/
structure Getopt where
  /-- The option character; `none` is the return value -1. -/
  ch : Option Char
  /-- The argument of `-c` and `-K`. -/
  optarg : List Char
  /-- The index of the next element of `argv` to scan. -/
  optind : Nat
  /-- What is left of the element being scanned. -/
  nextchar : List Char
  deriving DecidableEq, Repr

/-- One option character `c` of the element at `optind`, followed there by `rest`, against the
option string `"+sc:K:h"`. -/
def getopt_option (argv : List (List Char)) (optind : Nat) (c : Char) (rest : List Char) :
    Getopt :=
  if c == 's' || c == 'h' then
    if rest = [] then ⟨some c, [], optind + 1, []⟩ else ⟨some c, [], optind, rest⟩
  else if c == 'c' || c == 'K' then
    if rest ≠ [] then ⟨some c, rest, optind + 1, []⟩
    else
      match argv[optind + 1]? with
      | some arg => ⟨some c, arg, optind + 2, []⟩
      | none => ⟨some '?', [], optind + 1, []⟩
  else
    if rest = [] then ⟨some '?', [], optind + 1, []⟩ else ⟨some '?', [], optind, rest⟩

/-- The call `getopt(argc, argv, "+sc:K:h")`: the leading `+` stops the scan at the first
element that is not an option.  The element `--` ends the options as POSIX describes: it is
skipped and -1 returned.  `main` goes on calling `getopt` after that, for which glibc moves
`optind` back to the first operand; that is not followed here, and the model describes the
program on command lines without `--`. -/
def getopt (argv : List (List Char)) (optind : Nat) (nextchar : List Char) : Getopt :=
  match nextchar with
  | c :: rest => getopt_option argv optind c rest
  | [] =>
    match argv[optind]? with
    | none => ⟨none, [], optind, []⟩
    | some arg =>
      if arg = ['-', '-'] then ⟨none, [], optind + 1, []⟩
      else
        match arg with
        | '-' :: c :: rest => getopt_option argv optind c rest
        | _ => ⟨none, [], optind, []⟩

/-- The variables of `main` and of `getopt`, and standard output. -/
structure State where
  /-- The memory `specification` points to, `none` for the null pointer. -/
  specification : Option (List Char)
  /-- The variable `file_name`. -/
  file_name : Option (List Char)
  /-- The variable `is_one_based`. -/
  is_one_based : Bool
  /-- The variable `wants_header`. -/
  wants_header : Bool
  /-- The variable `optind` of `getopt`. -/
  optind : Nat
  /-- The position of `getopt` inside the element it is scanning. -/
  nextchar : List Char
  /-- Standard output so far. -/
  cout : List Char
  deriving DecidableEq, Repr

/-- What a run of `main` leaves behind. -/
structure Run where
  /-- Standard output. -/
  cout : List Char
  /-- How the run ended: `ok` is `return 0`. -/
  result : Result Unit
  deriving DecidableEq, Repr

/-- Lines 205-239: the `while` loop over the arguments, then standard input if `file_name` is
null.  `files` gives the contents of the files that can be opened. -/
def main_loop (argv : List (List Char)) (files : List Char → Option (List Char))
    (cin : List Char) : Nat → State → Run
  | 0, st => ⟨st.cout, .diverge⟩
  | fuel + 1, st =>
    let g := getopt argv st.optind st.nextchar
    match g.ch with
    | none =>
      match argv[g.optind]? with
      | none =>
        match st.file_name with
        | none =>
          let r := parse_and_cut st.specification cin st.is_one_based st.wants_header st.cout
          ⟨r.cout, r.result.bind fun _ => .ok ()⟩
        | some _ => ⟨st.cout, .ok ()⟩
      | some file_name =>
        match files file_name with
        | none => ⟨st.cout, .exit (.cannot_open file_name)⟩
        | some fin =>
          let r := parse_and_cut st.specification fin st.is_one_based st.wants_header st.cout
          match r.result with
          | .ok specification =>
            main_loop argv files cin fuel
              { st with specification := specification, file_name := some file_name,
                        optind := g.optind + 1, nextchar := g.nextchar, cout := r.cout }
          | .exit f => ⟨r.cout, .exit f⟩
          | .undefined => ⟨r.cout, .undefined⟩
          | .diverge => ⟨r.cout, .diverge⟩
    | some ch =>
      if ch == 's' then
        main_loop argv files cin fuel
          { st with wants_header := false, optind := g.optind, nextchar := g.nextchar }
      else if ch == 'c' then
        main_loop argv files cin fuel
          { st with specification := some g.optarg, file_name := none, is_one_based := true,
                    optind := g.optind, nextchar := g.nextchar }
      else if ch == 'K' then
        main_loop argv files cin fuel
          { st with specification := some g.optarg, file_name := none, is_one_based := false,
                    optind := g.optind, nextchar := g.nextchar }
      else ⟨st.cout, .exit .help⟩

/-- Lines 193-198: the program name used in diagnostics. -/
def prog (argv : List (List Char)) : List Char :=
  let argv0 := argv.getD 0 []
  match strrchr argv0 '/' with
  | some i => argv0.drop (i + 1)
  | none => argv0

/-- The function `main`: `argv` starts with the program name. -/
def main (argv : List (List Char)) (files : List Char → Option (List Char))
    (cin : List Char) : Run :=
  main_loop argv files cin ((argv.map List.length).sum + argv.length + 1)
    ⟨none, none, false, true, 1, [], []⟩

/-- The exit status of a run, when it has one. -/
def Run.status (r : Run) : Option Nat :=
  match r.result with
  | .ok _ => some 0
  | .exit f => some f.status
  | .undefined => none
  | .diverge => none

/-- One call of `parse_and_cut` made by `main`, on line 230 or 238, with its arguments. -/
structure Call where
  /-- The file the stream was opened on; `none` for `std::cin`. -/
  file_name : Option (List Char)
  /-- The memory `specification` points to at the call, `none` for the null pointer. -/
  specification : Option (List Char)
  /-- The argument `is_one_based`. -/
  is_one_based : Bool
  /-- The argument `wants_header`. -/
  wants_header : Bool
  deriving DecidableEq, Repr

/-- The loop of `main` as `main_loop` runs it, with the calls of `parse_and_cut` it makes
recorded in order next to the run. -/
def main_traced (argv : List (List Char)) (files : List Char → Option (List Char))
    (cin : List Char) : Nat → State → Run × List Call
  | 0, st => (⟨st.cout, .diverge⟩, [])
  | fuel + 1, st =>
    let g := getopt argv st.optind st.nextchar
    match g.ch with
    | none =>
      match argv[g.optind]? with
      | none =>
        match st.file_name with
        | none =>
          let r := parse_and_cut st.specification cin st.is_one_based st.wants_header st.cout
          (⟨r.cout, r.result.bind fun _ => .ok ()⟩,
            [⟨none, st.specification, st.is_one_based, st.wants_header⟩])
        | some _ => (⟨st.cout, .ok ()⟩, [])
      | some file_name =>
        match files file_name with
        | none => (⟨st.cout, .exit (.cannot_open file_name)⟩, [])
        | some fin =>
          let r := parse_and_cut st.specification fin st.is_one_based st.wants_header st.cout
          let call : Call :=
            ⟨some file_name, st.specification, st.is_one_based, st.wants_header⟩
          match r.result with
          | .ok specification =>
            let t := main_traced argv files cin fuel
              { st with specification := specification, file_name := some file_name,
                        optind := g.optind + 1, nextchar := g.nextchar, cout := r.cout }
            (t.1, call :: t.2)
          | .exit f => (⟨r.cout, .exit f⟩, [call])
          | .undefined => (⟨r.cout, .undefined⟩, [call])
          | .diverge => (⟨r.cout, .diverge⟩, [call])
    | some ch =>
      if ch == 's' then
        main_traced argv files cin fuel
          { st with wants_header := false, optind := g.optind, nextchar := g.nextchar }
      else if ch == 'c' then
        main_traced argv files cin fuel
          { st with specification := some g.optarg, file_name := none, is_one_based := true,
                    optind := g.optind, nextchar := g.nextchar }
      else if ch == 'K' then
        main_traced argv files cin fuel
          { st with specification := some g.optarg, file_name := none, is_one_based := false,
                    optind := g.optind, nextchar := g.nextchar }
      else (⟨st.cout, .exit .help⟩, [])

/-- The run of `main` together with the calls of `parse_and_cut` it makes. -/
def traced (argv : List (List Char)) (files : List Char → Option (List Char))
    (cin : List Char) : Run × List Call :=
  main_traced argv files cin ((argv.map List.length).sum + argv.length + 1)
    ⟨none, none, false, true, 1, [], []⟩

/-! ## Reference definitions for the line splitter -/

/-- The fields of a line read with the quoted-span flag `is_in_quote`, as lists: a comma outside
a quoted span ends the field, every other character joins the field it stands in. -/
def split_fields : Bool → List Char → List (List Char)
  | _, [] => [[]]
  | is_in_quote, ch :: rest =>
    if !is_in_quote && ch == ',' then [] :: split_fields false rest
    else (split_fields (if ch == '"' then !is_in_quote else is_in_quote) rest).modifyHead
      (fun field => ch :: field)

/-- Whether offset `i` of `s` holds a comma that an odd (`quoted = true`) or even
(`quoted = false`) number of double quotes precede. -/
def is_comma_after (quoted : Bool) (s : List Char) (i : Nat) : Bool :=
  s[i]? == some ',' && (decide ((s.take i).count '"' % 2 = 1) == quoted)

/-- The offsets of the commas of `line` that an even number of double quotes precede. -/
def top_level_commas (line : List Char) : List Nat :=
  (List.range line.length).filter (is_comma_after false line)

/-- The pieces of `line` from offset `start` on when it is cut at the offsets `cuts`, the
characters at the cuts left out. -/
def pieces (line : List Char) : List Nat → Nat → List (List Char)
  | [], start => [line.drop start]
  | cut :: cuts, start => (line.drop start).take (cut - start) :: pieces line cuts (cut + 1)

/-! ## Reference definitions for the index resolver -/

/-- The value of a decimal numeral, most significant digit first. -/
def decimal_value (digits : List Char) : Nat :=
  Nat.ofDigits 10 (digits.reverse.map fun ch => ch.toNat - '0'.toNat)

/-- The integers from `s` to `e` inclusive, ascending when `s ≤ e` and descending otherwise. -/
def interval (s e : Int) : List Int :=
  if s ≤ e then (List.range (e - s + 1).toNat).map fun (k : Nat) => s + (k : Int)
  else (List.range (s - e + 1).toNat).map fun (k : Nat) => s - (k : Int)

/-- The index list `parse_and_cut` computes on lines 106-161 from a specification and the first
line of a source. -/
def resolve (specification first_line : List Char) (is_one_based : Bool) : Result (List Int) :=
  match strtok specification 0 with
  | (_, _, none) => .exit .no_specification
  | (specification, save, some range_token) =>
    (parse_ranges (specification.length + 1) specification save range_token
      (as_parts first_line) is_one_based []).bind fun r => .ok r.1

/-- The tokens of a specification: its non-empty pieces between commas, in order. -/
def tokens (specification : List Char) : List (List Char) :=
  (specification.splitOn ',').filter fun token => !token.isEmpty

/-- The index lists of the tokens, each resolved on its own, concatenated in order; the first
token that fails decides the failure. -/
def resolve_tokens (first_parts : List (List Char)) (is_one_based : Bool) :
    List (List Char) → Result (List Int)
  | [] => .ok []
  | token :: rest =>
    (parse_range token first_parts is_one_based []).bind fun head =>
      (resolve_tokens first_parts is_one_based rest).bind fun tail => .ok (head ++ tail)

/-- The index list of the tokens the way the `do` loop builds it, each token appending to the
indices so far. -/
def fold_tokens (first_parts : List (List Char)) (is_one_based : Bool) :
    List (List Char) → List Int → Result (List Int)
  | [], indices => .ok indices
  | token :: rest, indices =>
    (parse_range token first_parts is_one_based indices).bind
      (fold_tokens first_parts is_one_based rest)

/-- Whether the memory at a pointer ends the C string there: nothing follows, or a NUL. -/
def at_end : List Char → Bool
  | [] => true
  | ch :: _ => ch == NUL

/-! ## Reference definitions for the projector -/

/-- The lines of a source, as successive calls of `getline` deliver them: the pieces between
newlines, a last piece without newline counting when it is not empty. -/
def lines_of : List Char → List (List Char)
  | [] => []
  | ch :: rest =>
    if ch == '\n' then [] :: lines_of rest
    else
      match lines_of rest with
      | [] => [[ch]]
      | s :: more => (ch :: s) :: more

/-- The cell of a line for index `i`: its `i`-th field when `i` is below its field count, the
empty text otherwise. -/
def cell (parts : List (List Char)) (i : Int) : List Char :=
  if i < (parts.length : Int) then parts.getD i.toNat [] else []

/-- The output line for a data line: its cells for the indices, a comma between them, then a
newline. -/
def emitted_line (indices : List Int) (s : List Char) : List Char :=
  [','].intercalate (indices.map (cell (as_parts s))) ++ ['\n']

/-! ## Reference definitions for the command line -/

/-- An argument of the command line: an option with what it takes, or a file name. -/
inductive Arg where
  /-- The option `-s`. -/
  | s
  /-- The option `-c` and its specification. -/
  | c (specification : List Char)
  /-- The option `-K` and its specification. -/
  | K (specification : List Char)
  /-- A file name. -/
  | file (file_name : List Char)
  deriving DecidableEq, Repr

/-- The elements of `argv` an argument is written as, an option apart from what it takes. -/
def Arg.argv : Arg → List (List Char)
  | .s => [['-', 's']]
  | .c specification => [['-', 'c'], specification]
  | .K specification => [['-', 'K'], specification]
  | .file file_name => [file_name]

/-- The vector `argv` of a command line: the program name, then the arguments. -/
def command_line (name : List Char) (args : List Arg) : List (List Char) :=
  name :: args.flatMap Arg.argv

/-- Whether an argument is a file name. -/
def Arg.is_file : Arg → Bool
  | .file _ => true
  | _ => false

/-- Whether an argument is `-c` or `-K`. -/
def Arg.is_columns : Arg → Bool
  | .c _ => true
  | .K _ => true
  | _ => false

/-- The specification in effect after the arguments, `spec` being in effect before them. -/
def spec_after : List Arg → Option (List Char) → Option (List Char)
  | [], spec => spec
  | .c specification :: rest, _ => spec_after rest (some specification)
  | .K specification :: rest, _ => spec_after rest (some specification)
  | _ :: rest, spec => spec_after rest spec

/-- The mode in effect after the arguments. -/
def mode_after : List Arg → Bool → Bool
  | [], mode => mode
  | .c _ :: rest, _ => mode_after rest true
  | .K _ :: rest, _ => mode_after rest false
  | _ :: rest, mode => mode_after rest mode

/-- The header setting in effect after the arguments. -/
def header_after : List Arg → Bool → Bool
  | [], header => header
  | .s :: rest, _ => header_after rest false
  | _ :: rest, header => header_after rest header

/-- Whether `file_name` is null after the arguments, `null` telling whether it is before
them: a file name sets it and `-c` and `-K` reset it. -/
def null_after : List Arg → Bool → Bool
  | [], null => null
  | .file _ :: rest, _ => null_after rest false
  | .c _ :: rest, _ => null_after rest true
  | .K _ :: rest, _ => null_after rest true
  | .s :: rest, null => null_after rest null

/-- The run over the arguments in order, as the usage text has it: an option changes the
settings for the sources after it, a file is cut with the settings in effect, and standard
input is cut last when `file_name` is null; each call of `parse_and_cut` is recorded. -/
def run_args (files : List Char → Option (List Char)) (cin : List Char) :
    List Arg → Option (List Char) → Bool → Bool → Bool → List Char → Run × List Call
  | [], spec, null, mode, header, cout =>
    if null then
      let r := parse_and_cut spec cin mode header cout
      (⟨r.cout, r.result.bind fun _ => .ok ()⟩, [⟨none, spec, mode, header⟩])
    else (⟨cout, .ok ()⟩, [])
  | .s :: rest, spec, null, mode, _, cout => run_args files cin rest spec null mode false cout
  | .c specification :: rest, _, _, _, header, cout =>
    run_args files cin rest (some specification) true true header cout
  | .K specification :: rest, _, _, _, header, cout =>
    run_args files cin rest (some specification) true false header cout
  | .file file_name :: rest, spec, _, mode, header, cout =>
    match files file_name with
    | none => (⟨cout, .exit (.cannot_open file_name)⟩, [])
    | some fin =>
      let r := parse_and_cut spec fin mode header cout
      match r.result with
      | .ok memory =>
        let t := run_args files cin rest memory false mode header r.cout
        (t.1, ⟨some file_name, spec, mode, header⟩ :: t.2)
      | .exit f => (⟨r.cout, .exit f⟩, [⟨some file_name, spec, mode, header⟩])
      | .undefined => (⟨r.cout, .undefined⟩, [⟨some file_name, spec, mode, header⟩])
      | .diverge => (⟨r.cout, .diverge⟩, [⟨some file_name, spec, mode, header⟩])

/-! ## The line splitter -/

theorem cstr_append_left (pre l : List Char) (k : Nat) :
    cstr (pre ++ l) (pre.length + k) = cstr l k := by
  unfold cstr
  rw [List.drop_append]

theorem cstr_append_length (pre l : List Char) :
    cstr (pre ++ l) pre.length = l.takeWhile (fun ch => ch != NUL) := by
  simp [cstr]

theorem split_fields_ne_nil (q : Bool) (line : List Char) : split_fields q line ≠ [] := by
  induction line generalizing q with
  | nil => simp [split_fields]
  | cons ch rest ih =>
    unfold split_fields
    split
    · simp
    · cases h : split_fields (if ch == '"' then !q else q) rest with
      | nil => exact absurd h (ih _)
      | cons f fs => simp

/-- The pointers of `as_parts_loop`, read as C strings in the memory the loop leaves, are the
fields of `split_fields`, each cut at its first NUL. -/
theorem as_parts_loop_eq (rest pre : List Char) (q : Bool) :
    (pre.length :: (as_parts_loop rest pre.length q).2).map
        (cstr (pre ++ (as_parts_loop rest pre.length q).1))
      = (split_fields q rest).map (List.takeWhile fun ch => ch != NUL) := by
  induction rest generalizing pre q with
  | nil =>
    simp [as_parts_loop, split_fields, cstr]
  | cons ch rest ih =>
    have key : ∀ (q1 : Bool) (w : Char),
        (pre.length :: (as_parts_loop rest (pre.length + 1) q1).2).map
            (cstr (pre ++ w :: (as_parts_loop rest (pre.length + 1) q1).1))
          = ((split_fields q1 rest).modifyHead (fun field => w :: field)).map
                (List.takeWhile fun ch => ch != NUL) := by
      intro q1 w
      have h := ih (pre ++ [w]) q1
      simp only [List.length_append, List.length_singleton, List.append_assoc,
        List.singleton_append] at h
      cases hs : split_fields q1 rest with
      | nil => exact absurd hs (split_fields_ne_nil _ _)
      | cons f fs =>
        rw [hs] at h
        simp only [List.map_cons, List.cons.injEq] at h
        obtain ⟨h1, h2⟩ := h
        have h3 := cstr_append_length (pre ++ [w]) (as_parts_loop rest (pre.length + 1) q1).1
        simp only [List.length_append, List.length_singleton, List.append_assoc,
          List.singleton_append] at h3
        rw [h3] at h1
        simp only [List.map_cons, h2, cstr_append_length, List.modifyHead_cons,
          List.takeWhile_cons, h1]
    have split : ∀ (q1 : Bool),
        (pre.length :: (pre.length + 1) :: (as_parts_loop rest (pre.length + 1) q1).2).map
            (cstr (pre ++ NUL :: (as_parts_loop rest (pre.length + 1) q1).1))
          = [] :: (split_fields q1 rest).map (List.takeWhile fun ch => ch != NUL) := by
      intro q1
      have h := ih (pre ++ [NUL]) q1
      simp only [List.length_append, List.length_singleton, List.append_assoc,
        List.singleton_append] at h
      rw [List.map_cons, cstr_append_length, h]
      simp
    cases q with
    | true =>
      by_cases hq : ch = '"'
      · have hk := key false ch
        simp only [as_parts_loop, split_fields]
        simpa [hq] using hk
      · have hk := key true ch
        simp only [as_parts_loop, split_fields]
        simpa [hq] using hk
    | false =>
      by_cases hc : ch = ','
      · have hk := split false
        simp only [as_parts_loop, split_fields]
        simpa [hc] using hk
      · by_cases hq : ch = '"'
        · have hk := key true ch
          simp only [as_parts_loop, split_fields]
          simpa [hq, hc] using hk
        · have hk := key false ch
          simp only [as_parts_loop, split_fields]
          simpa [hq, hc] using hk

/-- The vector `as_parts` returns, for every line: the fields of `split_fields`, each cut at
its first NUL. -/
theorem as_parts_eq (line : List Char) :
    as_parts line = (split_fields false line).map (List.takeWhile fun ch => ch != NUL) := by
  have h := as_parts_loop_eq line [] false
  simpa [as_parts] using h

theorem takeWhile_ne_NUL (l : List Char) (h : NUL ∉ l) :
    l.takeWhile (fun ch => ch != NUL) = l := by
  rw [List.takeWhile_eq_self_iff]
  intro x hx
  have : x ≠ NUL := fun e => h (e ▸ hx)
  simpa using this

theorem split_fields_flatten_mem (q : Bool) (line : List Char) (f : List Char)
    (hf : f ∈ split_fields q line) (c : Char) (hc : c ∈ f) : c ∈ line := by
  induction line generalizing q f with
  | nil => simp [split_fields] at hf; subst hf; simp at hc
  | cons ch rest ih =>
    unfold split_fields at hf
    split at hf
    · rcases List.mem_cons.1 hf with h | h
      · subst h; simp at hc
      · exact List.mem_cons_of_mem _ (ih _ _ h hc)
    · cases hs : split_fields (if ch == '"' then !q else q) rest with
      | nil => exact absurd hs (split_fields_ne_nil _ _)
      | cons g gs =>
        rw [hs] at hf
        simp only [List.modifyHead_cons] at hf
        rcases List.mem_cons.1 hf with h | h
        · subst h
          rcases List.mem_cons.1 hc with h' | h'
          · subst h'; simp
          · exact List.mem_cons_of_mem _ (ih _ g (by rw [hs]; simp) h')
        · exact List.mem_cons_of_mem _ (ih _ f (by rw [hs]; simp [h]) hc)

/-- On a line without NUL the vector is `split_fields` itself. -/
theorem as_parts_eq_split_fields (line : List Char) (h : NUL ∉ line) :
    as_parts line = split_fields false line := by
  rw [as_parts_eq]
  conv_rhs => rw [← List.map_id (split_fields false line)]
  apply List.map_congr_left
  intro f hf
  simp only [id]
  exact takeWhile_ne_NUL f (fun hc => h (split_fields_flatten_mem _ _ f hf _ hc))

theorem intercalate_cons_cons (sep a b : List Char) (l : List (List Char)) :
    sep.intercalate (a :: b :: l) = a ++ sep ++ sep.intercalate (b :: l) := by
  simp [List.intercalate, List.intersperse]

theorem intercalate_modifyHead (sep : List Char) (ch : Char) (l : List (List Char))
    (h : l ≠ []) :
    sep.intercalate (l.modifyHead (fun field => ch :: field)) = ch :: sep.intercalate l := by
  cases l with
  | nil => exact absurd rfl h
  | cons a l =>
    cases l with
    | nil => simp [List.intercalate, List.intersperse]
    | cons b l => simp [intercalate_cons_cons]

/-- Joining the fields of `split_fields` with commas gives the line back, quotes or not. -/
theorem intercalate_split_fields (q : Bool) (line : List Char) :
    [','].intercalate (split_fields q line) = line := by
  induction line generalizing q with
  | nil => simp [split_fields, List.intercalate, List.intersperse]
  | cons ch rest ih =>
    unfold split_fields
    split
    · rename_i h
      simp only [Bool.and_eq_true, beq_iff_eq] at h
      cases hs : split_fields false rest with
      | nil => exact absurd hs (split_fields_ne_nil _ _)
      | cons g gs =>
        rw [intercalate_cons_cons, ← hs, ih, h.2]
        simp
    · rw [intercalate_modifyHead _ _ _ (split_fields_ne_nil _ _), ih]

theorem is_comma_after_zero (q : Bool) (ch : Char) (rest : List Char) :
    is_comma_after q (ch :: rest) 0 = (!q && ch == ',') := by
  cases q <;> simp [is_comma_after]

theorem is_comma_after_succ (q : Bool) (ch : Char) (rest : List Char) (j : Nat) :
    is_comma_after q (ch :: rest) (j + 1)
      = is_comma_after (if ch == '"' then !q else q) rest j := by
  unfold is_comma_after
  simp only [List.getElem?_cons_succ, List.take_succ_cons, List.count_cons]
  congr 1
  by_cases h : ch = '"'
  · have e : ∀ n : Nat, decide ((n + 1) % 2 = 1) = !decide (n % 2 = 1) := by
      intro n
      by_cases hn : n % 2 = 1
      · have : ¬ ((n + 1) % 2 = 1) := by omega
        simp [hn, this]
      · have : (n + 1) % 2 = 1 := by omega
        simp [hn, this]
    subst h
    simp only [beq_self_eq_true, if_true, e]
    cases q <;> cases decide ((List.take j rest).count '"' % 2 = 1) <;> rfl
  · simp [h]

theorem filter_is_comma_after_cons (q : Bool) (ch : Char) (rest : List Char) :
    (List.range (ch :: rest).length).filter (is_comma_after q (ch :: rest))
      = (if !q && ch == ',' then [0] else []) ++
        ((List.range rest.length).filter
          (is_comma_after (if ch == '"' then !q else q) rest)).map (· + 1) := by
  rw [List.length_cons, List.range_succ_eq_map, List.filter_cons, is_comma_after_zero,
    List.filter_map]
  have e : (is_comma_after q (ch :: rest) ∘ Nat.succ)
      = is_comma_after (if ch == '"' then !q else q) rest := by
    funext j
    exact is_comma_after_succ q ch rest j
  rw [e]
  split <;> rfl

theorem pieces_cons_shift (ch : Char) (rest : List Char) (cuts : List Nat) (start : Nat) :
    pieces (ch :: rest) (cuts.map (· + 1)) (start + 1) = pieces rest cuts start := by
  induction cuts generalizing start with
  | nil => simp [pieces]
  | cons c cs ih =>
    simp only [List.map_cons, pieces, List.drop_succ_cons, Nat.add_sub_add_right, ih]

theorem pieces_cons_zero (ch : Char) (rest : List Char) (cuts : List Nat) :
    pieces (ch :: rest) (cuts.map (· + 1)) 0
      = (pieces rest cuts 0).modifyHead (fun field => ch :: field) := by
  cases cuts with
  | nil => simp [pieces]
  | cons c cs =>
    simp only [List.map_cons, pieces, List.drop_zero, Nat.sub_zero, List.take_succ_cons,
      List.modifyHead_cons, pieces_cons_shift]

/-- The fields of `split_fields` are the pieces of the line between the commas at which the
flag is off. -/
theorem split_fields_eq_pieces (q : Bool) (s : List Char) :
    split_fields q s = pieces s ((List.range s.length).filter (is_comma_after q s)) 0 := by
  induction s generalizing q with
  | nil => simp [split_fields, pieces]
  | cons ch rest ih =>
    rw [filter_is_comma_after_cons]
    unfold split_fields
    by_cases h : (!q && ch == ',') = true
    · simp only [h, if_true, List.singleton_append, pieces, List.drop_zero, Nat.sub_zero,
        List.take_zero]
      have hq : q = false := by
        cases q
        · rfl
        · simp at h
      have hc : ch = ',' := by
        simp only [Bool.and_eq_true, beq_iff_eq] at h
        exact h.2
      subst hq
      subst hc
      have e := pieces_cons_shift ','
        rest ((List.range rest.length).filter (is_comma_after false rest)) 0
      simp only [Nat.zero_add] at e
      simp only [show ((',' == '"') = false) from by decide, Bool.false_eq_true, if_false]
      rw [e, ← ih]
    · simp only [h, if_false, List.nil_append, Bool.false_eq_true]
      rw [pieces_cons_zero, ← ih]

theorem pieces_length (s : List Char) (cuts : List Nat) (start : Nat) :
    (pieces s cuts start).length = 1 + cuts.length := by
  induction cuts generalizing start with
  | nil => simp [pieces]
  | cons c cs ih => simp [pieces, ih]; omega

theorem split_fields_length (s : List Char) :
    (split_fields false s).length = 1 + (top_level_commas s).length := by
  rw [split_fields_eq_pieces, pieces_length, top_level_commas]

theorem split_fields_eq_splitOn (s : List Char) (h : '"' ∉ s) :
    split_fields false s = s.splitOn ',' := by
  induction s with
  | nil => simp [split_fields, List.splitOn, List.splitOnP_nil]
  | cons ch rest ih =>
    have hch : ch ≠ '"' := fun e => h (e ▸ List.mem_cons_self _ _)
    have hrest : '"' ∉ rest := fun e => h (List.mem_cons_of_mem _ e)
    unfold split_fields
    rw [List.splitOn, List.splitOnP_cons]
    by_cases hc : ch = ','
    · subst hc
      simp only [Bool.not_false, beq_self_eq_true, Bool.and_self, if_true, ih hrest,
        List.splitOn]
    · simp only [Bool.not_false, Bool.true_and, beq_iff_eq, hc, if_false, hch, ih hrest,
        List.splitOn]

/-- C2: for every line that contains no double quote and no NUL, `as_parts` returns the pieces
of the line between its commas, and joining them with single commas gives back exactly the
original line. -/
theorem as_parts_join_roundtrip (line : List Char) (hquote : '"' ∉ line) (hnul : NUL ∉ line) :
    as_parts line = line.splitOn ',' ∧ [','].intercalate (as_parts line) = line := by
  rw [as_parts_eq_split_fields line hnul]
  exact ⟨split_fields_eq_splitOn line hquote, intercalate_split_fields false line⟩

/-- Witness of C2 on the line `a,,bc,`. -/
theorem as_parts_join_roundtrip_witness :
    as_parts ['a', ',', ',', 'b', 'c', ','] = [['a'], [], ['b', 'c'], []] ∧
      [','].intercalate (as_parts ['a', ',', ',', 'b', 'c', ',']) =
        ['a', ',', ',', 'b', 'c', ','] := by
  have h := as_parts_join_roundtrip ['a', ',', ',', 'b', 'c', ','] (by decide) (by decide)
  exact ⟨by decide, h.2⟩

/-- C3 as stated fails on a line that holds a NUL: in the line `"`, NUL, `,`, `"` no comma is
preceded by an even number of quotes, yet the only field is `"`; the comma and the second
quote are in no field. -/
theorem as_parts_nul_counterexample :
    top_level_commas ['"', NUL, ',', '"'] = [] ∧
      as_parts ['"', NUL, ',', '"'] = [['"']] ∧
      ',' ∉ (as_parts ['"', NUL, ',', '"']).flatten ∧
      (as_parts ['"', NUL, ',', '"']).flatten.count '"' = 1 ∧
      List.count '"' ['"', NUL, ',', '"'] = 2 := by
  decide

/-- C3 (amended): for every line `as_parts` returns 1 + (number of commas preceded by an even
number of double quotes) fields, each being the text between two consecutive such commas cut at
its first NUL, and the empty line yields exactly one empty field; for every line with no NUL
the fields are exactly the pieces between those commas, so every other comma and every quote
stays in its field and joining the fields with commas gives the line back. -/
theorem as_parts_splits_at_top_level_commas (line : List Char) :
    (as_parts line).length = 1 + (top_level_commas line).length ∧
      as_parts line =
        (pieces line (top_level_commas line) 0).map (List.takeWhile fun ch => ch != NUL) ∧
      as_parts [] = [[]] ∧
      (NUL ∉ line →
        as_parts line = pieces line (top_level_commas line) 0 ∧
          [','].intercalate (as_parts line) = line) := by
  refine ⟨?_, ?_, by decide, ?_⟩
  · rw [as_parts_eq, List.length_map, split_fields_length]
  · rw [as_parts_eq, split_fields_eq_pieces, top_level_commas]
  · intro h
    rw [as_parts_eq_split_fields line h]
    exact ⟨by rw [split_fields_eq_pieces, top_level_commas], intercalate_split_fields false line⟩

/-- Witness of C3 on the line `a,"b,c",d`. -/
theorem as_parts_splits_at_top_level_commas_witness :
    NUL ∉ ['a', ',', '"', 'b', ',', 'c', '"', ',', 'd'] ∧
      top_level_commas ['a', ',', '"', 'b', ',', 'c', '"', ',', 'd'] = [1, 7] ∧
      as_parts ['a', ',', '"', 'b', ',', 'c', '"', ',', 'd'] =
        [['a'], ['"', 'b', ',', 'c', '"'], ['d']] ∧
      [','].intercalate (as_parts ['a', ',', '"', 'b', ',', 'c', '"', ',', 'd']) =
        ['a', ',', '"', 'b', ',', 'c', '"', ',', 'd'] :=
  ⟨by decide, by decide, by decide,
    ((as_parts_splits_at_top_level_commas
      ['a', ',', '"', 'b', ',', 'c', '"', ',', 'd']).2.2.2 (by decide)).2⟩

/-! ## `get_index` -/

theorem atoi_digits_append (digits tail : List Char) (acc : Nat)
    (hd : ∀ c ∈ digits, c.isDigit = true) (ht : ∀ c ∈ tail.head?, c.isDigit = false) :
    atoi_digits (digits ++ tail) acc = acc * 10 ^ digits.length + decimal_value digits := by
  induction digits generalizing acc with
  | nil =>
    cases tail with
    | nil => simp [atoi_digits, decimal_value]
    | cons c r =>
      have : c.isDigit = false := ht c (by simp)
      simp [atoi_digits, decimal_value, this]
  | cons d ds ih =>
    have hd0 : d.isDigit = true := hd d (List.mem_cons_self _ _)
    have ih' := ih (10 * acc + (d.toNat - '0'.toNat)) (fun c hc => hd c (List.mem_cons_of_mem _ hc))
    have e : atoi_digits (d :: ds ++ tail) acc
        = atoi_digits (ds ++ tail) (10 * acc + (d.toNat - '0'.toNat)) := by
      rw [List.cons_append, atoi_digits, if_pos hd0]
    rw [e, ih']
    simp only [decimal_value, List.reverse_cons, List.map_append, List.map_cons, List.map_nil,
      Nat.ofDigits_append, List.length_map, List.length_reverse, Nat.ofDigits_singleton,
      List.length_cons]
    ring

theorem isDigit_not_isspace (c : Char) (h : c.isDigit = true) : isspace c = false := by
  have h1 : 48 ≤ c.toNat ∧ c.toNat ≤ 57 := by
    simp only [Char.isDigit, Bool.and_eq_true, decide_eq_true_eq] at h
    exact ⟨h.1, h.2⟩
  have h2 : c ≠ ' ' := by
    intro e
    subst e
    exact absurd h1.1 (by decide)
  simp only [isspace, Bool.or_eq_false_iff, Bool.and_eq_false_iff, beq_eq_false_iff_ne, ne_eq,
    decide_eq_false_iff_not, not_le]
  exact ⟨h2, Or.inr (by omega)⟩

theorem isDigit_ne_sign (c : Char) (h : c.isDigit = true) : c ≠ '-' ∧ c ≠ '+' := by
  constructor <;> (intro e; subst e; exact absurd h (by decide))

/-- On a C string that starts with a non-empty run of digits ending before a non-digit or at the
end, `atoi` is defined exactly when the run's value fits in `int`, and is that value. -/
theorem atoi_digits_run (digits tail : List Char) (hne : digits ≠ [])
    (hd : ∀ c ∈ digits, c.isDigit = true) (ht : ∀ c ∈ tail.head?, c.isDigit = false) :
    atoi (digits ++ tail) =
      if decimal_value digits ≤ 2147483647 then some (decimal_value digits : Int) else none := by
  cases digits with
  | nil => exact absurd rfl hne
  | cons d ds =>
    have hd0 : d.isDigit = true := hd d (List.mem_cons_self _ _)
    have hs := isDigit_not_isspace d hd0
    have hsign := isDigit_ne_sign d hd0
    have hv := atoi_digits_append (d :: ds) tail 0 hd ht
    simp only [Nat.zero_mul, Nat.zero_add] at hv
    simp only [atoi, List.cons_append, List.dropWhile_cons, hs, Bool.false_eq_true, if_false,
      beq_iff_eq, hsign.1, hsign.2]
    rw [← List.cons_append, hv]
    by_cases hfit : decimal_value (d :: ds) ≤ 2147483647
    · have : (-2147483648 : Int) ≤ (decimal_value (d :: ds) : Int) ∧
          (decimal_value (d :: ds) : Int) ≤ 2147483647 := by omega
      simp [hfit, this]
    · have : ¬ ((-2147483648 : Int) ≤ (decimal_value (d :: ds) : Int) ∧
          (decimal_value (d :: ds) : Int) ≤ 2147483647) := by omega
      simp [hfit, this]

/-- What `get_index` does on a run of digits whose value `v` fits in `int`. -/
theorem get_index_digits (digits tail : List Char) (parts : List (List Char))
    (is_one_based : Bool) (hne : digits ≠ [])
    (hd : ∀ c ∈ digits, c.isDigit = true) (ht : ∀ c ∈ tail.head?, c.isDigit = false)
    (hfit : decimal_value digits ≤ 2147483647) :
    get_index (digits ++ tail) digits.length parts is_one_based =
      if is_one_based then
        if 1 ≤ decimal_value digits ∧ decimal_value digits ≤ parts.length then
          .ok ((decimal_value digits : Int) - 1)
        else .exit (.invalid_column (decimal_value digits))
      else
        if decimal_value digits < parts.length then .ok (decimal_value digits : Int)
        else .exit (.invalid_column (decimal_value digits)) := by
  have hall : ((digits ++ tail).take digits.length).all Char.isDigit = true := by
    rw [List.take_left']
    · simpa using hd
    · rfl
  simp only [get_index, hall, if_true, atoi_digits_run digits tail hne hd ht, hfit]
  cases is_one_based with
  | true =>
    simp only [if_true]
    by_cases h1 : (decimal_value digits : Int) < 1
    · have : ¬ (1 ≤ decimal_value digits ∧ decimal_value digits ≤ parts.length) := by omega
      simp [h1, this, Result.bind]
    · by_cases h2 : (decimal_value digits : Int) - 1 ≥ (parts.length : Int)
      · have : ¬ (1 ≤ decimal_value digits ∧ decimal_value digits ≤ parts.length) := by omega
        simp only [h1, if_false, Result.bind, h2, if_true, this]
        simp
      · have : 1 ≤ decimal_value digits ∧ decimal_value digits ≤ parts.length := by omega
        simp only [h1, if_false, Result.bind, h2, this, and_self, if_true]
  | false =>
    simp only [Bool.false_eq_true, if_false, Result.bind]
    by_cases h2 : (decimal_value digits : Int) ≥ (parts.length : Int)
    · have : ¬ (decimal_value digits < parts.length) := by omega
      simp only [h2, if_true, this, if_false]
    · have : decimal_value digits < parts.length := by omega
      simp only [h2, if_false, this, if_true]

/-- C4: for a token part made only of decimal digits, of value `v` fitting in a 32-bit `int`
(in the specification the part is followed by the dash of its range or by the end of the token),
and a first line of `N` fields, `get_index` returns `v - 1` in one-based mode iff
`1 ≤ v ≤ N`, returns `v` in zero-based mode iff `v < N`, and in every other case fails with the
"invalid column specification" diagnostic naming `v` and exit status 2; the fields are never
consulted, only their number. -/
theorem get_index_numeric (digits tail : List Char) (parts : List (List Char))
    (is_one_based : Bool) (hne : digits ≠ [])
    (hd : ∀ c ∈ digits, c.isDigit = true) (ht : ∀ c ∈ tail.head?, c.isDigit = false)
    (hfit : decimal_value digits ≤ 2147483647) :
    get_index (digits ++ tail) digits.length parts true =
        (if 1 ≤ decimal_value digits ∧ decimal_value digits ≤ parts.length then
          .ok ((decimal_value digits : Int) - 1)
        else .exit (.invalid_column (decimal_value digits))) ∧
      get_index (digits ++ tail) digits.length parts false =
        (if decimal_value digits < parts.length then .ok (decimal_value digits : Int)
        else .exit (.invalid_column (decimal_value digits))) ∧
      (Failure.invalid_column (decimal_value digits)).status = 2 ∧
      (∀ prog, (Failure.invalid_column (decimal_value digits)).diagnostic prog
        = prog ++ ": invalid column specification ".toList
            ++ (toString (decimal_value digits : Int)).toList ++ ['\n']) ∧
      (∀ other : List (List Char), other.length = parts.length →
        get_index (digits ++ tail) digits.length other is_one_based
          = get_index (digits ++ tail) digits.length parts is_one_based) := by
  refine ⟨?_, ?_, rfl, ?_, ?_⟩
  · rw [get_index_digits digits tail parts true hne hd ht hfit]
    rfl
  · rw [get_index_digits digits tail parts false hne hd ht hfit]
    rfl
  · intro prog
    simp [Failure.diagnostic]
  · intro other hlen
    rw [get_index_digits digits tail parts is_one_based hne hd ht hfit,
      get_index_digits digits tail other is_one_based hne hd ht hfit, hlen]

/-- Witness of C4: the left part `2` of the token `2-3` on a first line of three fields. -/
theorem get_index_numeric_witness :
    decimal_value ['2'] = 2 ∧
      get_index ['2', '-', '3'] 1 [['a'], ['b'], ['c']] true = .ok 1 ∧
      get_index ['2', '-', '3'] 1 [['a'], ['b'], ['c']] false = .ok 2 := by
  have hv : decimal_value ['2'] = 2 := by decide
  have h := get_index_numeric ['2'] ['-', '3'] [['a'], ['b'], ['c']] true (by decide)
    (by decide) (by decide) (by rw [hv]; decide)
  rw [hv] at h
  exact ⟨hv, h.1, h.2.1⟩

theorem find_le_length (l : List (List Char)) (a : List Char) : find l a ≤ l.length := by
  induction l with
  | nil => simp [find]
  | cons b l ih =>
    by_cases hb : b = a
    · simp [find, hb]
    · simp only [find, hb, if_false, List.length_cons]
      omega

theorem find_eq_length (l : List (List Char)) (a : List Char) :
    find l a = l.length ↔ a ∉ l := by
  induction l with
  | nil => simp [find]
  | cons b l ih =>
    by_cases hb : b = a
    · simp [find, hb]
    · have hb' : ¬ a = b := fun e => hb e.symm
      simp [find, hb, hb', ih]

theorem getElem?_find (l : List (List Char)) (a : List Char) (h : a ∈ l) :
    l[find l a]? = some a := by
  induction l with
  | nil => simp at h
  | cons b l ih =>
    by_cases hb : b = a
    · simp [find, hb]
    · have hb' : ¬ a = b := fun e => hb e.symm
      have hl : a ∈ l := by simpa [hb'] using h
      simp [find, hb, ih hl]

theorem getElem?_ne_of_lt_find (l : List (List Char)) (a : List Char) (j : Nat)
    (h : j < find l a) : l[j]? ≠ some a := by
  induction l generalizing j with
  | nil => simp
  | cons b l ih =>
    by_cases hb : b = a
    · simp [find, hb] at h
    · simp only [find, hb, if_false] at h
      cases j with
      | zero => simpa using hb
      | succ j =>
        simp only [List.getElem?_cons_succ]
        exact ih j (Nat.lt_of_succ_lt_succ h)

/-- What `get_index` does on a part that is not all digits. -/
theorem get_index_not_digits (part tail : List Char) (parts : List (List Char))
    (is_one_based : Bool) (hnd : ∃ c ∈ part, c.isDigit = false) :
    get_index (part ++ tail) part.length parts is_one_based =
      if part ∈ parts then .ok (find parts part : Int) else .exit (.cannot_find part) := by
  have htake : (part ++ tail).take part.length = part := List.take_left' rfl
  have hall : ¬ (((part ++ tail).take part.length).all Char.isDigit = true) := by
    rw [htake]
    obtain ⟨c, hc, hcd⟩ := hnd
    simp only [List.all_eq_true, not_forall]
    exact ⟨c, hc, by simp [hcd]⟩
  unfold get_index
  rw [if_neg hall]
  simp only [htake]
  by_cases hm : part ∈ parts
  · have : ¬ (find parts part = parts.length) := fun e => (find_eq_length _ _).1 e hm
    simp [hm, this]
  · have : find parts part = parts.length := (find_eq_length _ _).2 hm
    simp [hm, this]

/-- C5: for a token part with at least one non-digit character, `get_index` returns, in both
modes and with no offset, the smallest index whose field of the first line equals the part
exactly; it fails with the "cannot find '<name>' in header" diagnostic and exit status 1 if and
only if no field equals the part, as `b` against the header `a,B,c` does. -/
theorem get_index_name (part tail : List Char) (parts : List (List Char))
    (is_one_based : Bool) (hnd : ∃ c ∈ part, c.isDigit = false) :
    (part ∈ parts →
        ∃ i : Nat, get_index (part ++ tail) part.length parts is_one_based = .ok (i : Int) ∧
          parts[i]? = some part ∧ ∀ j < i, parts[j]? ≠ some part) ∧
      (get_index (part ++ tail) part.length parts is_one_based = .exit (.cannot_find part)
        ↔ part ∉ parts) ∧
      (Failure.cannot_find part).status = 1 ∧
      (∀ prog, (Failure.cannot_find part).diagnostic prog
        = prog ++ ": cannot find '".toList ++ part ++ "' in header\n".toList) ∧
      (∀ one_based, get_index ['b'] 1 (as_parts ['a', ',', 'B', ',', 'c']) one_based
        = .exit (.cannot_find ['b'])) := by
  refine ⟨?_, ?_, rfl, fun _ => rfl, ?_⟩
  · intro hm
    refine ⟨find parts part, ?_, getElem?_find parts part hm, ?_⟩
    · rw [get_index_not_digits part tail parts is_one_based hnd, if_pos hm]
    · intro j hj
      exact getElem?_ne_of_lt_find parts part j hj
  · rw [get_index_not_digits part tail parts is_one_based hnd]
    by_cases hm : part ∈ parts <;> simp [hm]
  · intro one_based
    cases one_based <;> decide

/-- Witness of C5: the name `c` against the fields `a`, `c`, `c` is found at index 1. -/
theorem get_index_name_witness :
    ∃ i : Nat, get_index ['c'] 1 [['a'], ['c'], ['c']] true = .ok (i : Int) ∧
      [['a'], ['c'], ['c']][i]? = some ['c'] ∧
      ∀ j < i, [['a'], ['c'], ['c']][j]? ≠ some ['c'] :=
  (get_index_name ['c'] [] [['a'], ['c'], ['c']] true ⟨'c', by decide, by decide⟩).1 (by decide)

/-! ## Range tokens -/

theorem push_ascending_eq (fuel : Nat) (i last : Int) (indices : List Int)
    (h : (last + 1 - i).toNat < fuel) :
    push_ascending fuel i last indices
      = .ok (indices ++ (List.range (last + 1 - i).toNat).map fun (k : Nat) => i + (k : Int)) := by
  induction fuel generalizing i indices with
  | zero => exact absurd h (Nat.not_lt_zero _)
  | succ fuel ih =>
    unfold push_ascending
    by_cases hi : i ≤ last
    · have e : (last + 1 - i).toNat = (last + 1 - (i + 1)).toNat + 1 := by omega
      rw [if_pos hi, ih (i + 1) (indices ++ [i]) (by omega), e, List.range_succ_eq_map]
      simp only [List.map_cons, List.map_map, List.append_assoc, List.singleton_append,
        Nat.cast_zero, add_zero]
      congr 3
      apply List.map_congr_left
      intro k _
      simp only [Function.comp, Nat.succ_eq_add_one, Nat.cast_add, Nat.cast_one]
      ring
    · have e : (last + 1 - i).toNat = 0 := by omega
      rw [if_neg hi, e]
      simp

theorem push_descending_eq (fuel : Nat) (i last : Int) (indices : List Int)
    (h : (i + 1 - last).toNat < fuel) :
    push_descending fuel i last indices
      = .ok (indices ++ (List.range (i + 1 - last).toNat).map fun (k : Nat) => i - (k : Int)) := by
  induction fuel generalizing i indices with
  | zero => exact absurd h (Nat.not_lt_zero _)
  | succ fuel ih =>
    unfold push_descending
    by_cases hi : i ≥ last
    · have e : (i + 1 - last).toNat = (i - 1 + 1 - last).toNat + 1 := by omega
      rw [if_pos hi, ih (i - 1) (indices ++ [i]) (by omega), e, List.range_succ_eq_map]
      simp only [List.map_cons, List.map_map, List.append_assoc, List.singleton_append,
        Nat.cast_zero, sub_zero]
      congr 3
      apply List.map_congr_left
      intro k _
      simp only [Function.comp, Nat.succ_eq_add_one, Nat.cast_add, Nat.cast_one]
      ring
    · have e : (i + 1 - last).toNat = 0 := by omega
      rw [if_neg hi, e]
      simp

/-- The two `for` loops of lines 146-154 append the interval and never run out of fuel. -/
theorem push_range_eq (first_index last_index : Int) (indices : List Int) :
    push_range first_index last_index indices
      = .ok (indices ++ interval first_index last_index) := by
  unfold push_range interval
  by_cases h : last_index < first_index
  · have h' : ¬ first_index ≤ last_index := by omega
    rw [if_pos h, if_neg h', push_descending_eq _ _ _ _ (by omega)]
    have e : (first_index + 1 - last_index).toNat = (first_index - last_index + 1).toNat := by
      omega
    rw [e]
  · have h' : first_index ≤ last_index := by omega
    rw [if_neg h, if_pos h', push_ascending_eq _ _ _ _ (by omega)]
    have e : (last_index + 1 - first_index).toNat = (last_index - first_index + 1).toNat := by
      omega
    rw [e]

theorem interval_length (s e : Int) : ((interval s e).length : Int) = |s - e| + 1 := by
  unfold interval
  by_cases h : s ≤ e
  · rw [if_pos h, List.length_map, List.length_range, abs_of_nonpos (by omega)]
    omega
  · rw [if_neg h, List.length_map, List.length_range, abs_of_pos (by omega)]
    omega

theorem interval_getElem? (s e : Int) (k : Nat) (hk : k < (interval s e).length) :
    (interval s e)[k]? = some (if s ≤ e then s + (k : Int) else s - (k : Int)) := by
  unfold interval at hk ⊢
  by_cases h : s ≤ e
  · simp only [if_pos h, List.length_map, List.length_range] at hk ⊢
    simp [List.getElem?_map, List.getElem?_range hk]
  · simp only [if_neg h, List.length_map, List.length_range] at hk ⊢
    simp [List.getElem?_map, List.getElem?_range hk]

theorem mem_interval (s e x : Int) : x ∈ interval s e ↔ min s e ≤ x ∧ x ≤ max s e := by
  unfold interval
  by_cases h : s ≤ e
  · simp only [if_pos h, List.mem_map, List.mem_range, min_eq_left h, max_eq_right h]
    constructor
    · rintro ⟨k, hk, rfl⟩
      omega
    · intro hx
      exact ⟨(x - s).toNat, by omega, by omega⟩
  · have h' : e ≤ s := by omega
    simp only [if_neg h, List.mem_map, List.mem_range, min_eq_right h', max_eq_left h']
    constructor
    · rintro ⟨k, hk, rfl⟩
      omega
    · intro hx
      exact ⟨(s - x).toNat, by omega, by omega⟩

theorem strrchr_eq_none (s : List Char) (ch : Char) (h : ch ∉ s) : strrchr s ch = none := by
  induction s with
  | nil => rfl
  | cons c rest ih =>
    have hc : ¬ c = ch := fun e => h (e ▸ List.mem_cons_self _ _)
    simp [strrchr, ih (fun e => h (List.mem_cons_of_mem _ e)), hc]

/-- The last dash of `left-right` is the one written, when `right` has none. -/
theorem strrchr_append (left right : List Char) (ch : Char) (h : ch ∉ right) :
    strrchr (left ++ ch :: right) ch = some left.length := by
  induction left with
  | nil => simp [strrchr, strrchr_eq_none right ch h]
  | cons c rest ih => simp [strrchr, ih]

/-- How lines 122-154 treat a token whose last dash stands between `left` and `right`. -/
theorem parse_range_dash (left right : List Char) (first_parts : List (List Char))
    (is_one_based : Bool) (indices : List Int) (h : '-' ∉ right) :
    parse_range (left ++ '-' :: right) first_parts is_one_based indices =
      (if left = [] then Result.ok 0
        else get_index (left ++ '-' :: right) left.length first_parts is_one_based).bind
        fun first_index =>
          (if right = [] then Result.ok ((first_parts.length : Int) - 1)
            else get_index right right.length first_parts is_one_based).bind
            fun last_index => .ok (indices ++ interval first_index last_index) := by
  unfold parse_range
  rw [strrchr_append left right '-' h]
  have e : (left ++ '-' :: right).drop (left.length + 1) = right := by
    rw [← List.drop_drop, List.drop_left]
    rfl
  simp only [e, List.length_eq_zero, ne_eq, ite_not, push_range_eq]

/-- C6: for every range token whose two sides resolve to the zero-based indices `s` and `e`,
the token contributes exactly the integers between `s` and `e` inclusive, `|s - e| + 1` of
them, ascending when `s ≤ e` and descending when `s > e`; in one-based mode `3-1` on a
three-field first line gives `[2, 1, 0]`. -/
theorem range_token_contributes (left right : List Char) (first_parts : List (List Char))
    (is_one_based : Bool) (indices : List Int) (s e : Int) (hright : '-' ∉ right)
    (hs : (if left = [] then Result.ok 0
      else get_index (left ++ '-' :: right) left.length first_parts is_one_based) = .ok s)
    (he : (if right = [] then Result.ok ((first_parts.length : Int) - 1)
      else get_index right right.length first_parts is_one_based) = .ok e) :
    ∃ l : List Int,
      parse_range (left ++ '-' :: right) first_parts is_one_based indices = .ok (indices ++ l) ∧
        (l.length : Int) = |s - e| + 1 ∧
        (∀ k : Nat, k < l.length →
          l[k]? = some (if s ≤ e then s + (k : Int) else s - (k : Int))) ∧
        (∀ x : Int, x ∈ l ↔ min s e ≤ x ∧ x ≤ max s e) ∧
        resolve ['3', '-', '1'] ['a', ',', 'b', ',', 'c'] true = .ok [2, 1, 0] := by
  refine ⟨interval s e, ?_, interval_length s e, interval_getElem? s e, mem_interval s e, ?_⟩
  · rw [parse_range_dash left right first_parts is_one_based indices hright, hs, he]
    rfl
  · decide

/-- Witness of C6: the token `3-1` in one-based mode on the fields `a`, `b`, `c`. -/
theorem range_token_contributes_witness :
    ∃ l : List Int,
      parse_range ['3', '-', '1'] [['a'], ['b'], ['c']] true [] = .ok ([] ++ l) ∧
        (l.length : Int) = |(2 : Int) - 0| + 1 ∧
        (∀ k : Nat, k < l.length →
          l[k]? = some (if (2 : Int) ≤ 0 then 2 + (k : Int) else 2 - (k : Int))) ∧
        (∀ x : Int, x ∈ l ↔ min 2 0 ≤ x ∧ x ≤ max 2 0) ∧
        resolve ['3', '-', '1'] ['a', ',', 'b', ',', 'c'] true = .ok [2, 1, 0] :=
  range_token_contributes ['3'] ['1'] [['a'], ['b'], ['c']] true [] 2 0 (by decide)
    (by decide) (by decide)

theorem as_parts_length_pos (line : List Char) : 1 ≤ (as_parts line).length := by
  simp [as_parts]

theorem interval_zero (n : Nat) (h : 1 ≤ n) :
    interval 0 ((n : Int) - 1) = (List.range n).map fun (k : Nat) => (k : Int) := by
  unfold interval
  have h0 : (0 : Int) ≤ (n : Int) - 1 := by omega
  have e : ((n : Int) - 1 - 0 + 1).toNat = n := by omega
  rw [if_pos h0, e]
  apply List.map_congr_left
  intro k _
  simp

/-- C7: in both modes an empty left side of a range token stands for index 0 and an empty
right side for `N - 1`, `N` being the number of fields of the first line; hence the
specification `-` resolves to `[0, 1, ..., N - 1]` for every first line. -/
theorem open_range_sides (line : List Char) (is_one_based : Bool) :
    (∀ right indices, right ≠ [] → '-' ∉ right →
        parse_range ('-' :: right) (as_parts line) is_one_based indices
          = (get_index right right.length (as_parts line) is_one_based).bind
              fun e => .ok (indices ++ interval 0 e)) ∧
      (∀ left indices, left ≠ [] →
        parse_range (left ++ ['-']) (as_parts line) is_one_based indices
          = (get_index (left ++ ['-']) left.length (as_parts line) is_one_based).bind
              fun s => .ok (indices ++ interval s (((as_parts line).length : Int) - 1))) ∧
      resolve ['-'] line is_one_based
        = .ok ((List.range (as_parts line).length).map fun (k : Nat) => (k : Int)) := by
  refine ⟨?_, ?_, ?_⟩
  · intro right indices hne hdash
    have h := parse_range_dash [] right (as_parts line) is_one_based indices hdash
    simp only [List.nil_append, if_true, if_neg hne] at h
    rw [h]
    rfl
  · intro left indices hne
    have h := parse_range_dash left [] (as_parts line) is_one_based indices (by simp)
    simp only [if_true, if_neg hne] at h
    rw [h]
    cases get_index (left ++ ['-']) left.length (as_parts line) is_one_based <;> rfl
  · have h := parse_range_dash [] [] (as_parts line) is_one_based [] (by simp)
    simp only [List.nil_append, if_true, Result.bind] at h
    have hs : strtok ['-'] 0 = (['-'], 1, some 0) := by decide
    have hs1 : strtok ['-'] 1 = (['-'], 1, none) := by decide
    have hc : cstr ['-'] 0 = ['-'] := by decide
    simp only [resolve, hs, List.length_singleton, parse_ranges, hc, h, hs1, Result.bind,
      interval_zero _ (as_parts_length_pos line)]

/-- Witness of C7: the tokens `-2` and `2-` and the specification `-` on the first line
`a,b,c`, one-based. -/
theorem open_range_sides_witness :
    parse_range ['-', '2'] (as_parts ['a', ',', 'b', ',', 'c']) true [] = .ok [0, 1] ∧
      parse_range ['2', '-'] (as_parts ['a', ',', 'b', ',', 'c']) true [] = .ok [1, 2] ∧
      resolve ['-'] ['a', ',', 'b', ',', 'c'] true = .ok [0, 1, 2] := by
  have h := open_range_sides ['a', ',', 'b', ',', 'c'] true
  refine ⟨?_, ?_, ?_⟩
  · rw [h.1 ['2'] [] (by decide) (by decide)]
    decide
  · have h2 := h.2.1 ['2'] [] (by decide)
    rw [List.singleton_append] at h2
    rw [h2]
    decide
  · rw [h.2.2]
    decide

/-! ## Tokenizing the specification -/

theorem at_end_iff (tail : List Char) :
    at_end tail = true ↔ tail = [] ∨ ∃ r, tail = NUL :: r := by
  cases tail with
  | nil => simp [at_end]
  | cons ch r => simp [at_end]

theorem takeWhile_at_end (tail : List Char) (h : at_end tail = true) :
    tail.takeWhile (fun ch => ch != NUL) = [] := by
  rcases (at_end_iff tail).1 h with h | ⟨r, h⟩ <;> subst h <;> simp

theorem set_append_cons (l r : List Char) (a b : Char) :
    (l ++ a :: r).set l.length b = l ++ b :: r := by
  induction l with
  | nil => rfl
  | cons c l ih => simp [ih]

theorem getElem?_append_cons (l r : List Char) (a : Char) :
    (l ++ a :: r)[l.length]? = some a := by
  induction l with
  | nil => simp
  | cons c l ih => simpa using ih

/-- The scan of `strtok` over commas only: there is no token. -/
theorem strtok_none (pre commas tail : List Char) (hc : ∀ c ∈ commas, c = ',')
    (ht : at_end tail = true) :
    strtok (pre ++ (commas ++ tail)) pre.length
      = (pre ++ (commas ++ tail), pre.length + commas.length, none) := by
  have hcn : ∀ c ∈ commas, (c != NUL) = true := by
    intro c h
    rw [hc c h]
    decide
  have hcc : ∀ c ∈ commas, (c == ',') = true := by
    intro c h
    rw [hc c h]
    decide
  have h1 : cstr (pre ++ (commas ++ tail)) pre.length = commas := by
    rw [cstr_append_length, List.takeWhile_append_of_pos hcn, takeWhile_at_end tail ht,
      List.append_nil]
  have h2 : cstr (pre ++ (commas ++ tail)) (pre.length + commas.length) = [] := by
    have := cstr_append_length (pre ++ commas) tail
    rw [List.length_append, List.append_assoc] at this
    rw [this, takeWhile_at_end tail ht]
  have h3 : (commas.takeWhile fun ch => ch == ',') = commas := by
    rw [List.takeWhile_eq_self_iff]
    exact hcc
  simp only [strtok, h1, h3, h2, if_true]

/-- The scan of `strtok` over commas and then a token that the C string ends: the memory is
left as it is. -/
theorem strtok_last (pre commas t tail : List Char) (hc : ∀ c ∈ commas, c = ',')
    (hne : t ≠ []) (ht : ∀ c ∈ t, c ≠ ',' ∧ c ≠ NUL) (htail : at_end tail = true) :
    strtok (pre ++ (commas ++ (t ++ tail))) pre.length
      = (pre ++ (commas ++ (t ++ tail)), pre.length + commas.length + t.length,
          some (pre.length + commas.length)) := by
  have hcn : ∀ c ∈ commas, (c != NUL) = true := by
    intro c h
    rw [hc c h]
    decide
  have hcc : ∀ c ∈ commas, (c == ',') = true := by
    intro c h
    rw [hc c h]
    decide
  have htn : ∀ c ∈ t, (c != NUL) = true := by
    intro c h
    simpa using (ht c h).2
  have htc : ∀ c ∈ t, (c != ',') = true := by
    intro c h
    simpa using (ht c h).1
  have h1 : cstr (pre ++ (commas ++ (t ++ tail))) pre.length = commas ++ t := by
    rw [cstr_append_length, List.takeWhile_append_of_pos hcn, List.takeWhile_append_of_pos htn,
      takeWhile_at_end tail htail, List.append_nil]
  have h2 : cstr (pre ++ (commas ++ (t ++ tail))) (pre.length + commas.length) = t := by
    have := cstr_append_length (pre ++ commas) (t ++ tail)
    rw [List.length_append, List.append_assoc] at this
    rw [this, List.takeWhile_append_of_pos htn, takeWhile_at_end tail htail, List.append_nil]
  have h3 : ((commas ++ t).takeWhile fun ch => ch == ',') = commas := by
    rw [List.takeWhile_append_of_pos hcc]
    cases t with
    | nil => exact absurd rfl hne
    | cons a t =>
      have : (a == ',') = false := by simpa using (ht a (List.mem_cons_self _ _)).1
      simp only [List.takeWhile_cons, this, Bool.false_eq_true, if_false, List.append_nil]
  have h4 : (t.takeWhile fun ch => ch != ',') = t := by
    rw [List.takeWhile_eq_self_iff]
    exact htc
  have h5 : (pre ++ (commas ++ (t ++ tail)))[pre.length + commas.length + t.length]?
      ≠ some ',' := by
    have e : pre ++ (commas ++ (t ++ tail)) = (pre ++ commas ++ t) ++ tail := by
      simp only [List.append_assoc]
    have l : pre.length + commas.length + t.length = (pre ++ commas ++ t).length := by
      simp only [List.length_append]
    rw [e, l]
    rcases (at_end_iff tail).1 htail with h | ⟨r, h⟩
    · subst h
      rw [List.append_nil, List.getElem?_eq_none (Nat.le_refl _)]
      simp
    · subst h
      rw [getElem?_append_cons]
      decide
  simp only [strtok, h1, h3, h2, h4, hne, if_false, h5]

/-- The scan of `strtok` over commas and then a token that a comma ends: the comma becomes
the terminator and the saved pointer is the character after it. -/
theorem strtok_more (pre commas t r : List Char) (hc : ∀ c ∈ commas, c = ',')
    (hne : t ≠ []) (ht : ∀ c ∈ t, c ≠ ',' ∧ c ≠ NUL) :
    strtok (pre ++ (commas ++ (t ++ ',' :: r))) pre.length
      = (pre ++ (commas ++ (t ++ NUL :: r)), pre.length + commas.length + t.length + 1,
          some (pre.length + commas.length)) := by
  have hcn : ∀ c ∈ commas, (c != NUL) = true := by
    intro c h
    rw [hc c h]
    decide
  have hcc : ∀ c ∈ commas, (c == ',') = true := by
    intro c h
    rw [hc c h]
    decide
  have htn : ∀ c ∈ t, (c != NUL) = true := by
    intro c h
    simpa using (ht c h).2
  have htc : ∀ c ∈ t, (c != ',') = true := by
    intro c h
    simpa using (ht c h).1
  have hcomma : ((',' : Char) != NUL) = true := by decide
  have h1 : cstr (pre ++ (commas ++ (t ++ ',' :: r))) pre.length
      = commas ++ (t ++ ',' :: r.takeWhile fun ch => ch != NUL) := by
    rw [cstr_append_length, List.takeWhile_append_of_pos hcn, List.takeWhile_append_of_pos htn]
    simp only [List.takeWhile_cons, hcomma, if_true]
  have h2 : cstr (pre ++ (commas ++ (t ++ ',' :: r))) (pre.length + commas.length)
      = t ++ ',' :: r.takeWhile fun ch => ch != NUL := by
    have := cstr_append_length (pre ++ commas) (t ++ ',' :: r)
    rw [List.length_append, List.append_assoc] at this
    rw [this, List.takeWhile_append_of_pos htn]
    simp only [List.takeWhile_cons, hcomma, if_true]
  have h3 : ((commas ++ (t ++ ',' :: r.takeWhile fun ch => ch != NUL)).takeWhile
      fun ch => ch == ',') = commas := by
    rw [List.takeWhile_append_of_pos hcc]
    cases t with
    | nil => exact absurd rfl hne
    | cons a t =>
      have : (a == ',') = false := by simpa using (ht a (List.mem_cons_self _ _)).1
      simp only [List.cons_append, List.takeWhile_cons, this, Bool.false_eq_true, if_false,
        List.append_nil]
  have h4 : ((t ++ ',' :: r.takeWhile fun ch => ch != NUL).takeWhile fun ch => ch != ',')
      = t := by
    rw [List.takeWhile_append_of_pos htc]
    simp
  have h6 : t ++ ',' :: List.takeWhile (fun ch => ch != NUL) r ≠ [] := by simp
  have e : ∀ x : Char, pre ++ (commas ++ (t ++ x :: r)) = (pre ++ commas ++ t) ++ x :: r := by
    intro x
    simp only [List.append_assoc]
  have l : pre.length + commas.length + t.length = (pre ++ commas ++ t).length := by
    simp only [List.length_append]
  have h5 : (pre ++ (commas ++ (t ++ ',' :: r)))[pre.length + commas.length + t.length]?
      = some ',' := by
    rw [e, l, getElem?_append_cons]
  have h7 : (pre ++ (commas ++ (t ++ ',' :: r))).set
      (pre.length + commas.length + t.length) NUL = pre ++ (commas ++ (t ++ NUL :: r)) := by
    rw [e, l, set_append_cons, ← e]
  simp only [strtok, h1, h3, h2, h4, h6, if_false, h5, if_true, h7]

/-- Every memory content is commas, then either the end of the C string or a token followed by
the end or by a comma. -/
theorem memory_shape (D : List Char) :
    ∃ commas rest, D = commas ++ rest ∧ (∀ c ∈ commas, c = ',') ∧
      (at_end rest = true ∨
        ∃ t tail, rest = t ++ tail ∧ t ≠ [] ∧ (∀ c ∈ t, c ≠ ',' ∧ c ≠ NUL) ∧
          (at_end tail = true ∨ ∃ r, tail = ',' :: r)) := by
  refine ⟨D.takeWhile (fun c => c == ','), D.dropWhile (fun c => c == ','),
    (List.takeWhile_append_dropWhile _ D).symm, ?_, ?_⟩
  · intro c hc
    simpa using List.mem_takeWhile_imp hc
  · cases hrest : D.dropWhile (fun c => c == ',') with
    | nil => exact Or.inl rfl
    | cons a rest =>
      have ha : a ≠ ',' := by
        have h := List.head?_dropWhile_not (fun c => c == ',') D
        rw [hrest] at h
        simpa using h
      by_cases hn : a = NUL
      · exact Or.inl (by simp [at_end, hn])
      · right
        refine ⟨(a :: rest).takeWhile (fun c => c != ',' && c != NUL),
          (a :: rest).dropWhile (fun c => c != ',' && c != NUL),
          (List.takeWhile_append_dropWhile _ _).symm, ?_, ?_, ?_⟩
        · simp [List.takeWhile_cons, ha, hn]
        · intro c hc
          have := List.mem_takeWhile_imp hc
          simpa using this
        · cases htail : (a :: rest).dropWhile (fun c => c != ',' && c != NUL) with
          | nil => exact Or.inl rfl
          | cons b tail =>
            have hb := List.head?_dropWhile_not (fun c => c != ',' && c != NUL) (a :: rest)
            rw [htail] at hb
            simp only [List.head?_cons, Option.all_some, Bool.not_eq_true', Bool.and_eq_false_iff,
              bne_eq_false_iff_eq, Bool.not_eq_eq_eq_not, Bool.not_true] at hb
            rcases hb with hb | hb
            · exact Or.inr ⟨tail, by rw [hb]⟩
            · exact Or.inl (by simp [at_end, hb])

theorem tokens_nil : tokens [] = [] := by decide

theorem tokens_commas (commas l : List Char) (hc : ∀ c ∈ commas, c = ',') :
    tokens (commas ++ l) = tokens l := by
  induction commas with
  | nil => rfl
  | cons a commas ih =>
    have ha : a = ',' := hc a (List.mem_cons_self _ _)
    subst ha
    have := ih (fun c h => hc c (List.mem_cons_of_mem _ h))
    simp only [tokens, List.splitOn, List.cons_append, List.splitOnP_cons, beq_self_eq_true,
      if_true, List.filter_cons, List.isEmpty_nil, Bool.not_true, Bool.false_eq_true,
      if_false] at this ⊢
    exact this

theorem tokens_single (t : List Char) (hne : t ≠ []) (ht : ∀ c ∈ t, c ≠ ',') :
    tokens t = [t] := by
  have h : t.splitOnP (fun c => c == ',') = [t] :=
    List.splitOnP_eq_single _ _ (fun c hc => by simpa using ht c hc)
  cases t with
  | nil => exact absurd rfl hne
  | cons a t => simp [tokens, List.splitOn, h]

theorem tokens_cons (t l : List Char) (hne : t ≠ []) (ht : ∀ c ∈ t, c ≠ ',') :
    tokens (t ++ ',' :: l) = t :: tokens l := by
  have h : (t ++ ',' :: l).splitOnP (fun c => c == ',') = t :: l.splitOnP (fun c => c == ',') :=
    List.splitOnP_first _ _ (fun c hc => by simpa using ht c hc) ',' (by simp) l
  cases t with
  | nil => exact absurd rfl hne
  | cons a t =>
    rw [tokens, List.splitOn, h]
    simp [tokens, List.splitOn]

theorem Result.bind_assoc {α β γ : Type} (r : Result α) (f : α → Result β)
    (g : β → Result γ) : (r.bind f).bind g = r.bind fun a => (f a).bind g := by
  cases r <;> rfl

/-- The `do` loop, with enough fuel, resolves the current token and then the tokens that are
left in the C string at the saved pointer, in order. -/
theorem parse_ranges_eq (fuel : Nat) (pre D : List Char) (range_token : Nat)
    (first_parts : List (List Char)) (is_one_based : Bool) (indices : List Int)
    (hfuel : D.length < fuel) :
    (parse_ranges fuel (pre ++ D) pre.length range_token first_parts is_one_based indices).bind
        (fun r => .ok r.1)
      = (parse_range (cstr (pre ++ D) range_token) first_parts is_one_based indices).bind
          (fold_tokens first_parts is_one_based
            (tokens (D.takeWhile fun ch => ch != NUL))) := by
  induction fuel generalizing pre D range_token indices with
  | zero => exact absurd hfuel (Nat.not_lt_zero _)
  | succ fuel ih =>
    unfold parse_ranges
    rw [Result.bind_assoc]
    congr 1
    funext ind
    obtain ⟨commas, rest, hD, hc, hrest⟩ := memory_shape D
    have hcn : ∀ c ∈ commas, (c != NUL) = true := by
      intro c h
      rw [hc c h]
      decide
    subst hD
    rcases hrest with hend | ⟨t, tail, hr, hne, ht, htail⟩
    · rw [strtok_none pre commas rest hc hend, List.takeWhile_append_of_pos hcn,
        takeWhile_at_end rest hend, List.append_nil]
      have := tokens_commas commas [] hc
      rw [List.append_nil] at this
      rw [this, tokens_nil]
      rfl
    · subst hr
      have htn : ∀ c ∈ t, (c != NUL) = true := by
        intro c h
        simpa using (ht c h).2
      have htc : ∀ c ∈ t, c ≠ ',' := fun c h => (ht c h).1
      have htpos : 0 < t.length := List.length_pos.2 hne
      rcases htail with hend | ⟨r, hr⟩
      · rw [strtok_last pre commas t tail hc hne ht hend]
        have e : pre ++ (commas ++ (t ++ tail)) = (pre ++ (commas ++ t)) ++ tail := by
          simp only [List.append_assoc]
        have l : pre.length + commas.length + t.length = (pre ++ (commas ++ t)).length := by
          simp only [List.length_append, Nat.add_assoc]
        have hlen : tail.length < fuel := by
          simp only [List.length_append] at hfuel
          omega
        have hcs : cstr (pre ++ (commas ++ t) ++ tail) (pre.length + commas.length) = t := by
          have := cstr_append_length (pre ++ commas) (t ++ tail)
          rw [List.length_append] at this
          simp only [List.append_assoc] at this ⊢
          rw [this, List.takeWhile_append_of_pos htn, takeWhile_at_end tail hend,
            List.append_nil]
        simp only []
        rw [e, l, ih (pre ++ (commas ++ t)) tail _ ind hlen, hcs, takeWhile_at_end tail hend,
          tokens_nil, List.takeWhile_append_of_pos hcn, List.takeWhile_append_of_pos htn,
          takeWhile_at_end tail hend, List.append_nil, tokens_commas commas t hc,
          tokens_single t hne htc]
        rfl
      · subst hr
        rw [strtok_more pre commas t r hc hne ht]
        have e : pre ++ (commas ++ (t ++ NUL :: r)) = (pre ++ (commas ++ (t ++ [NUL]))) ++ r := by
          simp only [List.append_assoc, List.singleton_append]
        have l : pre.length + commas.length + t.length + 1
            = (pre ++ (commas ++ (t ++ [NUL]))).length := by
          simp only [List.length_append, List.length_singleton, Nat.add_assoc]
        have hlen : r.length < fuel := by
          simp only [List.length_append, List.length_cons] at hfuel
          omega
        have hcs : cstr (pre ++ (commas ++ (t ++ [NUL])) ++ r) (pre.length + commas.length)
            = t := by
          have := cstr_append_length (pre ++ commas) (t ++ NUL :: r)
          rw [List.length_append] at this
          simp only [List.append_assoc, List.singleton_append] at this ⊢
          rw [this, List.takeWhile_append_of_pos htn]
          simp
        have hcomma : ((',' : Char) != NUL) = true := by decide
        simp only []
        rw [e, l, ih (pre ++ (commas ++ (t ++ [NUL]))) r _ ind hlen, hcs,
          List.takeWhile_append_of_pos hcn, List.takeWhile_append_of_pos htn]
        simp only [List.takeWhile_cons, hcomma, if_true]
        rw [tokens_commas _ _ hc, tokens_cons t _ hne htc]
        rfl

theorem Result.bind_ok {α : Type} (r : Result α) : r.bind Result.ok = r := by
  cases r <;> rfl

/-- A token appends its indices to those collected so far. -/
theorem parse_range_append (token : List Char) (first_parts : List (List Char))
    (is_one_based : Bool) (indices : List Int) :
    parse_range token first_parts is_one_based indices
      = (parse_range token first_parts is_one_based []).bind
          fun list => .ok (indices ++ list) := by
  unfold parse_range
  cases strrchr token '-' with
  | none =>
    simp only []
    cases get_index token token.length first_parts is_one_based <;> simp [Result.bind]
  | some d =>
    simp only [push_range_eq, List.nil_append]
    cases (if d = 0 then Result.ok 0 else get_index token d first_parts is_one_based) with
    | ok first_index =>
      simp only [Result.bind]
      split <;> simp [Result.bind]
    | exit f => rfl
    | undefined => rfl
    | diverge => rfl

theorem fold_tokens_eq (first_parts : List (List Char)) (is_one_based : Bool)
    (ts : List (List Char)) (indices : List Int) :
    fold_tokens first_parts is_one_based ts indices
      = (resolve_tokens first_parts is_one_based ts).bind
          fun list => .ok (indices ++ list) := by
  induction ts generalizing indices with
  | nil => simp [fold_tokens, resolve_tokens, Result.bind]
  | cons t ts ih =>
    rw [fold_tokens, resolve_tokens, parse_range_append]
    cases parse_range t first_parts is_one_based [] with
    | ok head =>
      simp only [Result.bind]
      rw [ih]
      cases resolve_tokens first_parts is_one_based ts <;> simp [Result.bind]
    | exit f => rfl
    | undefined => rfl
    | diverge => rfl

/-- The index list of a specification is that of its tokens taken in order, and a
specification without a token is refused. -/
theorem resolve_eq (specification line : List Char) (is_one_based : Bool) :
    resolve specification line is_one_based =
      match tokens (specification.takeWhile fun ch => ch != NUL) with
      | [] => .exit .no_specification
      | t :: ts => fold_tokens (as_parts line) is_one_based (t :: ts) [] := by
  obtain ⟨commas, rest, hD, hc, hrest⟩ := memory_shape specification
  have hcn : ∀ c ∈ commas, (c != NUL) = true := by
    intro c h
    rw [hc c h]
    decide
  subst hD
  unfold resolve
  rcases hrest with hend | ⟨t, tail, hr, hne, ht, htail⟩
  · have hs := strtok_none [] commas rest hc hend
    simp only [List.nil_append, List.length_nil, Nat.zero_add] at hs
    have htk := tokens_commas commas [] hc
    rw [List.append_nil] at htk
    rw [hs, List.takeWhile_append_of_pos hcn, takeWhile_at_end rest hend, List.append_nil,
      htk, tokens_nil]
  · subst hr
    have htn : ∀ c ∈ t, (c != NUL) = true := by
      intro c h
      simpa using (ht c h).2
    have htc : ∀ c ∈ t, c ≠ ',' := fun c h => (ht c h).1
    rcases htail with hend | ⟨r, hr⟩
    · have hs := strtok_last [] commas t tail hc hne ht hend
      simp only [List.nil_append, List.length_nil, Nat.zero_add] at hs
      have e : commas ++ (t ++ tail) = (commas ++ t) ++ tail := by
        simp only [List.append_assoc]
      have l : commas.length + t.length = (commas ++ t).length := by
        simp only [List.length_append]
      have hcs : cstr (commas ++ t ++ tail) commas.length = t := by
        have := cstr_append_length commas (t ++ tail)
        simp only [List.append_assoc] at this ⊢
        rw [this, List.takeWhile_append_of_pos htn, takeWhile_at_end tail hend,
          List.append_nil]
      rw [hs]
      simp only []
      rw [e, l, parse_ranges_eq _ (commas ++ t) tail _ _ _ _ (by simp; omega), hcs,
        ← e, List.takeWhile_append_of_pos hcn, List.takeWhile_append_of_pos htn,
        takeWhile_at_end tail hend, List.append_nil, tokens_commas commas t hc,
        tokens_single t hne htc, tokens_nil]
      rfl
    · subst hr
      have hs := strtok_more [] commas t r hc hne ht
      simp only [List.nil_append, List.length_nil, Nat.zero_add] at hs
      have e : commas ++ (t ++ NUL :: r) = (commas ++ (t ++ [NUL])) ++ r := by
        simp only [List.append_assoc, List.singleton_append]
      have l : commas.length + t.length + 1 = (commas ++ (t ++ [NUL])).length := by
        simp only [List.length_append, List.length_singleton, Nat.add_assoc]
      have hcs : cstr (commas ++ (t ++ [NUL]) ++ r) commas.length = t := by
        have := cstr_append_length commas (t ++ NUL :: r)
        simp only [List.append_assoc, List.singleton_append] at this ⊢
        rw [this, List.takeWhile_append_of_pos htn]
        simp
      have hcomma : ((',' : Char) != NUL) = true := by decide
      rw [hs]
      simp only []
      rw [e, l, parse_ranges_eq _ (commas ++ (t ++ [NUL])) r _ _ _ _ (by simp; omega), hcs,
        List.takeWhile_append_of_pos hcn, List.takeWhile_append_of_pos htn]
      simp only [List.takeWhile_cons, hcomma, if_true]
      rw [tokens_commas _ _ hc, tokens_cons t _ hne htc]
      rfl

theorem mem_splitOnP (p : Char → Bool) (xs piece : List Char)
    (h : piece ∈ xs.splitOnP p) : ∀ c ∈ piece, p c = false ∧ c ∈ xs := by
  induction xs generalizing piece with
  | nil =>
    rw [List.splitOnP_nil] at h
    simp only [List.mem_singleton] at h
    subst h
    simp
  | cons x xs ih =>
    rw [List.splitOnP_cons] at h
    by_cases hx : p x = true
    · rw [if_pos hx] at h
      rcases List.mem_cons.1 h with h | h
      · subst h
        simp
      · intro c hc
        exact ⟨(ih piece h c hc).1, List.mem_cons_of_mem _ (ih piece h c hc).2⟩
    · rw [if_neg hx] at h
      cases hs : xs.splitOnP p with
      | nil => exact absurd hs (List.splitOnP_ne_nil _ _)
      | cons g gs =>
        rw [hs, List.modifyHead_cons] at h
        rcases List.mem_cons.1 h with h | h
        · subst h
          intro c hc
          rcases List.mem_cons.1 hc with hc | hc
          · subst hc
            exact ⟨by simpa using hx, List.mem_cons_self _ _⟩
          · have := ih g (by rw [hs]; exact List.mem_cons_self _ _) c hc
            exact ⟨this.1, List.mem_cons_of_mem _ this.2⟩
        · intro c hc
          have := ih piece (by rw [hs]; exact List.mem_cons_of_mem _ h) c hc
          exact ⟨this.1, List.mem_cons_of_mem _ this.2⟩

/-- A token is not empty, holds no comma, and is made of characters of the specification. -/
theorem mem_tokens (specification token : List Char) (h : token ∈ tokens specification) :
    token ≠ [] ∧ (∀ c ∈ token, c ≠ ',') ∧ ∀ c ∈ token, c ∈ specification := by
  simp only [tokens, List.splitOn, List.mem_filter, Bool.not_eq_true', List.isEmpty_eq_false]
    at h
  have hm := mem_splitOnP _ specification token h.1
  exact ⟨h.2, fun c hc => by simpa using (hm c hc).1, fun c hc => (hm c hc).2⟩

/-- A single token, given as the whole specification, resolves as the loop body does. -/
theorem resolve_single (token line : List Char) (is_one_based : Bool) (hne : token ≠ [])
    (hc : ∀ c ∈ token, c ≠ ',') (hn : NUL ∉ token) :
    resolve token line is_one_based = parse_range token (as_parts line) is_one_based [] := by
  rw [resolve_eq, takeWhile_ne_NUL token hn, tokens_single token hne hc]
  simp only [fold_tokens]
  exact Result.bind_ok _

theorem resolve_tokens_flatten (line : List Char) (is_one_based : Bool)
    (ts : List (List Char)) (lists : List (List Int))
    (h : List.Forall₂ (fun token list => resolve token line is_one_based = .ok list) ts lists)
    (hts : ∀ t ∈ ts,
      resolve t line is_one_based = parse_range t (as_parts line) is_one_based []) :
    resolve_tokens (as_parts line) is_one_based ts = .ok lists.flatten := by
  induction h with
  | nil => rfl
  | @cons t list ts lists h _ ih =>
    have h1 := hts t (List.mem_cons_self _ _)
    rw [h] at h1
    have h2 := ih (fun t ht => hts t (List.mem_cons_of_mem _ ht))
    simp [resolve_tokens, ← h1, h2, Result.bind]

/-- C8: the resolved index list of a specification is the concatenation, in specification order,
of the index lists of its comma-separated tokens, nothing removed and nothing reordered:
`resolve(t1,...,tk) = resolve(t1) ++ ... ++ resolve(tk)`.  In one-based mode `1,1,1` on a
three-field source resolves to `[0, 0, 0]`, and every output line is its first field three
times. -/
theorem resolve_concatenates (specification line : List Char) (is_one_based : Bool)
    (hnul : NUL ∉ specification) (hne : tokens specification ≠ []) :
    resolve specification line is_one_based
        = resolve_tokens (as_parts line) is_one_based (tokens specification) ∧
      (∀ lists : List (List Int),
        List.Forall₂ (fun token list => resolve token line is_one_based = .ok list)
          (tokens specification) lists →
        resolve specification line is_one_based = .ok lists.flatten) ∧
      resolve ['1', ',', '1', ',', '1'] ['a', ',', 'b', ',', 'c'] true = .ok [0, 0, 0] ∧
      (parse_and_cut (some ['1', ',', '1', ',', '1'])
          ['a', ',', 'b', ',', 'c', '\n', 'd', ',', 'e', ',', 'f', '\n'] true true []).cout
        = ['a', ',', 'a', ',', 'a', '\n', 'd', ',', 'd', ',', 'd', '\n'] := by
  have key : resolve specification line is_one_based
      = resolve_tokens (as_parts line) is_one_based (tokens specification) := by
    rw [resolve_eq, takeWhile_ne_NUL specification hnul]
    cases hts : tokens specification with
    | nil => exact absurd hts hne
    | cons t ts =>
      simp only []
      rw [fold_tokens_eq]
      simp only [List.nil_append]
      exact Result.bind_ok _
  refine ⟨key, ?_, by decide, by decide⟩
  intro lists hl
  rw [key]
  apply resolve_tokens_flatten line is_one_based _ _ hl
  intro token htok
  have hm := mem_tokens specification token htok
  exact resolve_single token line is_one_based hm.1 hm.2.1 (fun hn => hnul (hm.2.2 _ hn))

/-- Witness of C8: the specification `2-,n,1` on the first line `n,a,b`, one-based. -/
theorem resolve_concatenates_witness :
    tokens ['2', '-', ',', 'n', ',', '1'] = [['2', '-'], ['n'], ['1']] ∧
      resolve ['2', '-', ',', 'n', ',', '1'] ['n', ',', 'a', ',', 'b'] true
        = .ok ([[1, 2], [0], [0]] : List (List Int)).flatten := by
  have h := resolve_concatenates ['2', '-', ',', 'n', ',', '1'] ['n', ',', 'a', ',', 'b'] true
    (by decide) (by decide)
  refine ⟨by decide, h.2.1 [[1, 2], [0], [0]] ?_⟩
  have ht : tokens ['2', '-', ',', 'n', ',', '1'] = [['2', '-'], ['n'], ['1']] := by decide
  rw [ht]
  exact List.Forall₂.cons (by decide)
    (List.Forall₂.cons (by decide) (List.Forall₂.cons (by decide) List.Forall₂.nil))

/-! ## The resolved indices point into the first line -/

theorem atoi_nonneg_of_digit (d : Char) (rest : List Char) (hd : d.isDigit = true) (v : Int)
    (h : atoi (d :: rest) = some v) : 0 ≤ v := by
  have hs := isDigit_not_isspace d hd
  have hsign := isDigit_ne_sign d hd
  simp only [atoi, List.dropWhile_cons, hs, Bool.false_eq_true, if_false, beq_iff_eq, hsign.1,
    hsign.2] at h
  split at h
  · simp only [Option.some.injEq] at h
    omega
  · exact absurd h (by simp)

/-- Whatever `get_index` returns for a non-empty part is an index of the vector. -/
theorem get_index_ok_bounds (begin : List Char) (n : Nat) (parts : List (List Char))
    (is_one_based : Bool) (index : Int) (hn : 0 < n) (hb : begin ≠ [])
    (h : get_index begin n parts is_one_based = .ok index) :
    0 ≤ index ∧ index < (parts.length : Int) := by
  unfold get_index at h
  split at h
  · rename_i hall
    cases begin with
    | nil => exact absurd rfl hb
    | cons d rest =>
      have hd : d.isDigit = true := by
        cases n with
        | zero => exact absurd hn (Nat.lt_irrefl _)
        | succ n =>
          simp only [List.take_succ_cons, List.all_cons, Bool.and_eq_true] at hall
          exact hall.1
      cases ha : atoi (d :: rest) with
      | none => rw [ha] at h; exact absurd h (by simp)
      | some v =>
        have hv := atoi_nonneg_of_digit d rest hd v ha
        rw [ha] at h
        simp only [] at h
        cases is_one_based with
        | true =>
          simp only [if_true] at h
          by_cases h1 : v < 1
          · simp [h1, Result.bind] at h
          · simp only [h1, if_false, Result.bind] at h
            split at h
            · exact absurd h (by simp)
            · simp only [Result.ok.injEq] at h
              omega
        | false =>
          simp only [Bool.false_eq_true, if_false, Result.bind] at h
          split at h
          · exact absurd h (by simp)
          · simp only [Result.ok.injEq] at h
            omega
  · simp only [] at h
    split at h
    · exact absurd h (by simp)
    · rename_i hne
      simp only [Result.ok.injEq] at h
      have := find_le_length parts (begin.take n)
      omega

theorem strrchr_lt_length (s : List Char) (ch : Char) (d : Nat) (h : strrchr s ch = some d) :
    d < s.length := by
  induction s generalizing d with
  | nil => simp [strrchr] at h
  | cons c rest ih =>
    unfold strrchr at h
    cases hr : strrchr rest ch with
    | some i =>
      rw [hr] at h
      simp only [Option.some.injEq] at h
      have := ih i hr
      simp only [List.length_cons]
      omega
    | none =>
      rw [hr] at h
      simp only [] at h
      split at h
      · simp only [Option.some.injEq] at h
        simp only [List.length_cons]
        omega
      · exact absurd h (by simp)

/-- A token that resolves appends at least one index, and only indices of the vector. -/
theorem parse_range_ok_bounds (token : List Char) (parts : List (List Char))
    (is_one_based : Bool) (indices result : List Int) (hne : token ≠ [])
    (hparts : 1 ≤ parts.length)
    (h : parse_range token parts is_one_based indices = .ok result) :
    ∃ list, result = indices ++ list ∧ list ≠ [] ∧
      ∀ i ∈ list, 0 ≤ i ∧ i < (parts.length : Int) := by
  unfold parse_range at h
  cases hd : strrchr token '-' with
  | none =>
    rw [hd] at h
    simp only [] at h
    cases hg : get_index token token.length parts is_one_based with
    | ok index =>
      rw [hg] at h
      simp only [Result.bind, Result.ok.injEq] at h
      have hb := get_index_ok_bounds token token.length parts is_one_based index
        (List.length_pos.2 hne) hne hg
      refine ⟨[index], h.symm, by simp, ?_⟩
      intro i hi
      simp only [List.mem_singleton] at hi
      subst hi
      exact hb
    | exit f => rw [hg] at h; exact absurd h (by simp [Result.bind])
    | undefined => rw [hg] at h; exact absurd h (by simp [Result.bind])
    | diverge => rw [hg] at h; exact absurd h (by simp [Result.bind])
  | some d =>
    rw [hd] at h
    simp only [push_range_eq] at h
    have hdl := strrchr_lt_length token '-' d hd
    cases hf : (if d = 0 then Result.ok 0 else get_index token d parts is_one_based) with
    | ok first_index =>
      rw [hf] at h
      simp only [Result.bind] at h
      have hfb : 0 ≤ first_index ∧ first_index < (parts.length : Int) := by
        by_cases hd0 : d = 0
        · rw [if_pos hd0] at hf
          simp only [Result.ok.injEq] at hf
          omega
        · rw [if_neg hd0] at hf
          exact get_index_ok_bounds token d parts is_one_based first_index (by omega) hne hf
      cases hl : (if token.drop (d + 1) ≠ [] then
          get_index (token.drop (d + 1)) (token.drop (d + 1)).length parts is_one_based
          else Result.ok ((parts.length : Int) - 1)) with
      | ok last_index =>
        rw [hl] at h
        simp only [Result.ok.injEq] at h
        have hlb : 0 ≤ last_index ∧ last_index < (parts.length : Int) := by
          by_cases hr : token.drop (d + 1) ≠ []
          · rw [if_pos hr] at hl
            exact get_index_ok_bounds _ _ parts is_one_based last_index
              (List.length_pos.2 hr) hr hl
          · rw [if_neg hr] at hl
            simp only [Result.ok.injEq] at hl
            omega
        refine ⟨interval first_index last_index, h.symm, ?_, ?_⟩
        · intro he
          have := interval_length first_index last_index
          rw [he] at this
          have hab := abs_nonneg (first_index - last_index)
          simp only [List.length_nil, Nat.cast_zero] at this
          omega
        · intro i hi
          rw [mem_interval] at hi
          have h1 := min_le_iff.1 hi.1
          have h2 := le_max_iff.1 hi.2
          omega
      | exit f => rw [hl] at h; exact absurd h (by simp)
      | undefined => rw [hl] at h; exact absurd h (by simp)
      | diverge => rw [hl] at h; exact absurd h (by simp)
    | exit f => rw [hf] at h; exact absurd h (by simp [Result.bind])
    | undefined => rw [hf] at h; exact absurd h (by simp [Result.bind])
    | diverge => rw [hf] at h; exact absurd h (by simp [Result.bind])

theorem fold_tokens_ok_bounds (parts : List (List Char)) (is_one_based : Bool)
    (ts : List (List Char)) (indices result : List Int) (hts : ∀ t ∈ ts, t ≠ [])
    (hparts : 1 ≤ parts.length)
    (h : fold_tokens parts is_one_based ts indices = .ok result) :
    ∃ list, result = indices ++ list ∧ (ts ≠ [] → list ≠ []) ∧
      ∀ i ∈ list, 0 ≤ i ∧ i < (parts.length : Int) := by
  induction ts generalizing indices with
  | nil =>
    simp only [fold_tokens, Result.ok.injEq] at h
    exact ⟨[], by simp [h], by simp, by simp⟩
  | cons t ts ih =>
    rw [fold_tokens] at h
    cases hp : parse_range t parts is_one_based indices with
    | ok mid =>
      rw [hp] at h
      simp only [Result.bind] at h
      obtain ⟨l1, e1, n1, b1⟩ := parse_range_ok_bounds t parts is_one_based indices mid
        (hts t (List.mem_cons_self _ _)) hparts hp
      obtain ⟨l2, e2, _, b2⟩ := ih mid (fun t ht => hts t (List.mem_cons_of_mem _ ht)) h
      refine ⟨l1 ++ l2, by rw [e2, e1, List.append_assoc], fun _ => by simp [n1], ?_⟩
      intro i hi
      rcases List.mem_append.1 hi with hi | hi
      · exact b1 i hi
      · exact b2 i hi
    | exit f => rw [hp] at h; exact absurd h (by simp [Result.bind])
    | undefined => rw [hp] at h; exact absurd h (by simp [Result.bind])
    | diverge => rw [hp] at h; exact absurd h (by simp [Result.bind])

/-- A resolved index list is not empty and each of its indices is a field position of the
first line. -/
theorem resolve_ok_bounds (specification line : List Char) (is_one_based : Bool)
    (indices : List Int) (h : resolve specification line is_one_based = .ok indices) :
    indices ≠ [] ∧ ∀ i ∈ indices, 0 ≤ i ∧ i < ((as_parts line).length : Int) := by
  rw [resolve_eq] at h
  cases hts : tokens (specification.takeWhile fun ch => ch != NUL) with
  | nil => rw [hts] at h; exact absurd h (by simp)
  | cons t ts =>
    rw [hts] at h
    simp only [] at h
    have hmem : ∀ x ∈ t :: ts, x ≠ [] := by
      intro x hx
      rw [← hts] at hx
      exact (mem_tokens _ x hx).1
    obtain ⟨l, e, n, b⟩ := fold_tokens_ok_bounds (as_parts line) is_one_based (t :: ts) []
      indices hmem (as_parts_length_pos line) h
    rw [List.nil_append] at e
    subst e
    exact ⟨n (by simp), b⟩

/-! ## The projector -/

theorem getline_eq_none (sin : List Char) : getline sin = none ↔ sin = [] := by
  cases sin with
  | nil => simp [getline]
  | cons ch rest =>
    simp only [getline]
    split
    · simp
    · split <;> simp

/-- What `getline` delivers is the first of the lines of the source, and the stream is left
at the lines after it. -/
theorem getline_eq_some (sin s rest : List Char) (h : getline sin = some (s, rest)) :
    lines_of sin = s :: lines_of rest ∧ rest.length < sin.length := by
  induction sin generalizing s rest with
  | nil => simp [getline] at h
  | cons ch tl ih =>
    simp only [getline] at h
    by_cases hc : (ch == '\n') = true
    · simp only [hc, if_true, Option.some.injEq, Prod.mk.injEq] at h
      obtain ⟨rfl, rfl⟩ := h
      simp [lines_of, hc]
    · simp only [hc, if_false] at h
      cases hg : getline tl with
      | none =>
        rw [hg] at h
        simp only [Option.some.injEq, Prod.mk.injEq] at h
        obtain ⟨rfl, rfl⟩ := h
        have : tl = [] := (getline_eq_none tl).1 hg
        subst this
        simp [lines_of, hc]
      | some p =>
        obtain ⟨s', rest'⟩ := p
        rw [hg] at h
        simp only [Option.some.injEq, Prod.mk.injEq] at h
        obtain ⟨rfl, rfl⟩ := h
        obtain ⟨e, l⟩ := ih _ _ hg
        refine ⟨?_, by simp only [List.length_cons]; omega⟩
        simp [lines_of, hc, e]

/-- The header loop prints the fields of the first line at the indices, commas between them and
a newline at the end, when every index points into the first line. -/
theorem print_header_eq (first_parts : List (List Char)) (indices : List Int)
    (cout : List Char) (hne : indices ≠ [])
    (hb : ∀ i ∈ indices, 0 ≤ i ∧ i < (first_parts.length : Int)) :
    print_header first_parts indices cout
      = .ok (cout ++ ([','].intercalate (indices.map fun i => first_parts.getD i.toNat [])
          ++ ['\n'])) := by
  induction indices generalizing cout with
  | nil => exact absurd rfl hne
  | cons i rest ih =>
    have hi := hb i (List.mem_cons_self _ _)
    unfold print_header
    rw [if_pos hi]
    cases rest with
    | nil => simp [List.intercalate, List.intersperse]
    | cons j rest =>
      have := ih (cout ++ first_parts.getD i.toNat [] ++ [','])
        (by simp) (fun k hk => hb k (List.mem_cons_of_mem _ hk))
      simp only [List.map_cons, List.append_assoc] at this
      simp only [ne_eq, reduceCtorEq, not_false_eq_true, if_true, this, List.map_cons,
        intercalate_cons_cons, List.append_assoc]

/-- The loop for a data line prints its cells for the indices, commas between them and a
newline at the end, when no index is negative. -/
theorem print_line_eq (s : List Char) (indices : List Int) (cout : List Char)
    (hne : indices ≠ []) (hb : ∀ i ∈ indices, 0 ≤ i) :
    print_line (as_parts s) indices cout = .ok (cout ++ emitted_line indices s) := by
  induction indices generalizing cout with
  | nil => exact absurd rfl hne
  | cons i rest ih =>
    have hi := hb i (List.mem_cons_self _ _)
    have hp : (if i < ((as_parts s).length : Int) then
        (if 0 ≤ i then Result.ok (cout ++ (as_parts s).getD i.toNat []) else Result.undefined)
        else Result.ok cout) = Result.ok (cout ++ cell (as_parts s) i) := by
      unfold cell
      by_cases hlt : i < ((as_parts s).length : Int)
      · simp only [hlt, if_true, hi]
      · simp only [hlt, if_false, List.append_nil]
    unfold print_line
    simp only [hp, Result.bind]
    cases rest with
    | nil => simp [emitted_line, List.intercalate, List.intersperse]
    | cons j rest =>
      have := ih (cout ++ cell (as_parts s) i ++ [','])
        (by simp) (fun k hk => hb k (List.mem_cons_of_mem _ hk))
      simp only [emitted_line, List.map_cons, List.append_assoc] at this
      simp only [ne_eq, reduceCtorEq, not_false_eq_true, if_true, this, emitted_line,
        List.map_cons, intercalate_cons_cons, List.append_assoc]

/-- The loop over the data lines, with enough fuel, prints the emitted line of each line of the
stream in order. -/
theorem cut_lines_eq (fuel : Nat) (sin : List Char) (indices : List Int) (cout : List Char)
    (hfuel : sin.length < fuel) (hne : indices ≠ []) (hb : ∀ i ∈ indices, 0 ≤ i) :
    cut_lines fuel sin indices cout
      = .ok (cout ++ ((lines_of sin).map (emitted_line indices)).flatten) := by
  induction fuel generalizing sin cout with
  | zero => exact absurd hfuel (Nat.not_lt_zero _)
  | succ fuel ih =>
    unfold cut_lines
    cases hg : getline sin with
    | none =>
      have : sin = [] := (getline_eq_none sin).1 hg
      subst this
      simp [lines_of]
    | some p =>
      obtain ⟨s, rest⟩ := p
      obtain ⟨e, l⟩ := getline_eq_some sin s rest hg
      simp only [print_line_eq s indices cout hne hb, Result.bind]
      rw [ih rest _ (by omega), e]
      simp

/-- For indices that point into the line, the emitted line is made of its fields. -/
theorem emitted_line_of_bounds (indices : List Int) (s : List Char)
    (hb : ∀ i ∈ indices, 0 ≤ i ∧ i < ((as_parts s).length : Int)) :
    emitted_line indices s
      = [','].intercalate (indices.map fun i => (as_parts s).getD i.toNat []) ++ ['\n'] := by
  unfold emitted_line
  congr 2
  apply List.map_congr_left
  intro i hi
  simp [cell, (hb i hi).2]

/-- A call of `parse_and_cut` on a source with a first line against which the specification
resolves: the output is the header line, if wanted, and the emitted line of each further line;
the call returns. -/
theorem parse_and_cut_eq (specification sin first rest : List Char)
    (is_one_based wants_header : Bool) (cout : List Char) (indices : List Int)
    (hg : getline sin = some (first, rest))
    (hr : resolve specification first is_one_based = .ok indices) :
    ∃ memory, parse_and_cut (some specification) sin is_one_based wants_header cout
      = ⟨cout ++ ((if wants_header then emitted_line indices first else []) ++
          ((lines_of rest).map (emitted_line indices)).flatten), .ok (some memory)⟩ := by
  obtain ⟨hne, hb⟩ := resolve_ok_bounds specification first is_one_based indices hr
  have hb0 : ∀ i ∈ indices, 0 ≤ i := fun i hi => (hb i hi).1
  unfold resolve at hr
  unfold parse_and_cut
  rcases hst : strtok specification 0 with ⟨b, save, tok⟩
  rw [hst] at hr
  cases tok with
  | none => exact absurd hr (by simp)
  | some q =>
    simp only [] at hr ⊢
    rw [hg]
    simp only []
    cases hp : parse_ranges (b.length + 1) b save q (as_parts first) is_one_based [] with
    | ok r =>
      obtain ⟨ind, memory⟩ := r
      rw [hp] at hr
      simp only [Result.bind, Result.ok.injEq] at hr
      subst hr
      refine ⟨memory, ?_⟩
      cases wants_header with
      | true =>
        simp only [hst, hp, if_true, print_header_eq (as_parts first) ind cout hne hb,
          cut_lines_eq _ rest ind _ (Nat.lt_succ_self _) hne hb0,
          emitted_line_of_bounds ind first hb, List.append_assoc]
      | false =>
        simp only [hst, hp, Bool.false_eq_true, if_false,
          cut_lines_eq _ rest ind _ (Nat.lt_succ_self _) hne hb0, List.nil_append]
    | exit f => rw [hp] at hr; exact absurd hr (by simp [Result.bind])
    | undefined => rw [hp] at hr; exact absurd hr (by simp [Result.bind])
    | diverge => rw [hp] at hr; exact absurd hr (by simp [Result.bind])

/-- C9: for every data line after the first and every resolved index list `[i1, ..., ik]`, the
emitted line is `cell(i1),...,cell(ik)` followed by a newline, `cell(i)` being the `i`-th field
of `as_parts` of that line when `i` is below the line's field count and the empty text
otherwise, a comma between cells and none after the last; a short line is never an error: with
the header `a,b,c` and the row `1,2`, index 2 gives an empty cell. -/
theorem data_line_cells (specification first : List Char) (is_one_based : Bool)
    (indices : List Int) (hr : resolve specification first is_one_based = .ok indices) :
    (∀ s cout, print_line (as_parts s) indices cout
        = .ok (cout ++ ([','].intercalate (indices.map fun i =>
            if i < ((as_parts s).length : Int) then (as_parts s).getD i.toNat [] else [])
          ++ ['\n']))) ∧
      (∀ rest cout, cut_lines (rest.length + 1) rest indices cout
        = .ok (cout ++ ((lines_of rest).map fun s =>
            [','].intercalate (indices.map fun i =>
              if i < ((as_parts s).length : Int) then (as_parts s).getD i.toNat [] else [])
            ++ ['\n']).flatten)) ∧
      parse_and_cut (some ['1', ',', '3'])
          ['a', ',', 'b', ',', 'c', '\n', '1', ',', '2', '\n'] true true []
        = ⟨['a', ',', 'c', '\n', '1', ',', '\n'], .ok (some ['1', NUL, '3'])⟩ := by
  obtain ⟨hne, hb⟩ := resolve_ok_bounds specification first is_one_based indices hr
  have hb0 : ∀ i ∈ indices, 0 ≤ i := fun i hi => (hb i hi).1
  refine ⟨?_, ?_, by decide⟩
  · intro s cout
    exact print_line_eq s indices cout hne hb0
  · intro rest cout
    exact cut_lines_eq _ rest indices cout (Nat.lt_succ_self _) hne hb0

/-- Witness of C9: the index list of `3,1` in one-based mode on the header `a,b,c`, and the
rows `1,2` and `x,y,z`. -/
theorem data_line_cells_witness :
    print_line (as_parts ['1', ',', '2']) [2, 0] [] = .ok [',', '1', '\n'] ∧
      cut_lines 10 ['1', ',', '2', '\n', 'x', ',', 'y', ',', 'z'] [2, 0] []
        = .ok [',', '1', '\n', 'z', ',', 'x', '\n'] := by
  have h := data_line_cells ['3', ',', '1'] ['a', ',', 'b', ',', 'c'] true [2, 0] (by decide)
  refine ⟨?_, ?_⟩
  · rw [h.1]
    decide
  · have h2 := h.2.1 ['1', ',', '2', '\n', 'x', ',', 'y', ',', 'z'] []
    simp only [List.length_cons, List.length_nil] at h2
    rw [h2]
    decide

/-- C10: for every source and specification that resolves, the output with the header wanted is
the header line (the fields of the first line at the resolved indices, comma-joined, no
trailing comma, newline-terminated) followed by the output with the header suppressed, which is
made of the data lines alone: the first line is used for resolution and not printed.  The
input `name,age`, `Alice,30`, `Bob,25` with `-c age,name` gives `age,name`, `30,Alice`,
`25,Bob`, and with `-s -K 0` gives `Alice`, `Bob`. -/
theorem header_then_data (specification sin first rest : List Char) (is_one_based : Bool)
    (indices : List Int) (hg : getline sin = some (first, rest))
    (hr : resolve specification first is_one_based = .ok indices) :
    (parse_and_cut (some specification) sin is_one_based true []).cout
        = ([','].intercalate (indices.map fun i => (as_parts first).getD i.toNat []) ++ ['\n'])
          ++ (parse_and_cut (some specification) sin is_one_based false []).cout ∧
      (∀ i ∈ indices, 0 ≤ i ∧ i < ((as_parts first).length : Int)) ∧
      (parse_and_cut (some specification) sin is_one_based false []).cout
        = ((lines_of rest).map (emitted_line indices)).flatten ∧
      (∀ wants_header, ∃ memory,
        (parse_and_cut (some specification) sin is_one_based wants_header []).result
          = .ok (some memory)) ∧
      main [['f'], ['-', 'c'], "age,name".toList] (fun _ => none)
          "name,age\nAlice,30\nBob,25\n".toList
        = ⟨"age,name\n30,Alice\n25,Bob\n".toList, .ok ()⟩ ∧
      main [['f'], ['-', 's'], ['-', 'K'], ['0']] (fun _ => none)
          "name,age\nAlice,30\nBob,25\n".toList
        = ⟨"Alice\nBob\n".toList, .ok ()⟩ := by
  obtain ⟨_, hb⟩ := resolve_ok_bounds specification first is_one_based indices hr
  obtain ⟨m1, h1⟩ := parse_and_cut_eq specification sin first rest is_one_based true []
    indices hg hr
  obtain ⟨m2, h2⟩ := parse_and_cut_eq specification sin first rest is_one_based false []
    indices hg hr
  refine ⟨?_, hb, ?_, ?_, by decide, by decide⟩
  · rw [h1, h2]
    simp only [if_true, Bool.false_eq_true, if_false, List.nil_append,
      emitted_line_of_bounds indices first hb]
  · rw [h2]
    simp
  · intro wants_header
    cases wants_header
    · exact ⟨m2, by rw [h2]⟩
    · exact ⟨m1, by rw [h1]⟩

/-- Witness of C10: the source `a,b`, `1,2`, `3` with the specification `2,1`, one-based. -/
theorem header_then_data_witness :
    (parse_and_cut (some ['2', ',', '1']) "a,b\n1,2\n3".toList true true []).cout
        = "b,a\n".toList
          ++ (parse_and_cut (some ['2', ',', '1']) "a,b\n1,2\n3".toList true false []).cout ∧
      (parse_and_cut (some ['2', ',', '1']) "a,b\n1,2\n3".toList true false []).cout
        = "2,1\n,3\n".toList := by
  have h := header_then_data ['2', ',', '1'] "a,b\n1,2\n3".toList "a,b".toList
    "1,2\n3".toList true [1, 0] (by decide) (by decide)
  refine ⟨?_, ?_⟩
  · rw [h.1]
    decide
  · rw [h.2.2.1]
    decide

/-! ## Failures and empty sources -/

theorem cstr_zero (memory : List Char) :
    cstr memory 0 = memory.takeWhile (fun ch => ch != NUL) := by
  simp [cstr]

/-- The first call of `strtok` finds a token exactly when the C string has one. -/
theorem strtok_zero_token (specification : List Char) :
    (tokens (cstr specification 0) = [] → (strtok specification 0).2.2 = none) ∧
      (tokens (cstr specification 0) ≠ [] → ∃ q, (strtok specification 0).2.2 = some q) := by
  rw [cstr_zero]
  obtain ⟨commas, rest, hD, hc, hrest⟩ := memory_shape specification
  have hcn : ∀ c ∈ commas, (c != NUL) = true := by
    intro c h
    rw [hc c h]
    decide
  subst hD
  rcases hrest with hend | ⟨t, tail, hr, hne, ht, htail⟩
  · have hs := strtok_none [] commas rest hc hend
    simp only [List.nil_append, List.length_nil, Nat.zero_add] at hs
    have htk := tokens_commas commas [] hc
    rw [List.append_nil] at htk
    rw [hs, List.takeWhile_append_of_pos hcn, takeWhile_at_end rest hend, List.append_nil,
      htk, tokens_nil]
    exact ⟨fun _ => rfl, fun h => absurd rfl h⟩
  · subst hr
    have htn : ∀ c ∈ t, (c != NUL) = true := by
      intro c h
      simpa using (ht c h).2
    have htc : ∀ c ∈ t, c ≠ ',' := fun c h => (ht c h).1
    have hcomma : ((',' : Char) != NUL) = true := by decide
    rcases htail with hend | ⟨r, hr⟩
    · have hs := strtok_last [] commas t tail hc hne ht hend
      simp only [List.nil_append, List.length_nil, Nat.zero_add] at hs
      rw [hs, List.takeWhile_append_of_pos hcn, List.takeWhile_append_of_pos htn,
        takeWhile_at_end tail hend, List.append_nil, tokens_commas commas t hc,
        tokens_single t hne htc]
      exact ⟨fun h => absurd h (by simp), fun _ => ⟨_, rfl⟩⟩
    · subst hr
      have hs := strtok_more [] commas t r hc hne ht
      simp only [List.nil_append, List.length_nil, Nat.zero_add] at hs
      rw [hs, List.takeWhile_append_of_pos hcn, List.takeWhile_append_of_pos htn]
      simp only [List.takeWhile_cons, hcomma, if_true]
      rw [tokens_commas _ _ hc, tokens_cons t _ hne htc]
      exact ⟨fun h => absurd h (by simp), fun _ => ⟨_, rfl⟩⟩

/-- A specification whose C string has no token is refused before the source is read. -/
theorem parse_and_cut_no_token (specification sin : List Char)
    (is_one_based wants_header : Bool) (cout : List Char)
    (h : tokens (cstr specification 0) = []) :
    parse_and_cut (some specification) sin is_one_based wants_header cout
      = ⟨cout, .exit .no_specification⟩ := by
  have hs := (strtok_zero_token specification).1 h
  unfold parse_and_cut
  rcases hst : strtok specification 0 with ⟨b, save, tok⟩
  rw [hst] at hs
  simp only [] at hs
  subst hs
  simp only [hst]

/-- A source without a line makes the call return after the first call of `strtok`. -/
theorem parse_and_cut_no_line (specification : List Char)
    (is_one_based wants_header : Bool) (cout : List Char)
    (h : tokens (cstr specification 0) ≠ []) :
    parse_and_cut (some specification) [] is_one_based wants_header cout
      = ⟨cout, .ok (some (strtok specification 0).1)⟩ := by
  obtain ⟨q, hs⟩ := (strtok_zero_token specification).2 h
  unfold parse_and_cut
  rcases hst : strtok specification 0 with ⟨b, save, tok⟩
  rw [hst] at hs
  simp only [] at hs
  subst hs
  simp only [hst, getline]

/-- When the specification does not resolve against the first line, the call stops with the
failure of the resolution and standard output is as it was. -/
theorem parse_and_cut_of_resolve_exit (specification sin first rest : List Char)
    (is_one_based wants_header : Bool) (cout : List Char) (f : Failure)
    (hg : getline sin = some (first, rest))
    (hr : resolve specification first is_one_based = .exit f) :
    parse_and_cut (some specification) sin is_one_based wants_header cout
      = ⟨cout, .exit f⟩ := by
  unfold resolve at hr
  unfold parse_and_cut
  rcases hst : strtok specification 0 with ⟨b, save, tok⟩
  rw [hst] at hr
  cases tok with
  | none =>
    simp only [Result.exit.injEq] at hr
    subst hr
    simp only [hst]
  | some q =>
    simp only [] at hr
    cases hp : parse_ranges (b.length + 1) b save q (as_parts first) is_one_based [] with
    | ok r => rw [hp] at hr; exact absurd hr (by simp [Result.bind])
    | exit g =>
      rw [hp] at hr
      simp only [Result.bind, Result.exit.injEq] at hr
      subst hr
      simp only [hst, hg, hp]
    | undefined => rw [hp] at hr; exact absurd hr (by simp [Result.bind])
    | diverge => rw [hp] at hr; exact absurd hr (by simp [Result.bind])

/-- The index list of a specification with a token, in terms of its tokens. -/
theorem resolve_eq_resolve_tokens (specification line : List Char) (is_one_based : Bool)
    (hne : tokens (cstr specification 0) ≠ []) :
    resolve specification line is_one_based
      = resolve_tokens (as_parts line) is_one_based (tokens (cstr specification 0)) := by
  rw [resolve_eq, ← cstr_zero]
  cases hts : tokens (cstr specification 0) with
  | nil => exact absurd hts hne
  | cons t ts =>
    simp only []
    rw [fold_tokens_eq]
    simp only [List.nil_append]
    exact Result.bind_ok _

/-- The first token that fails decides the outcome, whatever follows it. -/
theorem resolve_tokens_exit (parts : List (List Char)) (is_one_based : Bool)
    (before after : List (List Char)) (token : List Char) (f : Failure)
    (hb : ∀ t ∈ before, ∃ list, parse_range t parts is_one_based [] = .ok list)
    (ht : parse_range token parts is_one_based [] = .exit f) :
    resolve_tokens parts is_one_based (before ++ token :: after) = .exit f := by
  induction before with
  | nil => simp [resolve_tokens, ht, Result.bind]
  | cons t before ih =>
    obtain ⟨list, hl⟩ := hb t (List.mem_cons_self _ _)
    have := ih (fun t' ht' => hb t' (List.mem_cons_of_mem _ ht'))
    simp [resolve_tokens, hl, this, Result.bind]

/-- Where `atoi` is defined, `atoi_wrapped` is its value. -/
theorem atoi_wrapped_of_atoi (s : List Char) (v : Int) (h : atoi s = some v) :
    atoi_wrapped s = v := by
  unfold atoi at h
  unfold atoi_wrapped
  simp only at h ⊢
  split at h
  · rename_i hfit
    simp only [Option.some.injEq] at h
    rw [h] at hfit ⊢
    obtain ⟨h1, h2⟩ := hfit
    rw [min_eq_left (by omega), max_eq_right (by omega)]
    omega
  · exact absurd h (by simp)

/-- On a part made of digits, `get_index` is the tests of lines 77-90 on the value of `atoi`,
and undefined where `atoi` is. -/
theorem get_index_check_index (begin : List Char) (n : Nat) (parts : List (List Char))
    (is_one_based : Bool) (hall : (begin.take n).all Char.isDigit = true) :
    get_index begin n parts is_one_based =
      match atoi begin with
      | none => .undefined
      | some index => check_index index parts is_one_based := by
  simp only [get_index, hall, if_true, check_index]

/-- On a part made of digits, `get_index` is undefined or is the tests of lines 77-90 on the
value an `atoi` that wraps gives. -/
theorem get_index_undefined_or_wrapped (begin : List Char) (n : Nat)
    (parts : List (List Char)) (is_one_based : Bool)
    (hall : (begin.take n).all Char.isDigit = true) :
    get_index begin n parts is_one_based = .undefined ∨
      get_index begin n parts is_one_based
        = check_index (atoi_wrapped begin) parts is_one_based := by
  rw [get_index_check_index begin n parts is_one_based hall]
  cases h : atoi begin with
  | none => exact Or.inl rfl
  | some v => exact Or.inr (by rw [atoi_wrapped_of_atoi begin v h])

/-- Line 84 is the only test of the zero-based mode: a negative value is returned as the index.
In one-based mode line 78 rejects it. -/
theorem check_index_negative (index : Int) (parts : List (List Char)) (h : index < 0) :
    check_index index parts false = .ok index ∧
      check_index index parts true = .exit (.invalid_column index) := by
  have h1 : ¬ index ≥ (parts.length : Int) := by omega
  have h2 : index < 1 := by omega
  constructor
  · simp [check_index, Result.bind, h1]
  · simp [check_index, Result.bind, h2]

/-- The header loop reads outside `first_parts` at a negative index. -/
theorem print_header_negative (first_parts : List (List Char)) (index : Int)
    (rest : List Int) (cout : List Char) (h : index < 0) :
    print_header first_parts (index :: rest) cout = .undefined := by
  have h1 : ¬ (0 ≤ index ∧ index < (first_parts.length : Int)) := by omega
  simp only [print_header, h1, if_false]

/-- The loop over a data line passes the test of line 179 at a negative index and reads outside
the fields of the line. -/
theorem print_line_negative (parts : List (List Char)) (index : Int) (rest : List Int)
    (cout : List Char) (h : index < 0) :
    print_line parts (index :: rest) cout = .undefined := by
  have h1 : index < (parts.length : Int) := by omega
  have h2 : ¬ 0 ≤ index := by omega
  simp [print_line, h1, h2, Result.bind]

/-- C11 fails on the code: a zero-based numeral beyond the range of `int` is not rejected.
Run as `f -K 2147483648` on the standard input `a`, the program gives `std::atoi` a numeral
whose value `int` cannot hold, and nothing is defined from there on: there is no diagnostic
and no exit status 2, where `f -K 2147483647` is rejected with that status.  An `atoi` that
keeps the low 32 bits gives -2147483648; line 84, the only test of the zero-based mode, lets
it through, `get_index` returns it as the index, and the header loop, or with `-s` the loop
over the data lines, reads `first_parts[-2147483648]`, outside the vector.  In one-based mode
line 78 rejects that value. -/
theorem numeral_beyond_int_is_not_rejected :
    atoi "2147483648".toList = none ∧
      get_index "2147483648".toList 10 [['a']] false = .undefined ∧
      resolve "2147483648".toList ['a'] false = .undefined ∧
      main [['f'], ['-', 'K'], "2147483648".toList] (fun _ => none) "a\n".toList
        = ⟨[], .undefined⟩ ∧
      main [['f'], ['-', 'K'], "2147483647".toList] (fun _ => none) "a\n".toList
        = ⟨[], .exit (.invalid_column 2147483647)⟩ ∧
      atoi_wrapped "2147483648".toList = -2147483648 ∧
      check_index (atoi_wrapped "2147483648".toList) [['a']] false = .ok (-2147483648) ∧
      check_index (atoi_wrapped "2147483648".toList) [['a']] true
        = .exit (.invalid_column (-2147483648)) ∧
      print_header (as_parts ['a']) [-2147483648] [] = .undefined ∧
      print_line (as_parts ['1']) [-2147483648] [] = .undefined := by
  decide

/-- C14: if resolving the specification against the first line of a source fails, whichever
token fails and wherever it stands, `parse_and_cut` stops with that failure and has written
nothing to standard output for the source, neither header nor data line. -/
theorem failed_resolution_writes_nothing (specification sin first rest : List Char)
    (is_one_based wants_header : Bool) (cout : List Char) (f : Failure)
    (hg : getline sin = some (first, rest))
    (hr : resolve specification first is_one_based = .exit f) :
    parse_and_cut (some specification) sin is_one_based wants_header cout = ⟨cout, .exit f⟩ ∧
      (∀ other before after token g, tokens (cstr other 0) = before ++ token :: after →
        (∀ t ∈ before, ∃ list, parse_range t (as_parts first) is_one_based [] = .ok list) →
        parse_range token (as_parts first) is_one_based [] = .exit g →
        parse_and_cut (some other) sin is_one_based wants_header cout = ⟨cout, .exit g⟩) := by
  refine ⟨parse_and_cut_of_resolve_exit specification sin first rest is_one_based wants_header
    cout f hg hr, ?_⟩
  intro other before after token g htok hb ht
  apply parse_and_cut_of_resolve_exit other sin first rest is_one_based wants_header cout g hg
  rw [resolve_eq_resolve_tokens other first is_one_based (by rw [htok]; simp), htok]
  exact resolve_tokens_exit _ _ before after token g hb ht

/-- Witness of C14: the specification `1,x,9` in one-based mode on the source `a,b`, `1,2`,
started after `q` was written: the second token names no column. -/
theorem failed_resolution_writes_nothing_witness :
    parse_and_cut (some ['1', ',', 'x', ',', '9']) "a,b\n1,2\n".toList true true ['q']
        = ⟨['q'], .exit (.cannot_find ['x'])⟩ ∧
      parse_and_cut (some ['1', ',', '9']) "a,b\n1,2\n".toList true true ['q']
        = ⟨['q'], .exit (.invalid_column 9)⟩ := by
  have h := failed_resolution_writes_nothing ['1', ',', 'x', ',', '9'] "a,b\n1,2\n".toList
    "a,b".toList "1,2\n".toList true true ['q'] (.cannot_find ['x']) (by decide) (by decide)
  refine ⟨h.1, ?_⟩
  exact h.2 ['1', ',', '9'] [['1']] [] ['9'] (.invalid_column 9) (by decide)
    (fun t ht => by
      simp only [List.mem_singleton] at ht
      subst ht
      exact ⟨[0], by decide⟩)
    (by decide)

/-- C15 fails on the code when no specification was given: `main` then calls `parse_and_cut`
with the null pointer, and its first statement hands that pointer to `strtok` with no scan to
continue, which the language leaves undefined; the usage error is reached only for a
specification that is there and has no token, such as the empty one or `,,`. -/
theorem null_specification_is_undefined :
    main [['f']] (fun _ => none) "a,b\n1,2\n".toList = ⟨[], .undefined⟩ ∧
      main [['f'], ['x']] (fun _ => some "a,b\n1,2\n".toList) [] = ⟨[], .undefined⟩ ∧
      parse_and_cut none "a,b\n1,2\n".toList false true [] = ⟨[], .undefined⟩ ∧
      parse_and_cut (some []) "a,b\n1,2\n".toList true true []
        = ⟨[], .exit .no_specification⟩ ∧
      parse_and_cut (some [',', ',']) [] true true [] = ⟨[], .exit .no_specification⟩ ∧
      Failure.no_specification.status = 2 := by
  decide

/-- C20: for a source with no line and every specification with at least one token,
`parse_and_cut` writes nothing and returns, also when the specification is invalid for every
header, as `0` is in one-based mode; of the specification only the first token has been cut
off, and what follows it is as it was. -/
theorem empty_source_returns (specification : List Char) (is_one_based wants_header : Bool)
    (cout : List Char) (h : tokens (cstr specification 0) ≠ []) :
    parse_and_cut (some specification) [] is_one_based wants_header cout
        = ⟨cout, .ok (some (strtok specification 0).1)⟩ ∧
      (∀ commas t r, (∀ c ∈ commas, c = ',') → t ≠ [] → (∀ c ∈ t, c ≠ ',' ∧ c ≠ NUL) →
        parse_and_cut (some (commas ++ (t ++ ',' :: r))) [] is_one_based wants_header cout
          = ⟨cout, .ok (some (commas ++ (t ++ NUL :: r)))⟩) ∧
      (∀ line, resolve ['0'] line true = .exit (.invalid_column 0)) ∧
      parse_and_cut (some ['0']) [] true wants_header cout = ⟨cout, .ok (some ['0'])⟩ := by
  refine ⟨parse_and_cut_no_line specification is_one_based wants_header cout h, ?_, ?_, ?_⟩
  · intro commas t r hc hne ht
    have hs := strtok_more [] commas t r hc hne ht
    simp only [List.nil_append, List.length_nil, Nat.zero_add] at hs
    have hcn : ∀ c ∈ commas, (c != NUL) = true := by
      intro c h
      rw [hc c h]
      decide
    have htn : ∀ c ∈ t, (c != NUL) = true := by
      intro c h
      simpa using (ht c h).2
    have hcomma : ((',' : Char) != NUL) = true := by decide
    have htk : tokens (cstr (commas ++ (t ++ ',' :: r)) 0) ≠ [] := by
      rw [cstr_zero, List.takeWhile_append_of_pos hcn, List.takeWhile_append_of_pos htn]
      simp only [List.takeWhile_cons, hcomma, if_true]
      rw [tokens_commas _ _ hc, tokens_cons t _ hne (fun c h => (ht c h).1)]
      simp
    rw [parse_and_cut_no_line _ is_one_based wants_header cout htk, hs]
  · intro line
    have h0 : resolve ['0'] line true = parse_range ['0'] (as_parts line) true [] :=
      resolve_single ['0'] line true (by decide) (by decide) (by decide)
    rw [h0]
    have hg := get_index_digits ['0'] [] (as_parts line) true (by decide) (by decide)
      (by decide) (by decide)
    have hv : decimal_value ['0'] = 0 := by decide
    have hst : strrchr ['0'] '-' = none := by decide
    simp only [List.append_nil, hv] at hg
    unfold parse_range
    simp only [hst, hg]
    simp [Result.bind]
  · have := parse_and_cut_no_line ['0'] true wants_header cout (by decide)
    rw [this]
    rfl

/-- Witness of C20: the specification `7,x` on a source with no line. -/
theorem empty_source_returns_witness :
    parse_and_cut (some ['7', ',', 'x']) [] true true ['q']
      = ⟨['q'], .ok (some ['7', NUL, 'x'])⟩ := by
  have h := (empty_source_returns ['7', ',', 'x'] true true ['q'] (by decide)).1
  rw [h]
  decide

/-! ## Tokens with dashes -/

/-- A token with a dash has a last dash: what follows it holds none. -/
theorem last_dash_split (token : List Char) (h : '-' ∈ token) :
    ∃ left right, token = left ++ '-' :: right ∧ '-' ∉ right := by
  induction token with
  | nil => simp at h
  | cons c rest ih =>
    by_cases hr : '-' ∈ rest
    · obtain ⟨left, right, e, hn⟩ := ih hr
      exact ⟨c :: left, right, by rw [e]; rfl, hn⟩
    · have hc : c = '-' := by
        rcases List.mem_cons.1 h with h | h
        · exact h.symm
        · exact absurd h hr
      exact ⟨[], rest, by rw [hc]; rfl, hr⟩

/-- The left side of a range is read up to the dash: `get_index` gives what it gives for the
part alone. -/
theorem get_index_before_dash (part right : List Char) (parts : List (List Char))
    (is_one_based : Bool) (hne : part ≠ []) :
    get_index (part ++ '-' :: right) part.length parts is_one_based
      = get_index part part.length parts is_one_based := by
  have h1 : (part ++ '-' :: right).take part.length = part := List.take_left' rfl
  have h2 : part.take part.length = part := List.take_length part
  unfold get_index
  rw [h1, h2]
  by_cases hall : part.all Char.isDigit = true
  · have hd : ∀ c ∈ part, c.isDigit = true := by simpa using hall
    have a1 := atoi_digits_run part ('-' :: right) hne hd (by simp)
    have a2 := atoi_digits_run part [] hne hd (by simp)
    rw [List.append_nil] at a2
    rw [if_pos hall, if_pos hall, a1, a2]
  · rw [if_neg hall, if_neg hall]

/-- How lines 122-154 treat a token whose last dash stands between `left` and `right`: each
side is resolved on its own. -/
theorem parse_range_sides (left right : List Char) (first_parts : List (List Char))
    (is_one_based : Bool) (indices : List Int) (h : '-' ∉ right) :
    parse_range (left ++ '-' :: right) first_parts is_one_based indices =
      (if left = [] then Result.ok 0
        else get_index left left.length first_parts is_one_based).bind
        fun first_index =>
          (if right = [] then Result.ok ((first_parts.length : Int) - 1)
            else get_index right right.length first_parts is_one_based).bind
            fun last_index => .ok (indices ++ interval first_index last_index) := by
  rw [parse_range_dash left right first_parts is_one_based indices h]
  by_cases hl : left = []
  · simp only [hl, if_true]
  · simp only [hl, if_false, get_index_before_dash left right first_parts is_one_based hl]

theorem dash_not_digit_mem (part : List Char) (h : '-' ∈ part) :
    ∃ c ∈ part, c.isDigit = false :=
  ⟨'-', h, by decide⟩

/-- C17: a token with one or more dashes is split at its last dash only: the left part is all
that stands before the last dash and, when it holds dashes itself, is resolved as one column
name; the right part is all that stands after it.  With the header `x-y,b,c` the token `x-y-c`
resolves to `[0, 1, 2]`. -/
theorem token_split_at_last_dash (token : List Char) (first_parts : List (List Char))
    (is_one_based : Bool) (indices : List Int) (hd : '-' ∈ token) :
    ∃ left right, token = left ++ '-' :: right ∧ '-' ∉ right ∧
      parse_range token first_parts is_one_based indices =
        ((if left = [] then Result.ok 0
          else get_index left left.length first_parts is_one_based).bind
          fun first_index =>
            (if right = [] then Result.ok ((first_parts.length : Int) - 1)
              else get_index right right.length first_parts is_one_based).bind
              fun last_index => .ok (indices ++ interval first_index last_index)) ∧
      ('-' ∈ left →
        get_index left left.length first_parts is_one_based =
          if left ∈ first_parts then .ok (find first_parts left : Int)
          else .exit (.cannot_find left)) ∧
      resolve "x-y-c".toList "x-y,b,c".toList true = .ok [0, 1, 2] ∧
      resolve "x-y-c".toList "x-y,b,c".toList false = .ok [0, 1, 2] := by
  obtain ⟨left, right, e, hn⟩ := last_dash_split token hd
  refine ⟨left, right, e, hn, ?_, ?_, by decide, by decide⟩
  · rw [e]
    exact parse_range_sides left right first_parts is_one_based indices hn
  · intro hl
    have := get_index_not_digits left [] first_parts is_one_based (dash_not_digit_mem left hl)
    rw [List.append_nil] at this
    exact this

/-- Witness of C17: the token `x-y-c` against the fields `x-y`, `b`, `c`. -/
theorem token_split_at_last_dash_witness :
    ∃ left right, "x-y-c".toList = left ++ '-' :: right ∧ '-' ∉ right ∧
      parse_range "x-y-c".toList [['x', '-', 'y'], ['b'], ['c']] true [] = .ok [0, 1, 2] := by
  obtain ⟨left, right, e, hn, hp, hl, _⟩ := token_split_at_last_dash "x-y-c".toList
    [['x', '-', 'y'], ['b'], ['c']] true [] (by decide)
  exact ⟨left, right, e, hn, by decide⟩

/-- C19: a token with a dash is never looked up as a whole column name: what it resolves to is
settled by its two sides and the number of fields, so two first lines with equally many
fields on which the sides resolve alike give the same result, whether or not one of them has
a field that equals the token.  With the header `a,b,a-b` the specification `a-b` resolves to
`[0, 1]`, not to `[2]`, and with the header `a-b,c` it fails with "cannot find 'a' in header"
and exit status 1. -/
theorem dashed_token_is_not_looked_up (left right : List Char)
    (first_parts other_parts : List (List Char)) (is_one_based : Bool) (indices : List Int)
    (hr : '-' ∉ right) (hlen : other_parts.length = first_parts.length)
    (hleft : get_index left left.length other_parts is_one_based
      = get_index left left.length first_parts is_one_based)
    (hright : get_index right right.length other_parts is_one_based
      = get_index right right.length first_parts is_one_based) :
    parse_range (left ++ '-' :: right) other_parts is_one_based indices
        = parse_range (left ++ '-' :: right) first_parts is_one_based indices ∧
      ((∃ c ∈ left, c.isDigit = false) → left ∉ first_parts →
        parse_range (left ++ '-' :: right) first_parts is_one_based indices
          = .exit (.cannot_find left)) ∧
      (∀ one_based, resolve "a-b".toList "a,b,a-b".toList one_based = .ok [0, 1]) ∧
      find (as_parts "a,b,a-b".toList) "a-b".toList = 2 ∧
      (∀ one_based, resolve "a-b".toList "a-b,c".toList one_based
        = .exit (.cannot_find ['a'])) ∧
      (Failure.cannot_find ['a']).status = 1 ∧
      (Failure.cannot_find ['a']).diagnostic ['f'] = "f: cannot find 'a' in header\n".toList := by
  refine ⟨?_, ?_, ?_, by decide, ?_, rfl, by decide⟩
  · rw [parse_range_sides left right other_parts is_one_based indices hr,
      parse_range_sides left right first_parts is_one_based indices hr, hleft, hright, hlen]
  · intro hname hmiss
    have hne : left ≠ [] := by
      obtain ⟨c, hc, _⟩ := hname
      exact List.ne_nil_of_mem hc
    have hg := get_index_not_digits left [] first_parts is_one_based hname
    rw [List.append_nil, if_neg hmiss] at hg
    rw [parse_range_sides left right first_parts is_one_based indices hr, if_neg hne, hg]
    rfl
  · intro one_based
    cases one_based <;> decide
  · intro one_based
    cases one_based <;> decide

/-- Witness of C19: the token `a-b` on the first lines `a,b,a-b` and `a,b,c`. -/
theorem dashed_token_is_not_looked_up_witness :
    parse_range "a-b".toList (as_parts "a,b,a-b".toList) true []
      = parse_range "a-b".toList (as_parts "a,b,c".toList) true [] :=
  (dashed_token_is_not_looked_up ['a'] ['b'] (as_parts "a,b,c".toList)
    (as_parts "a,b,a-b".toList) true [] (by decide) (by decide) (by decide) (by decide)).1

/-! ## The shape of the output -/

theorem lines_of_no_newline (sin s : List Char) (h : s ∈ lines_of sin) : '\n' ∉ s := by
  induction sin generalizing s with
  | nil => simp [lines_of] at h
  | cons ch rest ih =>
    unfold lines_of at h
    by_cases hc : (ch == '\n') = true
    · rw [if_pos hc] at h
      rcases List.mem_cons.1 h with h | h
      · subst h
        simp
      · exact ih s h
    · rw [if_neg hc] at h
      have hne : ¬ '\n' = ch := by
        intro e
        exact hc (by rw [← e]; rfl)
      cases hl : lines_of rest with
      | nil =>
        rw [hl] at h
        simp only [List.mem_singleton] at h
        subst h
        simpa using hne
      | cons t more =>
        rw [hl] at h
        simp only [] at h
        rcases List.mem_cons.1 h with h | h
        · subst h
          have := ih t (by rw [hl]; exact List.mem_cons_self _ _)
          simp [hne, this]
        · exact ih s (by rw [hl]; exact List.mem_cons_of_mem _ h)

/-- The characters of a field are characters of the line. -/
theorem as_parts_mem (line field : List Char) (c : Char) (hf : field ∈ as_parts line)
    (hc : c ∈ field) : c ∈ line := by
  rw [as_parts_eq] at hf
  obtain ⟨g, hg, e⟩ := List.mem_map.1 hf
  subst e
  exact split_fields_flatten_mem false line g hg c (List.takeWhile_subset _ hc)

theorem cell_mem (parts : List (List Char)) (i : Int) (c : Char) (hc : c ∈ cell parts i) :
    ∃ field ∈ parts, c ∈ field := by
  unfold cell at hc
  split at hc
  · by_cases hi : i.toNat < parts.length
    · rw [List.getD_eq_getElem _ _ hi] at hc
      exact ⟨_, List.getElem_mem _, hc⟩
    · rw [List.getD_eq_default _ _ (by omega)] at hc
      simp at hc
  · simp at hc

theorem mem_intercalate (sep : List Char) (row : List (List Char)) (c : Char)
    (h : c ∈ sep.intercalate row) : c ∈ sep ∨ ∃ x ∈ row, c ∈ x := by
  induction row with
  | nil => simp [List.intercalate, List.intersperse] at h
  | cons a row ih =>
    cases row with
    | nil =>
      simp only [List.intercalate, List.intersperse, List.flatten_cons, List.flatten_nil,
        List.append_nil] at h
      exact Or.inr ⟨a, List.mem_cons_self _ _, h⟩
    | cons b row =>
      rw [intercalate_cons_cons] at h
      rcases List.mem_append.1 h with h | h
      · rcases List.mem_append.1 h with h | h
        · exact Or.inr ⟨a, List.mem_cons_self _ _, h⟩
        · exact Or.inl h
      · rcases ih h with h | ⟨x, hx, hcx⟩
        · exact Or.inl h
        · exact Or.inr ⟨x, List.mem_cons_of_mem _ hx, hcx⟩

/-- No cell of a line without newline holds a newline. -/
theorem cell_no_newline (s : List Char) (i : Int) (h : '\n' ∉ s) :
    '\n' ∉ cell (as_parts s) i := by
  intro hc
  obtain ⟨field, hf, hcf⟩ := cell_mem _ _ _ hc
  exact h (as_parts_mem s field _ hf hcf)

theorem count_newline_emitted_line (indices : List Int) (s : List Char) (h : '\n' ∉ s) :
    List.count '\n' (emitted_line indices s) = 1 := by
  unfold emitted_line
  rw [List.count_append]
  have : '\n' ∉ [','].intercalate (indices.map (cell (as_parts s))) := by
    intro hm
    rcases mem_intercalate _ _ _ hm with hm | ⟨x, hx, hcx⟩
    · exact absurd hm (by decide)
    · obtain ⟨i, _, e⟩ := List.mem_map.1 hx
      subst e
      exact cell_no_newline s i h hcx
  rw [List.count_eq_zero_of_not_mem this]
  rfl

theorem count_newline_emitted_lines (indices : List Int) (ls : List (List Char))
    (h : ∀ s ∈ ls, '\n' ∉ s) :
    List.count '\n' ((ls.map (emitted_line indices)).flatten) = ls.length := by
  induction ls with
  | nil => rfl
  | cons s ls ih =>
    rw [List.map_cons, List.flatten_cons, List.count_append,
      count_newline_emitted_line indices s (h s (List.mem_cons_self _ _)),
      ih (fun t ht => h t (List.mem_cons_of_mem _ ht)), List.length_cons]
    omega

/-- C16: for every source and specification that resolves, the output has exactly one
newline-terminated line per input line when the header is wanted and exactly one fewer when it
is suppressed; each output line has exactly `k` cells for a resolved index list of length `k`,
a comma between two cells and none after the last. -/
theorem output_has_one_line_per_input_line (specification sin first rest : List Char)
    (is_one_based : Bool) (indices : List Int) (hg : getline sin = some (first, rest))
    (hr : resolve specification first is_one_based = .ok indices) :
    ∃ rows : List (List (List Char)),
      rows.length = (lines_of sin).length ∧
        (∀ row ∈ rows, row.length = indices.length ∧ ∀ c ∈ row, '\n' ∉ c) ∧
        (parse_and_cut (some specification) sin is_one_based true []).cout
          = (rows.map fun row => [','].intercalate row ++ ['\n']).flatten ∧
        (parse_and_cut (some specification) sin is_one_based false []).cout
          = ((rows.drop 1).map fun row => [','].intercalate row ++ ['\n']).flatten ∧
        List.count '\n' (parse_and_cut (some specification) sin is_one_based true []).cout
          = (lines_of sin).length ∧
        List.count '\n' (parse_and_cut (some specification) sin is_one_based false []).cout + 1
          = (lines_of sin).length := by
  obtain ⟨m1, h1⟩ := parse_and_cut_eq specification sin first rest is_one_based true []
    indices hg hr
  obtain ⟨m2, h2⟩ := parse_and_cut_eq specification sin first rest is_one_based false []
    indices hg hr
  obtain ⟨hl, _⟩ := getline_eq_some sin first rest hg
  have hnl : ∀ s ∈ lines_of sin, '\n' ∉ s := fun s hs => lines_of_no_newline sin s hs
  have hout1 : (parse_and_cut (some specification) sin is_one_based true []).cout
      = ((lines_of sin).map (emitted_line indices)).flatten := by
    rw [h1, hl]
    simp
  have hout2 : (parse_and_cut (some specification) sin is_one_based false []).cout
      = ((lines_of rest).map (emitted_line indices)).flatten := by
    rw [h2]
    simp
  refine ⟨(lines_of sin).map fun s => indices.map (cell (as_parts s)), ?_, ?_, ?_, ?_, ?_, ?_⟩
  · simp
  · intro row hrow
    obtain ⟨s, hs, e⟩ := List.mem_map.1 hrow
    subst e
    refine ⟨by simp, ?_⟩
    intro c hc
    obtain ⟨i, _, e⟩ := List.mem_map.1 hc
    subst e
    exact cell_no_newline s i (hnl s hs)
  · rw [hout1, List.map_map]
    rfl
  · rw [hout2, hl, List.map_cons, List.drop_one, List.tail_cons, List.map_map]
    rfl
  · rw [hout1]
    exact count_newline_emitted_lines indices _ hnl
  · rw [hout2, count_newline_emitted_lines indices _
      (fun s hs => hnl s (by rw [hl]; exact List.mem_cons_of_mem _ hs)), hl, List.length_cons]

/-- Witness of C16: the source `a,b`, `1,2`, `3` with the specification `2,1,2`, one-based. -/
theorem output_has_one_line_per_input_line_witness :
    ∃ rows : List (List (List Char)),
      rows.length = (lines_of "a,b\n1,2\n3".toList).length ∧
        (∀ row ∈ rows, row.length = ([1, 0, 1] : List Int).length ∧ ∀ c ∈ row, '\n' ∉ c) ∧
        (parse_and_cut (some ['2', ',', '1', ',', '2']) "a,b\n1,2\n3".toList true true []).cout
          = (rows.map fun row => [','].intercalate row ++ ['\n']).flatten ∧
        (parse_and_cut (some ['2', ',', '1', ',', '2']) "a,b\n1,2\n3".toList true false []).cout
          = ((rows.drop 1).map fun row => [','].intercalate row ++ ['\n']).flatten ∧
        List.count '\n'
            (parse_and_cut (some ['2', ',', '1', ',', '2']) "a,b\n1,2\n3".toList true true []).cout
          = (lines_of "a,b\n1,2\n3".toList).length ∧
        List.count '\n'
            (parse_and_cut (some ['2', ',', '1', ',', '2']) "a,b\n1,2\n3".toList true false
              []).cout + 1
          = (lines_of "a,b\n1,2\n3".toList).length :=
  output_has_one_line_per_input_line ['2', ',', '1', ',', '2'] "a,b\n1,2\n3".toList
    "a,b".toList "1,2\n3".toList true [1, 0, 1] (by decide) (by decide)

/-- The specification `-` resolves to all field positions of the first line, in order. -/
theorem resolve_dash (line : List Char) (is_one_based : Bool) :
    resolve ['-'] line is_one_based
      = .ok ((List.range (as_parts line).length).map fun (k : Nat) => (k : Int)) := by
  have h := parse_range_dash [] [] (as_parts line) is_one_based [] (by simp)
  simp only [List.nil_append, if_true, Result.bind] at h
  have hs : strtok ['-'] 0 = (['-'], 1, some 0) := by decide
  have hs1 : strtok ['-'] 1 = (['-'], 1, none) := by decide
  have hc : cstr ['-'] 0 = ['-'] := by decide
  simp only [resolve, hs, List.length_singleton, parse_ranges, hc, h, hs1, Result.bind,
    interval_zero _ (as_parts_length_pos line)]

theorem map_getD_range (parts : List (List Char)) :
    (List.range parts.length).map (fun k => parts.getD k []) = parts := by
  apply List.ext_getElem
  · simp
  · intro n h1 h2
    simp [List.getElem?_eq_getElem h2]

/-- With all field positions as indices, a line without NUL that has as many fields as there
are indices is emitted as it is. -/
theorem emitted_line_all (s : List Char) (n : Nat) (hlen : (as_parts s).length = n)
    (hnul : NUL ∉ s) :
    emitted_line ((List.range n).map fun (k : Nat) => (k : Int)) s = s ++ ['\n'] := by
  unfold emitted_line
  have e : ((List.range n).map fun (k : Nat) => (k : Int)).map (cell (as_parts s))
      = as_parts s := by
    rw [List.map_map, ← hlen]
    conv_rhs => rw [← map_getD_range (as_parts s)]
    apply List.map_congr_left
    intro k hk
    have hk' : k < (as_parts s).length := List.mem_range.1 hk
    simp [cell, hk']
  rw [e, as_parts_eq_split_fields s hnul, intercalate_split_fields]

/-- C18: for every source with at least one line in which every line holds no NUL and splits
into exactly as many fields as the first line, quoted spans or not, the specification `-` in
either mode with the header wanted reproduces the input: each input line unchanged, each
followed by a newline. -/
theorem dash_reproduces_input (sin first rest : List Char) (is_one_based : Bool)
    (hg : getline sin = some (first, rest))
    (h : ∀ s ∈ lines_of sin, NUL ∉ s ∧ (as_parts s).length = (as_parts first).length) :
    (parse_and_cut (some ['-']) sin is_one_based true []).cout
        = ((lines_of sin).map fun s => s ++ ['\n']).flatten ∧
      ∃ memory, (parse_and_cut (some ['-']) sin is_one_based true []).result
        = .ok (some memory) := by
  obtain ⟨m, hm⟩ := parse_and_cut_eq ['-'] sin first rest is_one_based true [] _ hg
    (resolve_dash first is_one_based)
  obtain ⟨hl, _⟩ := getline_eq_some sin first rest hg
  refine ⟨?_, m, by rw [hm]⟩
  rw [hm]
  simp only [if_true, List.nil_append]
  have : ∀ s ∈ lines_of sin,
      emitted_line ((List.range (as_parts first).length).map fun (k : Nat) => (k : Int)) s
        = s ++ ['\n'] :=
    fun s hs => emitted_line_all s _ (h s hs).2 (h s hs).1
  rw [hl] at this ⊢
  rw [List.map_cons, List.flatten_cons, this first (List.mem_cons_self _ _)]
  congr 2
  apply List.map_congr_left
  intro s hs
  exact this s (List.mem_cons_of_mem _ hs)

/-- Witness of C18: a source of three lines of two fields, one with a quoted comma and the
last without newline. -/
theorem dash_reproduces_input_witness :
    (parse_and_cut (some ['-']) "a,b\n\"x,y\",2\n,".toList false true []).cout
      = "a,b\n\"x,y\",2\n,\n".toList := by
  have h := (dash_reproduces_input "a,b\n\"x,y\",2\n,".toList "a,b".toList
    "\"x,y\",2\n,".toList false (by decide) (by decide)).1
  rw [h]
  decide

/-! ## The arguments of the command line -/

/-- The run recorded by `main_traced` is the run of `main_loop`. -/
theorem main_traced_fst (argv : List (List Char)) (files : List Char → Option (List Char))
    (cin : List Char) (fuel : Nat) (st : State) :
    (main_traced argv files cin fuel st).1 = main_loop argv files cin fuel st := by
  induction fuel generalizing st with
  | zero => rfl
  | succ fuel ih =>
    unfold main_traced main_loop
    simp only []
    split
    · split
      · split <;> rfl
      · split
        · rfl
        · split
          · exact ih _
          · rfl
          · rfl
          · rfl
    · split
      · exact ih _
      · split
        · exact ih _
        · split
          · exact ih _
          · rfl

/-- The run recorded by `traced` is the run of `main`. -/
theorem traced_fst (argv : List (List Char)) (files : List Char → Option (List Char))
    (cin : List Char) : (traced argv files cin).1 = main argv files cin :=
  main_traced_fst argv files cin _ _

theorem getElem?_at_length (pre post : List (List Char)) (x : List Char) :
    (pre ++ x :: post)[pre.length]? = some x := by
  induction pre with
  | nil => simp
  | cons a pre ih => simpa using ih

theorem getElem?_after_length (pre post : List (List Char)) (x y : List Char) :
    (pre ++ x :: y :: post)[pre.length + 1]? = some y := by
  induction pre with
  | nil => simp
  | cons a pre ih => simpa using ih

theorem getopt_s (pre post : List (List Char)) :
    getopt (pre ++ ['-', 's'] :: post) pre.length [] = ⟨some 's', [], pre.length + 1, []⟩ := by
  simp only [getopt, getElem?_at_length]
  have : (['-', 's'] : List Char) ≠ ['-', '-'] := by decide
  simp only [this, if_false, getopt_option]
  rfl

theorem getopt_c (pre post : List (List Char)) (specification : List Char) :
    getopt (pre ++ ['-', 'c'] :: specification :: post) pre.length []
      = ⟨some 'c', specification, pre.length + 2, []⟩ := by
  simp only [getopt, getElem?_at_length]
  have : (['-', 'c'] : List Char) ≠ ['-', '-'] := by decide
  simp only [this, if_false, getopt_option, getElem?_after_length]
  rfl

theorem getopt_K (pre post : List (List Char)) (specification : List Char) :
    getopt (pre ++ ['-', 'K'] :: specification :: post) pre.length []
      = ⟨some 'K', specification, pre.length + 2, []⟩ := by
  simp only [getopt, getElem?_at_length]
  have : (['-', 'K'] : List Char) ≠ ['-', '-'] := by decide
  simp only [this, if_false, getopt_option, getElem?_after_length]
  rfl

theorem getopt_file (pre post : List (List Char)) (file_name : List Char)
    (h : file_name.head? ≠ some '-') :
    getopt (pre ++ file_name :: post) pre.length [] = ⟨none, [], pre.length, []⟩ := by
  simp only [getopt, getElem?_at_length]
  cases file_name with
  | nil => rfl
  | cons a rest =>
    have ha : a ≠ '-' := by simpa using h
    have hne : a :: rest ≠ ['-', '-'] := by
      intro e
      simp only [List.cons.injEq] at e
      exact ha e.1
    rw [if_neg hne]
    split
    · rename_i c r e
      simp only [List.cons.injEq] at e
      exact absurd e.1 ha
    · rfl

theorem getopt_end (pre : List (List Char)) :
    getopt pre pre.length [] = ⟨none, [], pre.length, []⟩ := by
  simp [getopt]

/-- On a command line written argument by argument, the traced loop of `main` is the run over
the arguments: `getopt` hands over each option with what it takes, and each element without a
leading dash is a file. -/
theorem main_traced_eq_run_args (files : List Char → Option (List Char)) (cin : List Char)
    (args : List Arg) (pre : List (List Char)) (st : State) (fuel : Nat)
    (hfiles : ∀ n, Arg.file n ∈ args → n.head? ≠ some '-')
    (hopt : st.optind = pre.length) (hnc : st.nextchar = []) (hfuel : args.length < fuel) :
    main_traced (pre ++ args.flatMap Arg.argv) files cin fuel st
      = run_args files cin args st.specification st.file_name.isNone st.is_one_based
          st.wants_header st.cout := by
  induction args generalizing pre st fuel with
  | nil =>
    cases fuel with
    | zero => exact absurd hfuel (Nat.not_lt_zero _)
    | succ fuel =>
      simp only [List.flatMap_nil, List.append_nil]
      unfold main_traced
      rw [hopt, hnc, getopt_end]
      have hend : pre[pre.length]? = none := by simp
      simp only [hend]
      cases hf : st.file_name <;> simp [run_args]
  | cons a rest ih =>
    cases fuel with
    | zero => exact absurd hfuel (Nat.not_lt_zero _)
    | succ fuel =>
      have hrest : ∀ n, Arg.file n ∈ rest → n.head? ≠ some '-' :=
        fun n hn => hfiles n (List.mem_cons_of_mem _ hn)
      have hfuel' : rest.length < fuel := by
        simp only [List.length_cons] at hfuel
        omega
      cases a with
      | s =>
        have e : pre ++ (Arg.s :: rest).flatMap Arg.argv
            = (pre ++ [['-', 's']]) ++ rest.flatMap Arg.argv := by
          simp [List.flatMap_cons, Arg.argv]
        have e' : pre ++ (Arg.s :: rest).flatMap Arg.argv
            = pre ++ ['-', 's'] :: rest.flatMap Arg.argv := by
          simp [List.flatMap_cons, Arg.argv]
        unfold main_traced
        rw [hopt, hnc]
        conv_lhs => rw [e', getopt_s]
        simp only [beq_self_eq_true, if_true]
        rw [← e', e, ih (pre ++ [['-', 's']]) _ fuel hrest (by simp) rfl hfuel']
        simp [run_args]
      | c specification =>
        have e : pre ++ (Arg.c specification :: rest).flatMap Arg.argv
            = (pre ++ [['-', 'c'], specification]) ++ rest.flatMap Arg.argv := by
          simp [List.flatMap_cons, Arg.argv]
        have e' : pre ++ (Arg.c specification :: rest).flatMap Arg.argv
            = pre ++ ['-', 'c'] :: specification :: rest.flatMap Arg.argv := by
          simp [List.flatMap_cons, Arg.argv]
        unfold main_traced
        rw [hopt, hnc]
        conv_lhs => rw [e', getopt_c]
        have h1 : (('c' : Char) == 's') = false := by decide
        simp only [h1, Bool.false_eq_true, if_false, beq_self_eq_true, if_true]
        rw [← e', e, ih (pre ++ [['-', 'c'], specification]) _ fuel hrest (by simp) rfl hfuel']
        simp [run_args]
      | K specification =>
        have e : pre ++ (Arg.K specification :: rest).flatMap Arg.argv
            = (pre ++ [['-', 'K'], specification]) ++ rest.flatMap Arg.argv := by
          simp [List.flatMap_cons, Arg.argv]
        have e' : pre ++ (Arg.K specification :: rest).flatMap Arg.argv
            = pre ++ ['-', 'K'] :: specification :: rest.flatMap Arg.argv := by
          simp [List.flatMap_cons, Arg.argv]
        unfold main_traced
        rw [hopt, hnc]
        conv_lhs => rw [e', getopt_K]
        have h1 : (('K' : Char) == 's') = false := by decide
        have h2 : (('K' : Char) == 'c') = false := by decide
        simp only [h1, h2, Bool.false_eq_true, if_false, beq_self_eq_true, if_true]
        rw [← e', e, ih (pre ++ [['-', 'K'], specification]) _ fuel hrest (by simp) rfl hfuel']
        simp [run_args]
      | file file_name =>
        have hname := hfiles file_name (List.mem_cons_self _ _)
        have e : pre ++ (Arg.file file_name :: rest).flatMap Arg.argv
            = (pre ++ [file_name]) ++ rest.flatMap Arg.argv := by
          simp [List.flatMap_cons, Arg.argv]
        have e' : pre ++ (Arg.file file_name :: rest).flatMap Arg.argv
            = pre ++ file_name :: rest.flatMap Arg.argv := by
          simp [List.flatMap_cons, Arg.argv]
        unfold main_traced
        rw [hopt, hnc]
        conv_lhs => rw [e', getopt_file _ _ _ hname]
        simp only [getElem?_at_length]
        rw [run_args]
        cases hopen : files file_name with
        | none => rfl
        | some fin =>
          simp only []
          cases hres : (parse_and_cut st.specification fin st.is_one_based st.wants_header
              st.cout).result with
          | ok memory =>
            simp only []
            rw [← e', e, ih (pre ++ [file_name]) _ fuel hrest (by simp) rfl hfuel']
            simp
          | exit f => rfl
          | undefined => rfl
          | diverge => rfl

theorem length_le_length_argv (args : List Arg) :
    args.length ≤ (args.flatMap Arg.argv).length := by
  induction args with
  | nil => simp
  | cons a rest ih =>
    rw [List.flatMap_cons, List.length_append, List.length_cons]
    have : 1 ≤ a.argv.length := by cases a <;> simp [Arg.argv]
    omega

/-- The traced run of `main` on a command line written argument by argument. -/
theorem traced_eq_run_args (name : List Char) (args : List Arg)
    (files : List Char → Option (List Char)) (cin : List Char)
    (hfiles : ∀ n, Arg.file n ∈ args → n.head? ≠ some '-') :
    traced (command_line name args) files cin
      = run_args files cin args none true false true [] := by
  have h := main_traced_eq_run_args files cin args [name] ⟨none, none, false, true, 1, [], []⟩
    (((command_line name args).map List.length).sum + (command_line name args).length + 1)
    hfiles rfl rfl (by
      have := length_le_length_argv args
      simp only [command_line, List.length_cons]
      omega)
  exact h

/-- With options only, the settings are collected and the run is that of the end. -/
theorem run_args_options (files : List Char → Option (List Char)) (cin : List Char)
    (args : List Arg) (spec : Option (List Char)) (null mode header : Bool) (cout : List Char)
    (h : ∀ a ∈ args, a.is_file = false) :
    run_args files cin args spec null mode header cout
      = run_args files cin [] (spec_after args spec) (null_after args null)
          (mode_after args mode) (header_after args header) cout := by
  induction args generalizing spec null mode header with
  | nil => rfl
  | cons a rest ih =>
    have hr : ∀ b ∈ rest, b.is_file = false := fun b hb => h b (List.mem_cons_of_mem _ hb)
    cases a with
    | s =>
      conv_lhs => rw [run_args]
      rw [ih _ _ _ _ hr]
      rfl
    | c specification =>
      conv_lhs => rw [run_args]
      rw [ih _ _ _ _ hr]
      rfl
    | K specification =>
      conv_lhs => rw [run_args]
      rw [ih _ _ _ _ hr]
      rfl
    | file file_name => exact absurd (h _ (List.mem_cons_self _ _)) (by simp [Arg.is_file])

theorem null_after_options (args : List Arg) (h : ∀ a ∈ args, a.is_file = false) :
    null_after args true = true := by
  induction args with
  | nil => rfl
  | cons a rest ih =>
    have hr : ∀ b ∈ rest, b.is_file = false := fun b hb => h b (List.mem_cons_of_mem _ hb)
    cases a with
    | s => exact ih hr
    | c specification => exact ih hr
    | K specification => exact ih hr
    | file file_name => exact absurd (h _ (List.mem_cons_self _ _)) (by simp [Arg.is_file])

theorem null_after_append (before after : List Arg) (null : Bool) :
    null_after (before ++ after) null = null_after after (null_after before null) := by
  induction before generalizing null with
  | nil => rfl
  | cons a rest ih => cases a <;> simp [null_after, ih]

theorem null_after_no_columns (after : List Arg) (null : Bool)
    (h : ∀ a ∈ after, a.is_columns = false) (hn : null = false) :
    null_after after null = false := by
  induction after generalizing null with
  | nil => exact hn
  | cons a rest ih =>
    have hr : ∀ b ∈ rest, b.is_columns = false := fun b hb => h b (List.mem_cons_of_mem _ hb)
    cases a with
    | s => exact ih _ hr hn
    | c specification => exact absurd (h _ (List.mem_cons_self _ _)) (by simp [Arg.is_columns])
    | K specification => exact absurd (h _ (List.mem_cons_self _ _)) (by simp [Arg.is_columns])
    | file file_name => exact ih _ hr rfl

theorem null_after_no_file (after : List Arg) (null : Bool)
    (h : ∀ a ∈ after, a.is_file = false) (hn : null = true) :
    null_after after null = true := by
  induction after generalizing null with
  | nil => exact hn
  | cons a rest ih =>
    have hr : ∀ b ∈ rest, b.is_file = false := fun b hb => h b (List.mem_cons_of_mem _ hb)
    cases a with
    | s => exact ih _ hr hn
    | c specification => exact ih _ hr rfl
    | K specification => exact ih _ hr rfl
    | file file_name => exact absurd (h _ (List.mem_cons_self _ _)) (by simp [Arg.is_file])

/-- A file name followed by no `-c` and no `-K` leaves `file_name` set. -/
theorem null_after_file_last (before after : List Arg) (file_name : List Char) (null : Bool)
    (h : ∀ a ∈ after, a.is_columns = false) :
    null_after (before ++ Arg.file file_name :: after) null = false := by
  rw [null_after_append]
  exact null_after_no_columns after _ h rfl

/-- A `-c` or `-K` followed by no file name leaves `file_name` null. -/
theorem null_after_columns_last (before after : List Arg) (a : Arg) (null : Bool)
    (ha : a.is_columns = true) (h : ∀ b ∈ after, b.is_file = false) :
    null_after (before ++ a :: after) null = true := by
  rw [null_after_append]
  cases a with
  | s => simp [Arg.is_columns] at ha
  | c specification => exact null_after_no_file after _ h rfl
  | K specification => exact null_after_no_file after _ h rfl
  | file file_name => simp [Arg.is_columns] at ha

/-- When `file_name` ends null after a file, a `-c` or `-K` has replaced the specification. -/
theorem spec_after_of_null (rest : List Arg) (x y : Option (List Char))
    (h : null_after rest false = true) : spec_after rest x = spec_after rest y := by
  induction rest generalizing x y with
  | nil => simp [null_after] at h
  | cons a rest ih =>
    cases a with
    | s => exact ih x y h
    | c specification => rfl
    | K specification => rfl
    | file file_name => exact ih x y h

/-- A call on standard input is made only when `file_name` ends null, and with the settings in
effect after all arguments. -/
theorem run_args_stdin_call (files : List Char → Option (List Char)) (cin : List Char)
    (args : List Arg) (spec : Option (List Char)) (null mode header : Bool) (cout : List Char)
    (call : Call) (hc : call ∈ (run_args files cin args spec null mode header cout).2)
    (hn : call.file_name = none) :
    null_after args null = true ∧
      call = ⟨none, spec_after args spec, mode_after args mode, header_after args header⟩ := by
  induction args generalizing spec null mode header cout with
  | nil =>
    unfold run_args at hc
    by_cases hnull : null = true
    · rw [if_pos hnull] at hc
      simp only [List.mem_singleton] at hc
      exact ⟨hnull, hc⟩
    · rw [if_neg hnull] at hc
      simp at hc
  | cons a rest ih =>
    cases a with
    | s => rw [run_args] at hc; exact ih _ _ _ _ _ hc
    | c specification => rw [run_args] at hc; exact ih _ _ _ _ _ hc
    | K specification => rw [run_args] at hc; exact ih _ _ _ _ _ hc
    | file file_name =>
      rw [run_args] at hc
      cases hopen : files file_name with
      | none => rw [hopen] at hc; simp at hc
      | some fin =>
        rw [hopen] at hc
        simp only [] at hc
        cases hres : (parse_and_cut spec fin mode header cout).result with
        | ok memory =>
          rw [hres] at hc
          simp only [] at hc
          rcases List.mem_cons.1 hc with h | h
          · rw [h] at hn
            simp at hn
          · obtain ⟨h1, h2⟩ := ih _ _ _ _ _ h
            refine ⟨h1, ?_⟩
            rw [h2]
            simp only [spec_after, mode_after, header_after]
            rw [spec_after_of_null rest memory spec h1]
        | exit f =>
          rw [hres] at hc
          simp only [List.mem_singleton] at hc
          rw [hc] at hn
          simp at hn
        | undefined =>
          rw [hres] at hc
          simp only [List.mem_singleton] at hc
          rw [hc] at hn
          simp at hn
        | diverge =>
          rw [hres] at hc
          simp only [List.mem_singleton] at hc
          rw [hc] at hn
          simp at hn

/-- Every call but the last is a call on a file. -/
theorem run_args_files_first (files : List Char → Option (List Char)) (cin : List Char)
    (args : List Arg) (spec : Option (List Char)) (null mode header : Bool) (cout : List Char)
    (call : Call) (hc : call ∈ (run_args files cin args spec null mode header cout).2.dropLast) :
    call.file_name ≠ none := by
  induction args generalizing spec null mode header cout with
  | nil =>
    unfold run_args at hc
    by_cases hnull : null = true
    · rw [if_pos hnull] at hc
      simp at hc
    · rw [if_neg hnull] at hc
      simp at hc
  | cons a rest ih =>
    cases a with
    | s => rw [run_args] at hc; exact ih _ _ _ _ _ hc
    | c specification => rw [run_args] at hc; exact ih _ _ _ _ _ hc
    | K specification => rw [run_args] at hc; exact ih _ _ _ _ _ hc
    | file file_name =>
      rw [run_args] at hc
      cases hopen : files file_name with
      | none => rw [hopen] at hc; simp at hc
      | some fin =>
        rw [hopen] at hc
        simp only [] at hc
        cases hres : (parse_and_cut spec fin mode header cout).result with
        | ok memory =>
          rw [hres] at hc
          simp only [] at hc
          by_cases ht : (run_args files cin rest memory false mode header
              (parse_and_cut spec fin mode header cout).cout).2 = []
          · rw [ht] at hc
            simp at hc
          · rw [List.dropLast_cons_of_ne_nil ht] at hc
            rcases List.mem_cons.1 hc with h | h
            · rw [h]
              simp
            · exact ih _ _ _ _ _ h
        | exit f => rw [hres] at hc; simp at hc
        | undefined => rw [hres] at hc; simp at hc
        | diverge => rw [hres] at hc; simp at hc

/-- When the run returns and `file_name` ends null, standard input has been cut. -/
theorem run_args_stdin_reached (files : List Char → Option (List Char)) (cin : List Char)
    (args : List Arg) (spec : Option (List Char)) (null mode header : Bool) (cout : List Char)
    (hok : (run_args files cin args spec null mode header cout).1.result = .ok ())
    (hn : null_after args null = true) :
    ∃ call ∈ (run_args files cin args spec null mode header cout).2, call.file_name = none := by
  induction args generalizing spec null mode header cout with
  | nil =>
    simp only [null_after] at hn
    unfold run_args
    rw [if_pos hn]
    exact ⟨_, List.mem_singleton.2 rfl, rfl⟩
  | cons a rest ih =>
    cases a with
    | s => rw [run_args] at hok ⊢; exact ih _ _ _ _ _ hok hn
    | c specification => rw [run_args] at hok ⊢; exact ih _ _ _ _ _ hok hn
    | K specification => rw [run_args] at hok ⊢; exact ih _ _ _ _ _ hok hn
    | file file_name =>
      rw [run_args] at hok ⊢
      cases hopen : files file_name with
      | none => rw [hopen] at hok; simp at hok
      | some fin =>
        rw [hopen] at hok
        simp only [] at hok ⊢
        cases hres : (parse_and_cut spec fin mode header cout).result with
        | ok memory =>
          rw [hres] at hok
          simp only [] at hok ⊢
          obtain ⟨call, hc, hcn⟩ := ih _ _ _ _ _ hok hn
          exact ⟨call, List.mem_cons_of_mem _ hc, hcn⟩
        | exit f => rw [hres] at hok; simp at hok
        | undefined => rw [hres] at hok; simp at hok
        | diverge => rw [hres] at hok; simp at hok

/-- When `file_name` ends null, standard input has been cut unless a file stopped the run:
then the run has not returned and every call made is on a file. -/
theorem run_args_stdin_or_stopped (files : List Char → Option (List Char)) (cin : List Char)
    (args : List Arg) (spec : Option (List Char)) (null mode header : Bool) (cout : List Char)
    (hn : null_after args null = true) :
    (∃ call ∈ (run_args files cin args spec null mode header cout).2, call.file_name = none) ∨
      ((run_args files cin args spec null mode header cout).1.result ≠ .ok () ∧
        ∀ call ∈ (run_args files cin args spec null mode header cout).2,
          call.file_name ≠ none) := by
  induction args generalizing spec null mode header cout with
  | nil =>
    simp only [null_after] at hn
    unfold run_args
    rw [if_pos hn]
    exact Or.inl ⟨_, List.mem_singleton.2 rfl, rfl⟩
  | cons a rest ih =>
    cases a with
    | s => rw [run_args]; exact ih _ _ _ _ _ hn
    | c specification => rw [run_args]; exact ih _ _ _ _ _ hn
    | K specification => rw [run_args]; exact ih _ _ _ _ _ hn
    | file file_name =>
      rw [run_args]
      cases hopen : files file_name with
      | none => exact Or.inr ⟨by simp, by simp⟩
      | some fin =>
        simp only []
        cases hres : (parse_and_cut spec fin mode header cout).result with
        | ok memory =>
          simp only []
          rcases ih memory false mode header (parse_and_cut spec fin mode header cout).cout hn
            with ⟨call, hc, hcn⟩ | ⟨hr, hall⟩
          · exact Or.inl ⟨call, List.mem_cons_of_mem _ hc, hcn⟩
          · refine Or.inr ⟨hr, ?_⟩
            intro call hc
            rcases List.mem_cons.1 hc with h | h
            · rw [h]; simp
            · exact hall call h
        | exit f => exact Or.inr ⟨by simp, by simp⟩
        | undefined => exact Or.inr ⟨by simp, by simp⟩
        | diverge => exact Or.inr ⟨by simp, by simp⟩

/-- When `file_name` ends set, the run does not depend on standard input. -/
theorem run_args_without_stdin (files : List Char → Option (List Char)) (cin other : List Char)
    (args : List Arg) (spec : Option (List Char)) (null mode header : Bool) (cout : List Char)
    (hn : null_after args null = false) :
    run_args files cin args spec null mode header cout
      = run_args files other args spec null mode header cout := by
  induction args generalizing spec null mode header cout with
  | nil =>
    simp only [null_after] at hn
    unfold run_args
    simp [hn]
  | cons a rest ih =>
    cases a with
    | s => rw [run_args, run_args]; exact ih _ _ _ _ _ hn
    | c specification => rw [run_args, run_args]; exact ih _ _ _ _ _ hn
    | K specification => rw [run_args, run_args]; exact ih _ _ _ _ _ hn
    | file file_name =>
      rw [run_args, run_args]
      cases hopen : files file_name with
      | none => rfl
      | some fin =>
        simp only []
        cases hres : (parse_and_cut spec fin mode header cout).result with
        | ok memory =>
          simp only []
          rw [ih _ _ _ _ _ hn]
        | exit f => rfl
        | undefined => rfl
        | diverge => rfl

/-- Without `-s` among the arguments every call has the header setting of the start. -/
theorem run_args_header_kept (files : List Char → Option (List Char)) (cin : List Char)
    (args : List Arg) (spec : Option (List Char)) (null mode header : Bool) (cout : List Char)
    (hs : ∀ a ∈ args, a ≠ Arg.s) (call : Call)
    (hc : call ∈ (run_args files cin args spec null mode header cout).2) :
    call.wants_header = header := by
  induction args generalizing spec null mode cout with
  | nil =>
    unfold run_args at hc
    by_cases hnull : null = true
    · rw [if_pos hnull] at hc
      simp only [List.mem_singleton] at hc
      rw [hc]
    · rw [if_neg hnull] at hc
      simp at hc
  | cons a rest ih =>
    have hr : ∀ b ∈ rest, b ≠ Arg.s := fun b hb => hs b (List.mem_cons_of_mem _ hb)
    cases a with
    | s => exact absurd rfl (hs _ (List.mem_cons_self _ _))
    | c specification => rw [run_args] at hc; exact ih _ _ _ _ hr hc
    | K specification => rw [run_args] at hc; exact ih _ _ _ _ hr hc
    | file file_name =>
      rw [run_args] at hc
      cases hopen : files file_name with
      | none => rw [hopen] at hc; simp at hc
      | some fin =>
        rw [hopen] at hc
        simp only [] at hc
        cases hres : (parse_and_cut spec fin mode header cout).result with
        | ok memory =>
          rw [hres] at hc
          simp only [] at hc
          rcases List.mem_cons.1 hc with h | h
          · rw [h]
          · exact ih _ _ _ _ hr h
        | exit f => rw [hres] at hc; simp only [List.mem_singleton] at hc; rw [hc]
        | undefined => rw [hres] at hc; simp only [List.mem_singleton] at hc; rw [hc]
        | diverge => rw [hres] at hc; simp only [List.mem_singleton] at hc; rw [hc]

/-- Once the header is suppressed, every call has it suppressed, whatever the arguments. -/
theorem run_args_header_stays_off (files : List Char → Option (List Char)) (cin : List Char)
    (args : List Arg) (spec : Option (List Char)) (null mode : Bool) (cout : List Char)
    (call : Call) (hc : call ∈ (run_args files cin args spec null mode false cout).2) :
    call.wants_header = false := by
  induction args generalizing spec null mode cout with
  | nil =>
    unfold run_args at hc
    by_cases hnull : null = true
    · rw [if_pos hnull] at hc
      simp only [List.mem_singleton] at hc
      rw [hc]
    · rw [if_neg hnull] at hc
      simp at hc
  | cons a rest ih =>
    cases a with
    | s => rw [run_args] at hc; exact ih _ _ _ _ hc
    | c specification => rw [run_args] at hc; exact ih _ _ _ _ hc
    | K specification => rw [run_args] at hc; exact ih _ _ _ _ hc
    | file file_name =>
      rw [run_args] at hc
      cases hopen : files file_name with
      | none => rw [hopen] at hc; simp at hc
      | some fin =>
        rw [hopen] at hc
        simp only [] at hc
        cases hres : (parse_and_cut spec fin mode false cout).result with
        | ok memory =>
          rw [hres] at hc
          simp only [] at hc
          rcases List.mem_cons.1 hc with h | h
          · rw [h]
          · exact ih _ _ _ _ h
        | exit f => rw [hres] at hc; simp only [List.mem_singleton] at hc; rw [hc]
        | undefined => rw [hres] at hc; simp only [List.mem_singleton] at hc; rw [hc]
        | diverge => rw [hres] at hc; simp only [List.mem_singleton] at hc; rw [hc]

/-- After an `-s`, every call but those on the files named before it has the header
suppressed. -/
theorem run_args_header_after_s (files : List Char → Option (List Char)) (cin : List Char)
    (before after : List Arg) (spec : Option (List Char)) (null mode header : Bool)
    (cout : List Char) (call : Call)
    (hc : call ∈ ((run_args files cin (before ++ Arg.s :: after) spec null mode header
      cout).2).drop (before.countP Arg.is_file)) :
    call.wants_header = false := by
  induction before generalizing spec null mode header cout with
  | nil =>
    simp only [List.nil_append, List.countP_nil, List.drop_zero] at hc
    rw [run_args] at hc
    exact run_args_header_stays_off files cin after spec null mode cout call hc
  | cons a rest ih =>
    cases a with
    | s =>
      rw [List.cons_append, run_args] at hc
      exact ih _ _ _ _ _ (by simpa [Arg.is_file] using hc)
    | c specification =>
      rw [List.cons_append, run_args] at hc
      exact ih _ _ _ _ _ (by simpa [Arg.is_file] using hc)
    | K specification =>
      rw [List.cons_append, run_args] at hc
      exact ih _ _ _ _ _ (by simpa [Arg.is_file] using hc)
    | file file_name =>
      rw [List.cons_append, run_args] at hc
      have hcount : (Arg.file file_name :: rest).countP Arg.is_file
          = rest.countP Arg.is_file + 1 := by
        simp [Arg.is_file]
      rw [hcount] at hc
      cases hopen : files file_name with
      | none => rw [hopen] at hc; simp at hc
      | some fin =>
        rw [hopen] at hc
        simp only [] at hc
        cases hres : (parse_and_cut spec fin mode header cout).result with
        | ok memory =>
          rw [hres] at hc
          simp only [List.drop_succ_cons] at hc
          exact ih _ _ _ _ _ hc
        | exit f => rw [hres] at hc; simp at hc
        | undefined => rw [hres] at hc; simp at hc
        | diverge => rw [hres] at hc; simp at hc

/-- Whatever the arguments, once the header is suppressed every call the loop still makes has
it suppressed. -/
theorem main_traced_header_stays_off (argv : List (List Char))
    (files : List Char → Option (List Char)) (cin : List Char) (fuel : Nat) (st : State)
    (h : st.wants_header = false) (call : Call)
    (hc : call ∈ (main_traced argv files cin fuel st).2) : call.wants_header = false := by
  induction fuel generalizing st with
  | zero => simp [main_traced] at hc
  | succ fuel ih =>
    unfold main_traced at hc
    simp only [] at hc
    split at hc
    · split at hc
      · split at hc
        · simp only [List.mem_singleton] at hc
          rw [hc]
          exact h
        · simp at hc
      · split at hc
        · simp at hc
        · split at hc
          · rcases List.mem_cons.1 hc with e | e
            · rw [e]
              exact h
            · refine ih _ ?_ e
              exact h
          · simp only [List.mem_singleton] at hc
            rw [hc]
            exact h
          · simp only [List.mem_singleton] at hc
            rw [hc]
            exact h
          · simp only [List.mem_singleton] at hc
            rw [hc]
            exact h
    · split at hc
      · exact ih _ rfl hc
      · split at hc
        · refine ih _ ?_ hc
          exact h
        · split at hc
          · refine ih _ ?_ hc
            exact h
          · simp at hc

theorem mem_dropLast_cons (x a : Call) (l : List Call) (h : x ∈ (a :: l).dropLast) :
    x = a ∨ x ∈ l.dropLast := by
  cases l with
  | nil => simp at h
  | cons b l =>
    rw [List.dropLast_cons_of_ne_nil (by simp)] at h
    exact List.mem_cons.1 h

/-- Whatever the arguments, every call of the loop but the last is a call on a file. -/
theorem main_traced_files_first (argv : List (List Char))
    (files : List Char → Option (List Char)) (cin : List Char) (fuel : Nat) (st : State)
    (call : Call) (hc : call ∈ (main_traced argv files cin fuel st).2.dropLast) :
    call.file_name ≠ none := by
  induction fuel generalizing st with
  | zero => simp [main_traced] at hc
  | succ fuel ih =>
    unfold main_traced at hc
    simp only [] at hc
    split at hc
    · split at hc
      · split at hc
        · simp at hc
        · simp at hc
      · split at hc
        · simp at hc
        · split at hc
          · rcases mem_dropLast_cons _ _ _ hc with e | e
            · rw [e]
              simp
            · exact ih _ e
          · simp at hc
          · simp at hc
          · simp at hc
    · split at hc
      · exact ih _ hc
      · split at hc
        · exact ih _ hc
        · split at hc
          · exact ih _ hc
          · simp at hc

/-- C12 as stated fails on the code: with `-c 1 a -K 0` a file name is given, yet after the
file `a` standard input is cut as well, with the specification `0` in zero-based mode, because
`-c` and `-K` make `file_name` null again. -/
theorem stdin_after_file_counterexample :
    main [['f'], ['-', 'c'], ['1'], ['a'], ['-', 'K'], ['0']]
        (fun name => if name = ['a'] then some "x,y\n1,2\n".toList else none)
        "p,q\n3,4\n".toList
      = ⟨"x\n1\np\n3\n".toList, .ok ()⟩ ∧
      (traced [['f'], ['-', 'c'], ['1'], ['a'], ['-', 'K'], ['0']]
        (fun name => if name = ['a'] then some "x,y\n1,2\n".toList else none)
        "p,q\n3,4\n".toList).2
      = [⟨some ['a'], some ['1'], true, true⟩, ⟨none, some ['0'], false, true⟩] := by
  decide

/-- C12 (amended), for command lines made of `-s`, `-c`, `-K` and file names: with no file
name, standard input is cut exactly once, as the only source, with the specification, mode and
header setting in effect after the arguments; with a file name and no `-c` or `-K` after the
last one, standard input is not cut and the run does not depend on it; in every run only the
last call can be on standard input, and it has the settings in effect after the arguments;
with a `-c` or `-K` after the last file name, a run that returns has cut standard input.
Whatever `argv` is, every call but the last is on a file.  With a `-c` or `-K` after the last
file name, standard input is cut unless a file stopped the run before: then the run has not
returned and every call made is on a file. -/
theorem standard_input_is_cut_last (name : List Char) (args : List Arg)
    (files : List Char → Option (List Char)) (cin : List Char)
    (hfiles : ∀ n, Arg.file n ∈ args → n.head? ≠ some '-') :
    (traced (command_line name args) files cin).1 = main (command_line name args) files cin ∧
      ((∀ a ∈ args, a.is_file = false) →
        traced (command_line name args) files cin
          = (⟨(parse_and_cut (spec_after args none) cin (mode_after args false)
                (header_after args true) []).cout,
              (parse_and_cut (spec_after args none) cin (mode_after args false)
                (header_after args true) []).result.bind fun _ => .ok ()⟩,
            [⟨none, spec_after args none, mode_after args false, header_after args true⟩])) ∧
      (∀ before file_name after, args = before ++ Arg.file file_name :: after →
        (∀ a ∈ after, a.is_columns = false) →
        (∀ call ∈ (traced (command_line name args) files cin).2, call.file_name ≠ none) ∧
          ∀ other, main (command_line name args) files other
            = main (command_line name args) files cin) ∧
      (∀ call ∈ (traced (command_line name args) files cin).2.dropLast,
        call.file_name ≠ none) ∧
      (∀ call ∈ (traced (command_line name args) files cin).2, call.file_name = none →
        call = ⟨none, spec_after args none, mode_after args false, header_after args true⟩) ∧
      (∀ before a after, args = before ++ a :: after → a.is_columns = true →
        (∀ b ∈ after, b.is_file = false) →
        (main (command_line name args) files cin).result = .ok () →
        (⟨none, spec_after args none, mode_after args false, header_after args true⟩ : Call)
          ∈ (traced (command_line name args) files cin).2) ∧
      (∀ argv, ∀ call ∈ (traced argv files cin).2.dropLast, call.file_name ≠ none) ∧
      (∀ before a after, args = before ++ a :: after → a.is_columns = true →
        (∀ b ∈ after, b.is_file = false) →
        (⟨none, spec_after args none, mode_after args false, header_after args true⟩ : Call)
            ∈ (traced (command_line name args) files cin).2 ∨
          ((main (command_line name args) files cin).result ≠ .ok () ∧
            ∀ call ∈ (traced (command_line name args) files cin).2,
              call.file_name ≠ none)) := by
  have ht := traced_eq_run_args name args files cin hfiles
  refine ⟨traced_fst _ _ _, ?_, ?_, ?_, ?_, ?_,
    fun argv call hc => main_traced_files_first argv files cin _ _ call hc, ?_⟩
  · intro hopt
    rw [ht, run_args_options files cin args _ _ _ _ _ hopt, null_after_options args hopt]
    rfl
  · intro before file_name after hargs hafter
    have hnull : null_after args true = false := by
      rw [hargs]
      exact null_after_file_last before after file_name true hafter
    refine ⟨?_, ?_⟩
    · intro call hc hn
      rw [ht] at hc
      have := (run_args_stdin_call files cin args _ _ _ _ _ call hc hn).1
      rw [hnull] at this
      exact absurd this (by simp)
    · intro other
      rw [← traced_fst, ← traced_fst, ht, traced_eq_run_args name args files other hfiles,
        run_args_without_stdin files other cin args _ _ _ _ _ hnull]
  · intro call hc
    rw [ht] at hc
    exact run_args_files_first files cin args _ _ _ _ _ call hc
  · intro call hc hn
    rw [ht] at hc
    exact (run_args_stdin_call files cin args _ _ _ _ _ call hc hn).2
  · intro before a after hargs ha hafter hok
    have hnull : null_after args true = true := by
      rw [hargs]
      exact null_after_columns_last before after a true ha hafter
    rw [← traced_fst, ht] at hok
    obtain ⟨call, hc, hn⟩ := run_args_stdin_reached files cin args _ _ _ _ _ hok hnull
    have := (run_args_stdin_call files cin args _ _ _ _ _ call hc hn).2
    rw [ht, ← this]
    exact hc
  · intro before a after hargs ha hafter
    have hnull : null_after args true = true := by
      rw [hargs]
      exact null_after_columns_last before after a true ha hafter
    rw [← traced_fst, ht]
    rcases run_args_stdin_or_stopped files cin args none true false true [] hnull
      with ⟨call, hc, hn⟩ | h
    · have := (run_args_stdin_call files cin args _ _ _ _ _ call hc hn).2
      rw [← this]
      exact Or.inl hc
    · exact Or.inr h

/-- Witness of C12: `-s -K 0` with no file name cuts standard input, and `-c 1 a` does not
read it. -/
theorem standard_input_is_cut_last_witness :
    main [['f'], ['-', 's'], ['-', 'K'], ['0']] (fun _ => none) "a,b\n1,2\n".toList
        = ⟨"1\n".toList, .ok ()⟩ ∧
      ∀ other, main [['f'], ['-', 'c'], ['1'], ['a']] (fun _ => some "a,b\n1,2\n".toList) other
        = main [['f'], ['-', 'c'], ['1'], ['a']] (fun _ => some "a,b\n1,2\n".toList) [] := by
  refine ⟨?_, ?_⟩
  · have h := standard_input_is_cut_last ['f'] [Arg.s, Arg.K ['0']] (fun _ => none)
      "a,b\n1,2\n".toList (by intro n hn; simp at hn)
    have h2 := h.2.1 (by decide)
    have h1 := h.1
    rw [h2] at h1
    simp only [command_line, List.flatMap_cons, List.flatMap_nil, Arg.argv, List.append_nil,
      List.singleton_append, List.cons_append, List.nil_append] at h1
    rw [← h1]
    decide
  · have h := standard_input_is_cut_last ['f'] [Arg.c ['1'], Arg.file ['a']]
      (fun _ => some "a,b\n1,2\n".toList) []
      (by
        intro n hn
        simp only [List.mem_cons, reduceCtorEq, Arg.file.injEq, List.mem_singleton,
          List.not_mem_nil, or_false, false_or] at hn
        subst hn
        decide)
    exact (h.2.2.1 [Arg.c ['1']] ['a'] [] rfl (by simp)).2

/-- C13: header suppression is its own piece of option state, for command lines made of `-s`,
`-c`, `-K` and file names: it starts as "print header" and `-c` and `-K` never change it, so
without `-s` every source is cut with the header wanted; and once `-s` has been seen, every
source cut afterwards, file or standard input, has its header suppressed, whatever `-c` and
`-K` follow.  Whatever `argv` is, the loop of `main` in a state with the header suppressed
makes only calls with the header suppressed. -/
theorem header_suppression_is_own_state (name : List Char) (args : List Arg)
    (files : List Char → Option (List Char)) (cin : List Char)
    (hfiles : ∀ n, Arg.file n ∈ args → n.head? ≠ some '-') :
    (traced (command_line name args) files cin).1 = main (command_line name args) files cin ∧
      ((∀ a ∈ args, a ≠ Arg.s) →
        ∀ call ∈ (traced (command_line name args) files cin).2, call.wants_header = true) ∧
      (∀ before after, args = before ++ Arg.s :: after →
        ∀ call ∈ ((traced (command_line name args) files cin).2).drop
          (before.countP Arg.is_file), call.wants_header = false) ∧
      (∀ argv fuel st, st.wants_header = false →
        ∀ call ∈ (main_traced argv files cin fuel st).2, call.wants_header = false) := by
  have ht := traced_eq_run_args name args files cin hfiles
  refine ⟨traced_fst _ _ _, ?_, ?_,
    fun argv fuel st h call hc => main_traced_header_stays_off argv files cin fuel st h call hc⟩
  · intro hs call hc
    rw [ht] at hc
    exact run_args_header_kept files cin args _ _ _ _ _ hs call hc
  · intro before after hargs call hc
    rw [ht, hargs] at hc
    exact run_args_header_after_s files cin before after _ _ _ _ _ call hc

/-- Witness of C13: `-c 1 a -s -K 0 a`: the first file is cut with its header, the second
file and standard input without. -/
theorem header_suppression_is_own_state_witness :
    (∀ call ∈ ((traced [['f'], ['-', 'c'], ['1'], ['a'], ['-', 's'], ['-', 'K'], ['0'], ['a']]
        (fun _ => some "x,y\n1,2\n".toList) []).2).drop 1, call.wants_header = false) ∧
      main [['f'], ['-', 'c'], ['1'], ['a'], ['-', 's'], ['-', 'K'], ['0'], ['a']]
        (fun _ => some "x,y\n1,2\n".toList) [] = ⟨"x\n1\n1\n".toList, .ok ()⟩ := by
  have h := header_suppression_is_own_state ['f']
    [Arg.c ['1'], Arg.file ['a'], Arg.s, Arg.K ['0'], Arg.file ['a']]
    (fun _ => some "x,y\n1,2\n".toList) []
    (by
      intro n hn
      simp only [List.mem_cons, reduceCtorEq, Arg.file.injEq, List.mem_singleton,
        List.not_mem_nil, or_false, false_or, or_self] at hn
      subst hn
      decide)
  exact ⟨h.2.2.1 [Arg.c ['1'], Arg.file ['a']] [Arg.K ['0'], Arg.file ['a']] rfl, by decide⟩

/-! ## Several sources under one option -/

/-- C1 fails on the code: `strtok` writes its terminators into the argument of `-c`, so the
second source sees only the first token.  With `-c 1,2` and two files that both hold `x,y`
and `1,2`, the first is printed whole and the second loses its second column. -/
theorem specification_cut_short_for_second_source :
    main [['f'], ['-', 'c'], ['1', ',', '2'], ['a'], ['b']]
        (fun name => if name = ['a'] ∨ name = ['b'] then some "x,y\n1,2\n".toList else none) []
      = ⟨"x,y\n1,2\nx\n1\n".toList, .ok ()⟩ ∧
      parse_and_cut (some ['1', ',', '2']) "x,y\n1,2\n".toList true true []
        = ⟨"x,y\n1,2\n".toList, .ok (some ['1', NUL, '2'])⟩ ∧
      parse_and_cut (some ['1', NUL, '2']) "x,y\n1,2\n".toList true true []
        = ⟨"x\n1\n".toList, .ok (some ['1', NUL, '2'])⟩ ∧
      resolve ['1', ',', '2'] ['x', ',', 'y'] true = .ok [0, 1] ∧
      resolve ['1', NUL, '2'] ['x', ',', 'y'] true = .ok [0] := by
  decide

end Fastcut
